import Mathlib

set_option maxHeartbeats 1600000

/-! Verification development for the CNOT-Dihedral operator algebra of
qiskit/quantum_info/operators/dihedral/dihedral.py.  The CNOTDihedral
class itself is embedded from that source; the phase-polynomial class
(SpecialPolynomial) it manipulates lives in a separate file that is not
part of the given sources, so it is modelled from the specification
(§4.2 of the spec).  Machine integers become Int with explicit `% 2`
and `% 8` where the source reduces; numpy arrays become lists; raised
exceptions become an `Except` error value. -/

/-- Python exceptions raised by the embedded methods. -/
inductive PyErr where
  | qiskitError : String → PyErr
  | notImplementedError : String → PyErr
  | attributeError : String → PyErr
deriving DecidableEq, Repr

/-- Modelled from the spec: position of the quadratic coefficient of the
unordered pair j < i in the canonical listing of the C(N,2) pairs
(pairs [j, i] grouped by increasing i). -/
def pos2 (j i : Nat) : Nat := Nat.choose i 2 + j

/-- Modelled from the spec: position of the cubic coefficient of the
triple k < j < i in the canonical listing of the C(N,3) triples. -/
def pos3 (k j i : Nat) : Nat := Nat.choose i 3 + Nat.choose j 2 + k

/-- Canonical listing of the quadratic-term index pairs of an N-variable
polynomial: [j, i] with j < i < N, grouped by increasing i. -/
def pairListC : Nat → List (List Nat)
  | 0 => []
  | n + 1 => pairListC n ++ (List.range n).map (fun j => [j, n])

/-- Canonical listing of the cubic-term index triples: [k, j, i] with
k < j < i < N, grouped by increasing i. -/
def tripleListC : Nat → List (List Nat)
  | 0 => []
  | n + 1 => tripleListC n ++ (pairListC n).map (fun t => t ++ [n])

/-- All 2-element combinations [a, b] of a list, in the order produced by
itertools.combinations. -/
def combos2 : List Nat → List (List Nat)
  | [] => []
  | a :: rest => rest.map (fun b => [a, b]) ++ combos2 rest

/-- All 3-element combinations of a list, in the order produced by
itertools.combinations. -/
def combos3 : List Nat → List (List Nat)
  | [] => []
  | a :: rest => (combos2 rest).map (fun t => a :: t) ++ combos3 rest

/-- Modelled from the spec: the phase multivariate polynomial of §4.2 —
N boolean variables, total degree at most 3, coefficients in Z/8 stored
as integers: a constant `weight_0`, the N linear coefficients `weight_1`,
the C(N,2) quadratic coefficients `weight_2` (canonical pair order) and
the C(N,3) cubic coefficients `weight_3` (canonical triple order). -/
structure SpecialPolynomial where
  weight_0 : Int
  weight_1 : List Int
  weight_2 : List Int
  weight_3 : List Int
deriving DecidableEq, Repr

namespace SpecialPolynomial

/-- Number of variables, read off from the stored linear coefficients. -/
def n_vars (p : SpecialPolynomial) : Nat := p.weight_1.length

/-- Modelled from the spec: `get_term` addresses one coefficient by the
sorted list of involved variable indices (length 0 constant, 1 linear,
2 quadratic, 3 cubic). -/
def get_term (p : SpecialPolynomial) (t : List Nat) : Int :=
  match t with
  | [] => p.weight_0
  | [j] => p.weight_1.getD j 0
  | [j, i] => p.weight_2.getD (pos2 j i) 0
  | [k, j, i] => p.weight_3.getD (pos3 k j i) 0
  | _ => 0

/-- Modelled from the spec: `set_term` overwrites one coefficient,
addressed like `get_term`. -/
def set_term (p : SpecialPolynomial) (t : List Nat) (v : Int) : SpecialPolynomial :=
  match t with
  | [] => { p with weight_0 := v }
  | [j] => { p with weight_1 := p.weight_1.set j v }
  | [j, i] => { p with weight_2 := p.weight_2.set (pos2 j i) v }
  | [k, j, i] => { p with weight_3 := p.weight_3.set (pos3 k j i) v }
  | _ => p

/-- Build the n-variable polynomial with constant `c` whose coefficient at
each canonical term `t` (1 ≤ length of t ≤ 3) is `f t`. -/
def mkPoly (n : Nat) (c : Int) (f : List Nat → Int) : SpecialPolynomial :=
  ⟨c, (List.range n).map (fun j => f [j]), (pairListC n).map f, (tripleListC n).map f⟩

/-- Modelled from the spec: the zero polynomial in n variables (what the
`SpecialPolynomial(n)` constructor builds). -/
def zero (n : Nat) : SpecialPolynomial := mkPoly n 0 (fun _ => 0)

/-- Modelled from the spec: addition, pointwise per term mod 8. -/
def add (p q : SpecialPolynomial) : SpecialPolynomial :=
  mkPoly p.n_vars ((p.weight_0 + q.weight_0) % 8)
    (fun t => (p.get_term t + q.get_term t) % 8)

/-- Modelled from the spec: scalar multiplication, mod 8 on every term. -/
def smul (c : Int) (p : SpecialPolynomial) : SpecialPolynomial :=
  mkPoly p.n_vars ((c * p.weight_0) % 8) (fun t => (c * p.get_term t) % 8)

/-- Test that the lists S and T together cover every index of t. -/
def covers (t S T : List Nat) : Bool := t.all (fun a => S.contains a || T.contains a)

/-- Modelled from the spec: coefficient of the monomial `t` in the
re-expanded product of two polynomials over boolean variables — the sum,
over all pairs of subsets S, T of t whose union is t, of the product of
the two coefficients, reduced mod 8.  Monomials of degree above 3 are
dropped by never being materialized. -/
def mulCoeff (p q : SpecialPolynomial) (t : List Nat) : Int :=
  ((t.sublists.map (fun S =>
    ((t.sublists.map (fun T =>
      if covers t S T then p.get_term S * q.get_term T else 0)).sum))).sum) % 8

/-- Modelled from the spec: polynomial product, re-expanded over the
boolean variables, reduced mod 8, truncated to degree ≤ 3. -/
def mul (p q : SpecialPolynomial) : SpecialPolynomial :=
  mkPoly p.n_vars (mulCoeff p q []) (mulCoeff p q)

/-- Modelled from the spec: `set_pj support` — the elementary parity
polynomial p_J whose coefficient at each non-empty subset t of the
support J is (-2)^(length of t - 1) mod 8, truncated to degree ≤ 3. -/
def set_pj (n : Nat) (support : List Nat) : SpecialPolynomial :=
  mkPoly n 0 (fun t =>
    if t ≠ [] ∧ t.all (fun a => support.contains a) then
      ((-2 : Int) ^ (t.length - 1)) % 8
    else 0)

/-- Modelled from the spec: substitute the polynomial `qs j` for variable
x_j in p, re-expand, reduce mod 8, drop monomials of degree above 3; the
result is w0 + Σ w1_j * q_j + Σ w2_ji * q_j * q_i + Σ w3_kji * q_k * q_j * q_i. -/
def evaluate (p : SpecialPolynomial) (qs : List SpecialPolynomial) : SpecialPolynomial :=
  let n := p.n_vars
  let q : Nat → SpecialPolynomial := fun j => qs.getD j (zero n)
  let r0 : SpecialPolynomial := mkPoly n (p.weight_0 % 8) (fun _ => 0)
  let r1 := (List.range n).foldl (fun acc j => add acc (smul (p.get_term [j]) (q j))) r0
  let r2 := (pairListC n).foldl (fun acc t =>
    match t with
    | [j, i] => add acc (smul (p.get_term t) (mul (q j) (q i)))
    | _ => acc) r1
  (tripleListC n).foldl (fun acc t =>
    match t with
    | [k, j, i] => add acc (smul (p.get_term t) (mul (mul (q k) (q j)) (q i)))
    | _ => acc) r2

end SpecialPolynomial

/-- The CNOT-Dihedral element of dihedral.py: qubit count, the N×N binary
matrix `linear` (list of rows), the binary shift vector, and the phase
polynomial. -/
structure CNOTDihedral where
  num_qubits : Nat
  linear : List (List Int)
  shift : List Int
  poly : SpecialPolynomial
deriving DecidableEq, Repr

namespace CNOTDihedral

/-- Identity n×n matrix over the integers (`np.eye(n)`). -/
def eye (n : Nat) : List (List Int) :=
  (List.range n).map (fun i => (List.range n).map (fun j => if i = j then 1 else 0))

/-- The n-qubit identity element built by `CNOTDihedral(num_qubits=n)`. -/
def ident (n : Nat) : CNOTDihedral :=
  ⟨n, eye n, List.replicate n 0, SpecialPolynomial.zero n⟩

/-- Embeds `_z2matmul`: `np.mod(np.dot(left, right), 2)`. -/
def z2matmul (left right : List (List Int)) : List (List Int) :=
  left.map (fun row =>
    (List.range (right.headD []).length).map (fun j =>
      (∑ k ∈ Finset.range right.length, row.getD k 0 * (right.getD k []).getD j 0) % 2))

/-- Embeds `_z2matvecmul`: `np.mod(np.dot(mat, vec), 2)`. -/
def z2matvecmul (mat : List (List Int)) (vec : List Int) : List Int :=
  mat.map (fun row => (∑ k ∈ Finset.range vec.length, row.getD k 0 * vec.getD k 0) % 2)

/-- Embeds the body of `_dot` after its dimension guard: left
multiplication self * other (apply other first, then self). -/
def dotRaw (self other : CNOTDihedral) : CNOTDihedral :=
  let result0 := ident self.num_qubits
  let shift := List.zipWith (fun a b => (a + b) % 2)
    (z2matvecmul self.linear other.shift) self.shift
  let linear := z2matmul self.linear other.linear
  let newVars := (List.range self.num_qubits).map (fun i =>
    let support := (List.range self.num_qubits).filter
      (fun j => (other.linear.getD i []).getD j 0 != 0)
    let poly := SpecialPolynomial.set_pj self.num_qubits support
    if other.shift.getD i 0 = 1 then
      let poly := SpecialPolynomial.smul (-1) poly
      { poly with weight_0 := (poly.weight_0 + 1) % 8 }
    else poly)
  let poly := SpecialPolynomial.add other.poly (self.poly.evaluate newVars)
  { result0 with shift := shift, linear := linear, poly := poly }

/-- Embeds `_dot` including its dimension guard. -/
def _dot (self other : CNOTDihedral) : Except PyErr CNOTDihedral :=
  if self.num_qubits ≠ other.num_qubits then
    .error (.qiskitError "Multiplication on different number of qubits.")
  else .ok (dotRaw self other)

/-- Embeds the body of `_compose` after its dimension guard: right
multiplication other * self. -/
def composeRaw (self other : CNOTDihedral) : CNOTDihedral :=
  let result0 := ident self.num_qubits
  let shift := List.zipWith (fun a b => (a + b) % 2)
    (z2matvecmul other.linear self.shift) other.shift
  let linear := z2matmul other.linear self.linear
  let newVars := (List.range self.num_qubits).map (fun i =>
    let support := (List.range other.num_qubits).filter
      (fun j => (self.linear.getD i []).getD j 0 != 0)
    let poly := SpecialPolynomial.set_pj self.num_qubits support
    if self.shift.getD i 0 = 1 then
      let poly := SpecialPolynomial.smul (-1) poly
      { poly with weight_0 := (poly.weight_0 + 1) % 8 }
    else poly)
  let poly := SpecialPolynomial.add self.poly (other.poly.evaluate newVars)
  { result0 with shift := shift, linear := linear, poly := poly }

/-- Embeds `_compose` including its dimension guard. -/
def _compose (self other : CNOTDihedral) : Except PyErr CNOTDihedral :=
  if self.num_qubits ≠ other.num_qubits then
    .error (.qiskitError "Multiplication on different number of qubits.")
  else .ok (composeRaw self other)

/-- Embeds `compose(other, qargs, front)`: rejects qargs, checks the
dimension, multiplies in the requested order, then zeroes the global
phase of the result. -/
def compose (self other : CNOTDihedral) (qargs : Option (List Nat)) (front : Bool) :
    Except PyErr CNOTDihedral :=
  if qargs ≠ none then
    .error (.notImplementedError "compose method does not support qargs.")
  else if self.num_qubits ≠ other.num_qubits then
    .error (.qiskitError "Incompatible dimension for composition")
  else
    let r := if front then dotRaw self other else composeRaw self other
    .ok { r with poly := { r.poly with weight_0 := 0 } }

/-- Embeds `_append_cx`. -/
def _append_cx (elem : CNOTDihedral) (i j : Nat) : Except PyErr CNOTDihedral :=
  if ¬ (i < elem.num_qubits ∧ j < elem.num_qubits) then
    .error (.qiskitError "CX qubits are out of bounds.")
  else
    let rowi := elem.linear.getD i []
    let rowj := elem.linear.getD j []
    .ok { elem with
      linear := elem.linear.set j (List.zipWith (fun a b => (a + b) % 2) rowi rowj),
      shift := elem.shift.set j ((elem.shift.getD i 0 + elem.shift.getD j 0) % 2) }

/-- Embeds `_append_phase`. -/
def _append_phase (elem : CNOTDihedral) (k : Int) (i : Nat) : Except PyErr CNOTDihedral :=
  if ¬ i < elem.num_qubits then .error (.qiskitError "phase qubit out of bounds.")
  else
    let k1 := if elem.shift.getD i 0 = 1 then (7 * k) % 8 else k
    let support := (List.range elem.num_qubits).filter
      (fun j => (elem.linear.getD i []).getD j 0 != 0)
    let p1 := support.foldl (fun q j =>
      q.set_term [j] ((q.get_term [j] + k1) % 8)) elem.poly
    let p2 := (combos2 support).foldl (fun q t =>
      q.set_term t ((q.get_term t + (-2) * k1) % 8)) p1
    let p3 := (combos3 support).foldl (fun q t =>
      q.set_term t ((q.get_term t + 4 * k1) % 8)) p2
    .ok { elem with poly := p3 }

/-- Embeds `_append_x`. -/
def _append_x (elem : CNOTDihedral) (i : Nat) : Except PyErr CNOTDihedral :=
  if ¬ i < elem.num_qubits then .error (.qiskitError "X qubit out of bounds.")
  else .ok { elem with shift := elem.shift.set i ((elem.shift.getD i 0 + 1) % 2) }

/-- View an integer matrix stored as a list of rows as an n×n matrix over
GF(2). -/
def toMat (n : Nat) (rows : List (List Int)) : Matrix (Fin n) (Fin n) (ZMod 2) :=
  Matrix.of fun i j => (((rows.getD i []).getD j 0 : Int) : ZMod 2)

/-- Embeds `_is_valid`.  The numpy invertibility test
`np.allclose(np.linalg.det(self.linear) % 2, 1)` is embedded exactly (not
through floating point) as the GF(2) determinant being 1. -/
def _is_valid (elem : CNOTDihedral) : Prop :=
  elem.poly.weight_0 = 0 ∧
  elem.poly.weight_1.length = elem.num_qubits ∧
  elem.poly.weight_2.length = elem.num_qubits * (elem.num_qubits - 1) / 2 ∧
  elem.poly.weight_3.length =
    elem.num_qubits * (elem.num_qubits - 1) * (elem.num_qubits - 2) / 6 ∧
  elem.linear.length = elem.num_qubits ∧
  (∀ row ∈ elem.linear, row.length = elem.num_qubits) ∧
  elem.shift.length = elem.num_qubits ∧
  (toMat elem.num_qubits elem.linear).det = 1 ∧
  (∀ v ∈ elem.poly.weight_1, v ∈ ([0, 1, 2, 3, 4, 5, 6, 7] : List Int)) ∧
  (∀ v ∈ elem.poly.weight_2, v ∈ ([0, 2, 4, 6] : List Int)) ∧
  (∀ v ∈ elem.poly.weight_3, v ∈ ([0, 4] : List Int)) ∧
  (∀ v ∈ elem.shift, v ∈ ([0, 1] : List Int)) ∧
  (∀ row ∈ elem.linear, ∀ v ∈ row, v ∈ ([0, 1] : List Int))

instance (elem : CNOTDihedral) : Decidable elem._is_valid := by
  unfold _is_valid; infer_instance

/-- Core of `_tensor` once the operand order is fixed: elem0 occupies the
low-index qubits of the block construction. -/
def tensorCore (elem0 elem1 : CNOTDihedral) : CNOTDihedral :=
  let n0 := elem0.num_qubits
  let n1 := elem1.num_qubits
  let result0 := ident (n0 + n1)
  let linear := elem0.linear.map (fun r => r ++ List.replicate n1 0) ++
    elem1.linear.map (fun r => List.replicate n0 0 ++ r)
  let shift := elem0.shift ++ elem1.shift
  let poly1 := (List.range n0).foldl (fun q i =>
    let q := q.set_term [i] (elem0.poly.get_term [i])
    (List.range i).foldl (fun q j =>
      let q := q.set_term [j, i] (elem0.poly.get_term [j, i])
      (List.range j).foldl (fun q k =>
        q.set_term [k, j, i] (elem0.poly.get_term [k, j, i])) q) q) result0.poly
  let poly2 := (List.range n1).foldl (fun q i =>
    let q := q.set_term [i + n0] (elem1.poly.get_term [i])
    (List.range i).foldl (fun q j =>
      let q := q.set_term [j + n0, i + n0] (elem1.poly.get_term [j, i])
      (List.range j).foldl (fun q k =>
        q.set_term [k + n0, j + n0, i + n0] (elem1.poly.get_term [k, j, i])) q) q) poly1
  { result0 with linear := linear, shift := shift, poly := poly2 }

/-- Embeds `_tensor(other, reverse)`. -/
def _tensor (self other : CNOTDihedral) (reverse : Bool) : CNOTDihedral :=
  if reverse then tensorCore self other else tensorCore other self

/-- Embeds `tensor`. -/
def tensor (self other : CNOTDihedral) : CNOTDihedral := _tensor self other true

/-- Embeds `expand`. -/
def expand (self other : CNOTDihedral) : CNOTDihedral := _tensor self other false

/-- Embeds `__eq__`: componentwise comparison of the polynomial, the
linear matrix and the shift vector. -/
def eqv (a b : CNOTDihedral) : Prop :=
  a.poly = b.poly ∧ a.linear = b.linear ∧ a.shift = b.shift

/-- Python truthiness of the optional `num_qubits` argument. -/
def truthy : Option Nat → Bool
  | none => false
  | some n => n != 0

/-- Embeds `__init__` for the construction paths the claims exercise:
`num_qubits` given (identity construction) and `data` an existing
CNOTDihedral element.  The attributes assigned by the selected branch are
tracked explicitly: `none` for the `_num_qubits` component records that
the attribute was never assigned, so that reading it for the
`super().__init__(num_qubits=self._num_qubits)` call raises an
AttributeError, exactly as in the source. -/
def init (data : Option CNOTDihedral) (num_qubits : Option Nat) (validate : Bool) :
    Except PyErr CNOTDihedral :=
  let fields : Except PyErr (Option Nat × List (List Int) × List Int × SpecialPolynomial) :=
    if truthy num_qubits then
      let n := num_qubits.getD 0
      .ok (some n, eye n, List.replicate n 0, SpecialPolynomial.zero n)
    else
      match data with
      | some elem => .ok (none, elem.linear, elem.shift, elem.poly)
      | none => .error (.qiskitError "Invalid input type for CNOTDihedral class.")
  match fields with
  | .error e => .error e
  | .ok (nq, lin, sh, p) =>
    match nq with
    | none => .error (.attributeError "_num_qubits")
    | some n =>
      let elem : CNOTDihedral := ⟨n, lin, sh, p⟩
      if validate ∧ ¬ elem._is_valid then
        .error (.qiskitError "Invalid CNOTDihedral element.")
      else .ok elem

/-- Step 3 of the composition algorithm of §4.4 for result = A ∘ B: the
parity polynomial of the support of row i of B.linear, negated with its
constant incremented by 1 mod 8 when B.shift[i] is 1. -/
def specNewVar (B : CNOTDihedral) (n i : Nat) : SpecialPolynomial :=
  let support := (List.range n).filter (fun j => (B.linear.getD i []).getD j 0 != 0)
  let pj := SpecialPolynomial.set_pj n support
  if B.shift.getD i 0 = 1 then
    { SpecialPolynomial.smul (-1) pj with
      weight_0 := ((SpecialPolynomial.smul (-1) pj).weight_0 + 1) % 8 }
  else pj

/-- The composition algorithm of §4.4 for result = A ∘ B (apply B first,
then A), written index-wise from the spec: result.shift =
(A.linear · B.shift + A.shift) mod 2, result.linear = (A.linear · B.linear)
mod 2, new_vars as in `specNewVar`, and — with step 4 amended to what the
code computes — result.poly = B.poly + A.poly.evaluate(new_vars). -/
def specCombine (A B : CNOTDihedral) : CNOTDihedral :=
  { num_qubits := A.num_qubits
    shift := (List.range A.num_qubits).map (fun idx =>
      ((∑ k ∈ Finset.range A.num_qubits,
        (A.linear.getD idx []).getD k 0 * B.shift.getD k 0) + A.shift.getD idx 0) % 2)
    linear := (List.range A.num_qubits).map (fun idx =>
      (List.range A.num_qubits).map (fun jdx =>
        (∑ k ∈ Finset.range A.num_qubits,
          (A.linear.getD idx []).getD k 0 * (B.linear.getD k []).getD jdx 0) % 2))
    poly := SpecialPolynomial.add B.poly
      (A.poly.evaluate ((List.range A.num_qubits).map (specNewVar B A.num_qubits))) }

end CNOTDihedral

/-- Concrete 1-qubit element with phase polynomial x_0 (a T gate on the
identity affine function). -/
def exT : CNOTDihedral := ⟨1, [[1]], [0], ⟨0, [1], [], []⟩⟩

/-- Concrete 1-qubit element with shift 1 (an X gate). -/
def exX : CNOTDihedral := ⟨1, [[1]], [1], ⟨0, [0], [], []⟩⟩

/-- Concrete 2-qubit element produced by applying CX(0,1) to the identity:
linear [[1,0],[1,1]], zero shift, zero polynomial. -/
def exCX : CNOTDihedral := ⟨2, [[1, 0], [1, 1]], [0, 0], SpecialPolynomial.zero 2⟩

/-- Concrete 1-qubit element that is well-formed in every field except a
polynomial constant term of 1 (nonzero global phase). -/
def exBad : CNOTDihedral := ⟨1, [[1]], [0], ⟨1, [0], [], []⟩⟩

/-- The conjugated phase power of `_append_phase`: k is replaced by
(7k) mod 8 when shift[i] is 1. -/
def phaseK (elem : CNOTDihedral) (k : Int) (i : Nat) : Int :=
  if elem.shift.getD i 0 = 1 then (7 * k) % 8 else k

/-- The support of row i of the linear matrix, as computed by
`_append_phase`: the indices j < N with linear[i][j] nonzero. -/
def phaseSupport (elem : CNOTDihedral) (i : Nat) : List Nat :=
  (List.range elem.num_qubits).filter (fun j => (elem.linear.getD i []).getD j 0 != 0)

def setOp (q : SpecialPolynomial) (pv : List Nat × Int) : SpecialPolynomial :=
  q.set_term pv.1 pv.2

/-- The list of set_term operations performed by the `_tensor` term-copy
loops for one operand block, offset by `off` wires. -/
def opsBlock (p : SpecialPolynomial) (off n : Nat) : List (List Nat × Int) :=
  (List.range n).flatMap (fun i =>
    ([i + off], p.get_term [i]) ::
    (List.range i).flatMap (fun j =>
      ([j + off, i + off], p.get_term [j, i]) ::
      (List.range j).map (fun k => ([k + off, j + off, i + off], p.get_term [k, j, i]))))

/-- Select the single-variable operations, as weight_1 positions. -/
def sel1 (pv : List Nat × Int) : Option (Nat × Int) :=
  match pv.1 with
  | [a] => some (a, pv.2)
  | _ => none

/-- Select the pair operations, as weight_2 positions. -/
def sel2 (pv : List Nat × Int) : Option (Nat × Int) :=
  match pv.1 with
  | [a, b] => some (pos2 a b, pv.2)
  | _ => none

/-- Select the triple operations, as weight_3 positions. -/
def sel3 (pv : List Nat × Int) : Option (Nat × Int) :=
  match pv.1 with
  | [a, b, c] => some (pos3 a b c, pv.2)
  | _ => none

/-! Infrastructure lemmas about the canonical term listings. -/

/-- A term list is canonical for n variables: strictly increasing indices
all below n. -/
def canon (n : Nat) (t : List Nat) : Prop :=
  t.Pairwise (· < ·) ∧ ∀ a ∈ t, a < n

theorem pairListC_length (n : Nat) : (pairListC n).length = n.choose 2 := by
  induction n with
  | zero => rfl
  | succ m ih =>
    simp [pairListC, ih, Nat.choose_succ_succ m 1, Nat.choose_one_right]
    omega

theorem tripleListC_length (n : Nat) : (tripleListC n).length = n.choose 3 := by
  induction n with
  | zero => rfl
  | succ m ih =>
    simp [tripleListC, ih, pairListC_length, Nat.choose_succ_succ m 2]
    omega

theorem pos2_lt_choose {j i n : Nat} (hj : j < i) (hi : i < n) : pos2 j i < n.choose 2 := by
  have e1 : (i + 1).choose 2 = i.choose 1 + i.choose 2 := rfl
  have e2 : i.choose 1 = i := Nat.choose_one_right i
  have h3 : (i + 1).choose 2 ≤ n.choose 2 := Nat.choose_le_choose 2 hi
  simp only [pos2]
  omega

theorem pos3_lt_choose {k j i n : Nat} (hk : k < j) (hj : j < i) (hi : i < n) :
    pos3 k j i < n.choose 3 := by
  have e1 : (i + 1).choose 3 = i.choose 2 + i.choose 3 := rfl
  have e2 : (j + 1).choose 2 = j.choose 1 + j.choose 2 := rfl
  have e3 : j.choose 1 = j := Nat.choose_one_right j
  have h4 : (j + 1).choose 2 ≤ i.choose 2 := Nat.choose_le_choose 2 hj
  have h5 : (i + 1).choose 3 ≤ n.choose 3 := Nat.choose_le_choose 3 hi
  simp only [pos3]
  omega

theorem pairListC_getD {j i n : Nat} (hj : j < i) (hi : i < n) :
    (pairListC n).getD (pos2 j i) [] = [j, i] := by
  induction n with
  | zero => omega
  | succ m ih =>
    rcases Nat.lt_or_ge i m with him | him
    · have hlt : pos2 j i < (pairListC m).length := by
        rw [pairListC_length]; exact pos2_lt_choose hj him
      rw [pairListC, List.getD_append _ _ _ _ hlt]
      exact ih him
    · have him' : i = m := by omega
      subst him'
      have hlen : (pairListC i).length = Nat.choose i 2 := pairListC_length i
      have : pos2 j i = (pairListC i).length + j := by simp [pos2, hlen]
      rw [pairListC, this, List.getD_append_right _ _ _ _ (Nat.le_add_right _ _)]
      simp [hj]

theorem tripleListC_getD {k j i n : Nat} (hk : k < j) (hj : j < i) (hi : i < n) :
    (tripleListC n).getD (pos3 k j i) [] = [k, j, i] := by
  induction n with
  | zero => omega
  | succ m ih =>
    rcases Nat.lt_or_ge i m with him | him
    · have hlt : pos3 k j i < (tripleListC m).length := by
        rw [tripleListC_length]; exact pos3_lt_choose hk hj him
      rw [tripleListC, List.getD_append _ _ _ _ hlt]
      exact ih him
    · have him' : i = m := by omega
      subst him'
      have hlen : (tripleListC i).length = Nat.choose i 3 := tripleListC_length i
      have hsplit : pos3 k j i = (tripleListC i).length + pos2 k j := by
        simp [pos3, pos2, hlen]; omega
      rw [tripleListC, hsplit, List.getD_append_right _ _ _ _ (Nat.le_add_right _ _)]
      have hplt : pos2 k j < (pairListC i).length := by
        rw [pairListC_length]; exact pos2_lt_choose hk hj
      rw [Nat.add_sub_cancel_left]
      rw [List.getD_eq_getElem _ _ (by simpa using hplt), List.getElem_map]
      have := @pairListC_getD k j i hk hj
      rw [List.getD_eq_getElem _ _ hplt] at this
      rw [this]
      rfl

theorem pairListC_mem {t : List Nat} {n : Nat} (ht : t ∈ pairListC n) :
    ∃ j i, j < i ∧ i < n ∧ t = [j, i] := by
  induction n with
  | zero => simp [pairListC] at ht
  | succ m ih =>
    rw [pairListC, List.mem_append] at ht
    rcases ht with h | h
    · obtain ⟨j, i, h1, h2, h3⟩ := ih h
      exact ⟨j, i, h1, by omega, h3⟩
    · simp only [List.mem_map, List.mem_range] at h
      obtain ⟨j, hj, rfl⟩ := h
      exact ⟨j, m, hj, by omega, rfl⟩

theorem tripleListC_mem {t : List Nat} {n : Nat} (ht : t ∈ tripleListC n) :
    ∃ k j i, k < j ∧ j < i ∧ i < n ∧ t = [k, j, i] := by
  induction n with
  | zero => simp [tripleListC] at ht
  | succ m ih =>
    rw [tripleListC, List.mem_append] at ht
    rcases ht with h | h
    · obtain ⟨k, j, i, h1, h2, h3, h4⟩ := ih h
      exact ⟨k, j, i, h1, h2, by omega, h4⟩
    · simp only [List.mem_map] at h
      obtain ⟨s, hs, rfl⟩ := h
      obtain ⟨k, j, h1, h2, rfl⟩ := pairListC_mem hs
      exact ⟨k, j, m, h1, h2, by omega, rfl⟩

theorem pairListC_nodup (n : Nat) : (pairListC n).Nodup := by
  induction n with
  | zero => simp [pairListC]
  | succ m ih =>
    rw [pairListC]
    refine List.Nodup.append ih ?_ ?_
    · exact (List.nodup_range m).map (fun a b hab => by simpa using hab)
    · intro t ht ht2
      obtain ⟨j, i, _, hi, rfl⟩ := pairListC_mem ht
      simp only [List.mem_map, List.mem_range] at ht2
      obtain ⟨b, _, hb⟩ := ht2
      have : i = m := by
        injection hb with h1 h2
        injection h2 with h3 h4
        exact h3.symm
      omega

theorem tripleListC_nodup (n : Nat) : (tripleListC n).Nodup := by
  induction n with
  | zero => simp [tripleListC]
  | succ m ih =>
    rw [tripleListC]
    refine List.Nodup.append ih ?_ ?_
    · exact (pairListC_nodup m).map (fun a b hab => by simpa using hab)
    · intro t ht ht2
      obtain ⟨k, j, i, _, _, hi, rfl⟩ := tripleListC_mem ht
      simp only [List.mem_map] at ht2
      obtain ⟨s, hs, hb⟩ := ht2
      obtain ⟨a0, b0, _, hb0, rfl⟩ := pairListC_mem hs
      injection hb with h1 h2
      injection h2 with h3 h4
      injection h4 with h5 h6
      omega

/-! Reading coefficients of polynomials built with `mkPoly`. -/

theorem get_mkPoly_nil (n : Nat) (c : Int) (f : List Nat → Int) :
    (SpecialPolynomial.mkPoly n c f).get_term [] = c := rfl

theorem get_mkPoly_one {j n : Nat} (hj : j < n) (c : Int) (f : List Nat → Int) :
    (SpecialPolynomial.mkPoly n c f).get_term [j] = f [j] := by
  simp only [SpecialPolynomial.get_term, SpecialPolynomial.mkPoly]
  rw [List.getD_eq_getElem _ _ (by simpa using hj)]
  simp

theorem get_mkPoly_two {j i n : Nat} (hj : j < i) (hi : i < n) (c : Int) (f : List Nat → Int) :
    (SpecialPolynomial.mkPoly n c f).get_term [j, i] = f [j, i] := by
  have hp : pos2 j i < (pairListC n).length := by
    rw [pairListC_length]; exact pos2_lt_choose hj hi
  simp only [SpecialPolynomial.get_term, SpecialPolynomial.mkPoly]
  rw [List.getD_eq_getElem _ _ (by simpa using hp), List.getElem_map]
  rw [show (pairListC n)[pos2 j i] = [j, i] from by
    rw [← List.getD_eq_getElem _ [] hp]; exact pairListC_getD hj hi]

theorem get_mkPoly_three {k j i n : Nat} (hk : k < j) (hj : j < i) (hi : i < n)
    (c : Int) (f : List Nat → Int) :
    (SpecialPolynomial.mkPoly n c f).get_term [k, j, i] = f [k, j, i] := by
  have hp : pos3 k j i < (tripleListC n).length := by
    rw [tripleListC_length]; exact pos3_lt_choose hk hj hi
  simp only [SpecialPolynomial.get_term, SpecialPolynomial.mkPoly]
  rw [List.getD_eq_getElem _ _ (by simpa using hp), List.getElem_map]
  rw [show (tripleListC n)[pos3 k j i] = [k, j, i] from by
    rw [← List.getD_eq_getElem _ [] hp]; exact tripleListC_getD hk hj hi]

theorem get_long_eq_zero (p : SpecialPolynomial) (t : List Nat) (ht : 4 ≤ t.length) :
    p.get_term t = 0 := by
  match t, ht with
  | a :: b :: c :: d :: rest, _ => rfl

/-! Coefficient values either occur in the stored weight lists or are the
out-of-range default 0. -/

theorem get_one_cases (p : SpecialPolynomial) (j : Nat) :
    p.get_term [j] ∈ p.weight_1 ∨ p.get_term [j] = 0 := by
  simp only [SpecialPolynomial.get_term]
  rcases Nat.lt_or_ge j p.weight_1.length with h | h
  · left; rw [List.getD_eq_getElem _ _ h]; exact List.getElem_mem _
  · right; exact List.getD_eq_default _ _ h

theorem get_two_cases (p : SpecialPolynomial) (j i : Nat) :
    p.get_term [j, i] ∈ p.weight_2 ∨ p.get_term [j, i] = 0 := by
  simp only [SpecialPolynomial.get_term]
  rcases Nat.lt_or_ge (pos2 j i) p.weight_2.length with h | h
  · left; rw [List.getD_eq_getElem _ _ h]; exact List.getElem_mem _
  · right; exact List.getD_eq_default _ _ h

theorem get_three_cases (p : SpecialPolynomial) (k j i : Nat) :
    p.get_term [k, j, i] ∈ p.weight_3 ∨ p.get_term [k, j, i] = 0 := by
  simp only [SpecialPolynomial.get_term]
  rcases Nat.lt_or_ge (pos3 k j i) p.weight_3.length with h | h
  · left; rw [List.getD_eq_getElem _ _ h]; exact List.getElem_mem _
  · right; exact List.getD_eq_default _ _ h

/-! Bridging the code's closed-form term counts to binomial coefficients. -/

theorem two_mul_choose_two (n : Nat) : 2 * n.choose 2 = n * (n - 1) := by
  induction n with
  | zero => rfl
  | succ m ih =>
    have e1 : (m + 1).choose 2 = m.choose 1 + m.choose 2 := rfl
    have e2 : m.choose 1 = m := Nat.choose_one_right m
    cases m with
    | zero => rfl
    | succ p =>
      rw [e1, e2, Nat.mul_add, ih]
      simp only [Nat.succ_sub_one]
      ring

theorem six_mul_choose_three_aux (r : Nat) : 6 * (r + 2).choose 3 = (r + 2) * (r + 1) * r := by
  induction r with
  | zero => rfl
  | succ b ihb =>
    have e1 : (b + 3).choose 3 = (b + 2).choose 2 + (b + 2).choose 3 := rfl
    have e2 : 2 * (b + 2).choose 2 = (b + 2) * (b + 1) := by
      have h := two_mul_choose_two (b + 2)
      have e : b + 2 - 1 = b + 1 := rfl
      rw [e] at h; exact h
    show 6 * (b + 3).choose 3 = (b + 3) * (b + 2) * (b + 1)
    rw [e1, Nat.mul_add, ihb]
    calc 6 * (b + 2).choose 2 + (b + 2) * (b + 1) * b
        = 3 * (2 * (b + 2).choose 2) + (b + 2) * (b + 1) * b := by ring
      _ = 3 * ((b + 2) * (b + 1)) + (b + 2) * (b + 1) * b := by rw [e2]
      _ = (b + 3) * (b + 2) * (b + 1) := by ring

theorem six_mul_choose_three (n : Nat) : 6 * n.choose 3 = n * (n - 1) * (n - 2) := by
  match n with
  | 0 => rfl
  | 1 => rfl
  | m + 2 =>
    have h := six_mul_choose_three_aux m
    have e1 : m + 2 - 1 = m + 1 := rfl
    have e2 : m + 2 - 2 = m := by omega
    rw [e1, e2]; exact h

theorem choose_three_eq (n : Nat) : n.choose 3 = n * (n - 1) * (n - 2) / 6 := by
  rw [← six_mul_choose_three n]
  exact (Nat.mul_div_cancel_left _ (by norm_num : 0 < 6)).symm

theorem choose_two_eq (n : Nat) : n.choose 2 = n * (n - 1) / 2 := Nat.choose_two_right n

/-! Generic list helpers used when relating the matrix operations to their
index-wise spec formulations. -/

theorem map_eq_range_getD_map {α β : Type} (l : List α) (d : α) (n : Nat)
    (hl : l.length = n) (f : α → β) :
    l.map f = (List.range n).map (fun i => f (l.getD i d)) := by
  apply List.ext_getElem
  · simp [hl]
  · intro i h1 h2
    simp only [List.getElem_map, List.getElem_range]
    rw [List.getD_eq_getElem _ _ (by simp at h1; omega)]

theorem headD_row_length {B : List (List Int)} {n : Nat} (hBl : B.length = n)
    (hBlr : ∀ row ∈ B, row.length = n) : (B.headD []).length = n := by
  cases B with
  | nil => simpa using hBl
  | cons r rs => exact hBlr r (List.mem_cons_self r rs)

/-- C9: constructing a CNOTDihedral from an existing CNOTDihedral element
(data an existing element, num_qubits omitted) does not return a copy:
that branch assigns linear, shift and poly by reference but never assigns
the element's `_num_qubits`, which is read immediately afterwards when
initializing the base operator, so the constructor fails with an
AttributeError for every input element and either validate flag. -/
theorem C9_init_from_elem_attribute_error (e : CNOTDihedral) (validate : Bool) :
    CNOTDihedral.init (some e) none validate =
      Except.error (PyErr.attributeError "_num_qubits") := rfl

/-- C7: composition of elements with differing qubit counts fails with the
dimension-mismatch QiskitError (for either multiplication order selected
by `front`), and passing any non-None qargs qubit-subset argument fails
with NotImplementedError — full-width composition only. -/
theorem C7_compose_errors (A B : CNOTDihedral) (front : Bool) :
    (A.num_qubits ≠ B.num_qubits →
      A.compose B none front =
        Except.error (PyErr.qiskitError "Incompatible dimension for composition")) ∧
    (∀ qargs : List Nat,
      A.compose B (some qargs) front =
        Except.error (PyErr.notImplementedError "compose method does not support qargs.")) := by
  constructor
  · intro h
    simp [CNOTDihedral.compose, h]
  · intro qargs
    simp [CNOTDihedral.compose]

/-- Witness for C7 at one-qubit and two-qubit identity elements. -/
theorem C7_compose_errors_witness :
    (CNOTDihedral.ident 1).compose (CNOTDihedral.ident 2) none true =
      Except.error (PyErr.qiskitError "Incompatible dimension for composition") ∧
    (CNOTDihedral.ident 1).compose (CNOTDihedral.ident 2) (some [0]) true =
      Except.error (PyErr.notImplementedError "compose method does not support qargs.") :=
  ⟨(C7_compose_errors (CNOTDihedral.ident 1) (CNOTDihedral.ident 2) true).1 (by decide),
   (C7_compose_errors (CNOTDihedral.ident 1) (CNOTDihedral.ident 2) true).2 [0]⟩

/-- C1 counterexample: at the concrete one-qubit elements exT (phase
polynomial x_0, identity affine part) and exX (bit flip), `_dot` returns
the element computed by `dotRaw`, whose polynomial is 1 + 7·x_0 — but the
literal step 4 of the claim, A.poly + B.poly.evaluate(new_vars), yields
x_0.  The two differ, refuting the claimed formula for result.poly. -/
theorem C1_dot_spec_poly_counterexample :
    exT._dot exX = Except.ok (exT.dotRaw exX) ∧
    (exT.dotRaw exX).poly ≠
      SpecialPolynomial.add exT.poly
        (exX.poly.evaluate ((List.range 1).map (CNOTDihedral.specNewVar exX 1))) := by
  refine ⟨rfl, ?_⟩
  decide

/-- C1 (amended): for every pair of elements with equal num_qubits (and
the matching array shapes every constructor-produced element has), `_dot`
with self = A, other = B succeeds and follows the four-step algorithm of
§4.4 — result.shift = (A.linear·B.shift + A.shift) mod 2, result.linear =
(A.linear·B.linear) mod 2, new_vars the list of N parity polynomials
p_support(B.linear row i) negated with constant incremented by 1 mod 8
when B.shift[i] = 1 — with step 4 amended to what the code computes:
result.poly = B.poly + A.poly.evaluate(new_vars). -/
theorem C1_dot_follows_algorithm (A B : CNOTDihedral)
    (h : A.num_qubits = B.num_qubits)
    (hAl : A.linear.length = A.num_qubits)
    (hAs : A.shift.length = A.num_qubits)
    (hBl : B.linear.length = A.num_qubits)
    (hBlr : ∀ row ∈ B.linear, row.length = A.num_qubits)
    (hBs : B.shift.length = A.num_qubits) :
    A._dot B = Except.ok (CNOTDihedral.specCombine A B) := by
  have hdot : A._dot B = Except.ok (A.dotRaw B) := by
    simp [CNOTDihedral._dot, h]
  rw [hdot]
  congr 1
  have hhead : (B.linear.headD []).length = A.num_qubits := headD_row_length hBl hBlr
  have hlin : CNOTDihedral.z2matmul A.linear B.linear =
      (List.range A.num_qubits).map (fun idx =>
        (List.range A.num_qubits).map (fun jdx =>
          (∑ k ∈ Finset.range A.num_qubits,
            (A.linear.getD idx []).getD k 0 * (B.linear.getD k []).getD jdx 0) % 2)) := by
    unfold CNOTDihedral.z2matmul
    rw [hhead, hBl, map_eq_range_getD_map A.linear [] A.num_qubits hAl]
  have hshift : List.zipWith (fun a b => (a + b) % 2)
      (CNOTDihedral.z2matvecmul A.linear B.shift) A.shift =
      (List.range A.num_qubits).map (fun idx =>
        ((∑ k ∈ Finset.range A.num_qubits,
          (A.linear.getD idx []).getD k 0 * B.shift.getD k 0) + A.shift.getD idx 0) % 2) := by
    apply List.ext_getElem
    · simp [CNOTDihedral.z2matvecmul, hAl, hAs]
    · intro idx h1 h2
      simp only [List.getElem_zipWith, List.getElem_map, List.getElem_range]
      have hidx : idx < A.num_qubits := by
        simp at h2; omega
      unfold CNOTDihedral.z2matvecmul
      rw [List.getElem_map]
      rw [List.getD_eq_getElem A.linear [] (by omega : idx < A.linear.length)]
      rw [List.getD_eq_getElem A.shift 0 (by omega : idx < A.shift.length)]
      simp only [hBs]
      rw [Int.emod_add_emod]
  unfold CNOTDihedral.dotRaw CNOTDihedral.specCombine
  simp only [CNOTDihedral.mk.injEq]
  exact ⟨rfl, hlin, hshift, rfl⟩

/-- Witness for C1's amended theorem at the concrete pair exT, exX. -/
theorem C1_dot_follows_algorithm_witness :
    (exT.num_qubits = exX.num_qubits ∧ exT.linear.length = exT.num_qubits ∧
      exT.shift.length = exT.num_qubits ∧ exX.linear.length = exT.num_qubits ∧
      (∀ row ∈ exX.linear, row.length = exT.num_qubits) ∧
      exX.shift.length = exT.num_qubits) ∧
    exT._dot exX = Except.ok (CNOTDihedral.specCombine exT exX) :=
  ⟨⟨by decide, by decide, by decide, by decide, by decide, by decide⟩,
   C1_dot_follows_algorithm exT exX (by decide) (by decide) (by decide) (by decide)
     (by decide) (by decide)⟩

theorem getD_set_self {α : Type} {l : List α} {i : Nat} (h : i < l.length) (v d : α) :
    (l.set i v).getD i d = v := by
  rw [List.getD_eq_getElem _ _ (by rw [List.length_set]; exact h), List.getElem_set_self]

theorem getD_set_ne {α : Type} {l : List α} {i j : Nat} (hj : j < l.length) (hne : i ≠ j)
    (v d : α) : (l.set i v).getD j d = l.getD j d := by
  rw [List.getD_eq_getElem _ _ (by rw [List.length_set]; exact hj),
    List.getElem_set_ne hne, List.getD_eq_getElem _ _ hj]

theorem getD_zipWith {α β γ : Type} {f : α → β → γ} {l1 : List α} {l2 : List β} {c : Nat}
    (h1 : c < l1.length) (h2 : c < l2.length) (d1 : α) (d2 : β) (d : γ) :
    (List.zipWith f l1 l2).getD c d = f (l1.getD c d1) (l2.getD c d2) := by
  rw [List.getD_eq_getElem _ _ (by rw [List.length_zipWith]; omega), List.getElem_zipWith,
    List.getD_eq_getElem _ _ h1, List.getD_eq_getElem _ _ h2]

/-- C5: `_append_cx` fails with the QubitIndexError when either index is
out of [0, N); for in-range indices it succeeds, leaving the polynomial
and every other row of linear and entry of shift unchanged, XORing row
target of linear with row control entrywise and XORing shift[target]
with shift[control] (mod-2 addition of binary values).  In particular on
the 2-qubit identity, `_append_cx 0 1` produces the element with
linear = [[1,0],[1,1]], shift = [0,0] and the zero polynomial, which has
GF(2) determinant 1 and passes the §4.7 validity predicate. -/
theorem C5_append_cx_behavior :
    (∀ (elem : CNOTDihedral) (control target : Nat),
      (¬ (control < elem.num_qubits ∧ target < elem.num_qubits) →
        elem._append_cx control target =
          Except.error (PyErr.qiskitError "CX qubits are out of bounds.")) ∧
      (elem.linear.length = elem.num_qubits →
        (∀ row ∈ elem.linear, row.length = elem.num_qubits) →
        elem.shift.length = elem.num_qubits →
        control < elem.num_qubits → target < elem.num_qubits →
        ∃ r, elem._append_cx control target = Except.ok r ∧
          r.num_qubits = elem.num_qubits ∧
          r.poly = elem.poly ∧
          r.linear.length = elem.num_qubits ∧
          r.shift.length = elem.num_qubits ∧
          (∀ c < elem.num_qubits, (r.linear.getD target []).getD c 0 =
            ((elem.linear.getD control []).getD c 0 +
              (elem.linear.getD target []).getD c 0) % 2) ∧
          (∀ rr < elem.num_qubits, rr ≠ target →
            r.linear.getD rr [] = elem.linear.getD rr []) ∧
          (r.shift.getD target 0 =
            (elem.shift.getD control 0 + elem.shift.getD target 0) % 2) ∧
          (∀ s < elem.num_qubits, s ≠ target →
            r.shift.getD s 0 = elem.shift.getD s 0))) ∧
    ((CNOTDihedral.ident 2)._append_cx 0 1 = Except.ok exCX ∧
      (CNOTDihedral.toMat 2 exCX.linear).det = 1 ∧ exCX._is_valid) := by
  constructor
  · intro elem control target
    constructor
    · intro hout
      unfold CNOTDihedral._append_cx
      rw [if_pos hout]
    · intro hl hlr hs hc ht
      have hrowc : (elem.linear.getD control []).length = elem.num_qubits := by
        rw [List.getD_eq_getElem _ _ (by omega : control < elem.linear.length)]
        exact hlr _ (List.getElem_mem _)
      have hrowt : (elem.linear.getD target []).length = elem.num_qubits := by
        rw [List.getD_eq_getElem _ _ (by omega : target < elem.linear.length)]
        exact hlr _ (List.getElem_mem _)
      refine ⟨{ elem with
          linear := elem.linear.set target (List.zipWith (fun a b => (a + b) % 2)
            (elem.linear.getD control []) (elem.linear.getD target [])),
          shift := elem.shift.set target
            ((elem.shift.getD control 0 + elem.shift.getD target 0) % 2) },
        ?_, rfl, rfl, ?_, ?_, ?_, ?_, ?_, ?_⟩
      · unfold CNOTDihedral._append_cx
        rw [if_neg (not_not_intro ⟨hc, ht⟩)]
      · dsimp only; rw [List.length_set]; exact hl
      · dsimp only; rw [List.length_set]; exact hs
      · intro c hcn
        dsimp only
        rw [getD_set_self (by omega : target < elem.linear.length)]
        rw [@getD_zipWith Int Int Int (fun a b => (a + b) % 2)
          (elem.linear.getD control []) (elem.linear.getD target []) c
          (by omega) (by omega) 0 0 0]
      · intro rr hrr hne
        dsimp only
        rw [getD_set_ne (by omega : rr < elem.linear.length) (by omega : target ≠ rr)]
      · dsimp only
        rw [getD_set_self (by omega : target < elem.shift.length)]
      · intro s hsn hne
        dsimp only
        rw [getD_set_ne (by omega : s < elem.shift.length) (by omega : target ≠ s)]
  · refine ⟨rfl, by decide, by decide⟩

/-- Witness for C5: the out-of-range error and the in-range success,
each obtained by applying the C5 theorem at concrete inputs. -/
theorem C5_append_cx_behavior_witness :
    (CNOTDihedral.ident 2)._append_cx 0 5 =
      Except.error (PyErr.qiskitError "CX qubits are out of bounds.") ∧
    (∃ r, (CNOTDihedral.ident 2)._append_cx 0 1 = Except.ok r ∧
      r.num_qubits = (CNOTDihedral.ident 2).num_qubits ∧
      r.poly = (CNOTDihedral.ident 2).poly ∧
      r.linear.length = (CNOTDihedral.ident 2).num_qubits ∧
      r.shift.length = (CNOTDihedral.ident 2).num_qubits ∧
      (∀ c < (CNOTDihedral.ident 2).num_qubits, (r.linear.getD 1 []).getD c 0 =
        (((CNOTDihedral.ident 2).linear.getD 0 []).getD c 0 +
          ((CNOTDihedral.ident 2).linear.getD 1 []).getD c 0) % 2) ∧
      (∀ rr < (CNOTDihedral.ident 2).num_qubits, rr ≠ 1 →
        r.linear.getD rr [] = (CNOTDihedral.ident 2).linear.getD rr []) ∧
      (r.shift.getD 1 0 =
        ((CNOTDihedral.ident 2).shift.getD 0 0 + (CNOTDihedral.ident 2).shift.getD 1 0) % 2) ∧
      (∀ s < (CNOTDihedral.ident 2).num_qubits, s ≠ 1 →
        r.shift.getD s 0 = (CNOTDihedral.ident 2).shift.getD s 0)) :=
  ⟨(C5_append_cx_behavior.1 (CNOTDihedral.ident 2) 0 5).1 (by decide),
   (C5_append_cx_behavior.1 (CNOTDihedral.ident 2) 0 1).2 (by decide) (by decide)
     (by decide) (by decide) (by decide)⟩

/-- C10: for every element (with constructor shapes) and in-range index i,
the call `_append_cx i i` with control equal to target is accepted without
error; it sets row i of linear to all zeros and shift[i] to 0, making the
linear matrix singular over GF(2) (determinant 0), so the result fails
the §4.7 validity predicate — the invertibility invariant is not
preserved by this mutator call. -/
theorem C10_append_cx_self (elem : CNOTDihedral) (i : Nat)
    (hi : i < elem.num_qubits)
    (hl : elem.linear.length = elem.num_qubits)
    (hs : elem.shift.length = elem.num_qubits) :
    ∃ r, elem._append_cx i i = Except.ok r ∧
      r.num_qubits = elem.num_qubits ∧
      (∀ j, (r.linear.getD i []).getD j 0 = 0) ∧
      r.shift.getD i 0 = 0 ∧
      (CNOTDihedral.toMat r.num_qubits r.linear).det = 0 ∧
      ¬ r._is_valid := by
  have hzero : ∀ j, ((elem.linear.set i (List.zipWith (fun a b => (a + b) % 2)
      (elem.linear.getD i []) (elem.linear.getD i []))).getD i []).getD j 0 = 0 := by
    intro j
    rw [getD_set_self (by omega : i < elem.linear.length)]
    rcases Nat.lt_or_ge j (List.zipWith (fun a b => (a + b) % 2)
      (elem.linear.getD i []) (elem.linear.getD i [])).length with hjl | hjl
    · have hj : j < (elem.linear.getD i []).length := by
        rw [List.length_zipWith, Nat.min_self] at hjl; exact hjl
      rw [@getD_zipWith Int Int Int (fun a b => (a + b) % 2)
        (elem.linear.getD i []) (elem.linear.getD i []) j hj hj 0 0 0]
      omega
    · exact List.getD_eq_default _ _ hjl
  have det0 : (CNOTDihedral.toMat elem.num_qubits
      (elem.linear.set i (List.zipWith (fun a b => (a + b) % 2)
        (elem.linear.getD i []) (elem.linear.getD i [])))).det = 0 := by
    apply Matrix.det_eq_zero_of_row_eq_zero ⟨i, hi⟩
    intro j
    unfold CNOTDihedral.toMat
    simp only [Matrix.of_apply]
    rw [hzero]
    simp
  refine ⟨{ elem with
      linear := elem.linear.set i (List.zipWith (fun a b => (a + b) % 2)
        (elem.linear.getD i []) (elem.linear.getD i [])),
      shift := elem.shift.set i
        ((elem.shift.getD i 0 + elem.shift.getD i 0) % 2) },
    ?_, rfl, ?_, ?_, ?_, ?_⟩
  · unfold CNOTDihedral._append_cx
    rw [if_neg (not_not_intro ⟨hi, hi⟩)]
  · intro j
    dsimp only
    exact hzero j
  · dsimp only
    rw [getD_set_self (by omega : i < elem.shift.length)]
    omega
  · dsimp only
    exact det0
  · intro hval
    unfold CNOTDihedral._is_valid at hval
    obtain ⟨-, -, -, -, -, -, -, hdet, -⟩ := hval
    dsimp only at hdet
    rw [det0] at hdet
    exact absurd hdet (by decide)

/-- Witness for C10 at the 2-qubit identity with i = 0. -/
theorem C10_append_cx_self_witness :
    ∃ r, (CNOTDihedral.ident 2)._append_cx 0 0 = Except.ok r ∧
      r.num_qubits = (CNOTDihedral.ident 2).num_qubits ∧
      (∀ j, (r.linear.getD 0 []).getD j 0 = 0) ∧
      r.shift.getD 0 0 = 0 ∧
      (CNOTDihedral.toMat r.num_qubits r.linear).det = 0 ∧
      ¬ r._is_valid :=
  C10_append_cx_self (CNOTDihedral.ident 2) 0 (by decide) (by decide) (by decide)

/-- Units of the 2x2-and-larger GF(2) matrix ring are exactly the
matrices of determinant 1. -/
theorem zmod2_matrix_isUnit_iff {n : Nat} (M : Matrix (Fin n) (Fin n) (ZMod 2)) :
    IsUnit M ↔ M.det = 1 := by
  rw [Matrix.isUnit_iff_isUnit_det]
  constructor
  · intro h
    rw [isUnit_iff_ne_zero] at h
    have hall : ∀ u : ZMod 2, u = 0 ∨ u = 1 := by decide
    rcases hall M.det with h1 | h1
    · exact absurd h1 h
    · exact h1
  · intro h
    rw [h]
    exact isUnit_one

/-- C2: `_is_valid` holds exactly when: the polynomial constant term is 0;
the term counts are N linear, C(N,2) quadratic and C(N,3) cubic; linear is
N rows of N entries, shift has length N, and linear is invertible over
GF(2); every linear-term coefficient lies in 0..7, every quadratic-term
coefficient in 0,2,4,6, every cubic-term coefficient in 0,4; and every
shift and linear entry lies in 0,1.  In particular an element whose
polynomial constant term is 1 is classified invalid. -/
theorem C2_is_valid_iff (elem : CNOTDihedral) :
    (elem._is_valid ↔
      (elem.poly.weight_0 = 0 ∧
       elem.poly.weight_1.length = elem.num_qubits ∧
       elem.poly.weight_2.length = elem.num_qubits.choose 2 ∧
       elem.poly.weight_3.length = elem.num_qubits.choose 3 ∧
       elem.linear.length = elem.num_qubits ∧
       (∀ row ∈ elem.linear, row.length = elem.num_qubits) ∧
       elem.shift.length = elem.num_qubits ∧
       IsUnit (CNOTDihedral.toMat elem.num_qubits elem.linear) ∧
       (∀ v ∈ elem.poly.weight_1, v ∈ ([0, 1, 2, 3, 4, 5, 6, 7] : List Int)) ∧
       (∀ v ∈ elem.poly.weight_2, v ∈ ([0, 2, 4, 6] : List Int)) ∧
       (∀ v ∈ elem.poly.weight_3, v ∈ ([0, 4] : List Int)) ∧
       (∀ v ∈ elem.shift, v ∈ ([0, 1] : List Int)) ∧
       (∀ row ∈ elem.linear, ∀ v ∈ row, v ∈ ([0, 1] : List Int)))) ∧
    (elem.poly.weight_0 = 1 → ¬ elem._is_valid) := by
  constructor
  · rw [choose_two_eq, choose_three_eq, zmod2_matrix_isUnit_iff]
    unfold CNOTDihedral._is_valid
    exact Iff.rfl
  · intro h1 hval
    have h0 := hval.1
    rw [h1] at h0
    exact absurd h0 (by decide)

/-- Witness for C2: the concrete element exBad, well-formed except for a
constant term of 1, is classified invalid. -/
theorem C2_is_valid_iff_witness : ¬ exBad._is_valid :=
  (C2_is_valid_iff exBad).2 (by decide)

/-! Fold machinery for the sequential set_term updates performed by
`_append_phase` and `_tensor`. -/


theorem foldl_set_bump (ps : List Nat) (l : List Int) (δ : Int)
    (hnodup : ps.Nodup) (hin : ∀ p ∈ ps, p < l.length) (m : Nat) :
    (ps.foldl (fun acc p => acc.set p ((acc.getD p 0 + δ) % 8)) l).getD m 0 =
      if m ∈ ps then (l.getD m 0 + δ) % 8 else l.getD m 0 := by
  induction ps generalizing l with
  | nil => simp
  | cons a rest ih =>
    simp only [List.foldl_cons]
    have ha : a < l.length := hin a (List.mem_cons_self a rest)
    have hlen : (l.set a ((l.getD a 0 + δ) % 8)).length = l.length :=
      List.length_set l a _
    rw [ih _ (List.Nodup.of_cons hnodup)
      (fun p hp => by rw [hlen]; exact hin p (List.mem_cons_of_mem a hp))]
    by_cases hm : m ∈ rest
    · have hma : m ≠ a := fun h => (List.nodup_cons.mp hnodup).1 (h ▸ hm)
      simp only [hm, if_true, List.mem_cons, or_true]
      rw [getD_set_ne (hin m (List.mem_cons_of_mem a hm)) (fun h => hma h.symm)]
    · by_cases hma : m = a
      · subst hma
        simp only [hm, if_false, List.mem_cons, true_or, if_true]
        rw [getD_set_self ha]
      · simp only [hm, if_false, List.mem_cons, hma, false_or, or_self]
        rcases Nat.lt_or_ge m l.length with h | h
        · rw [getD_set_ne h (fun hx => hma hx.symm)]
        · rw [List.getD_eq_default _ _ (by omega : l.length ≤ m),
            List.getD_eq_default _ _ (by rw [hlen]; omega)]

theorem phase_fold1_eq (s : List Nat) (p : SpecialPolynomial) (δ : Int) :
    s.foldl (fun q j => q.set_term [j] ((q.get_term [j] + δ) % 8)) p =
      { p with weight_1 := s.foldl (fun acc j => acc.set j ((acc.getD j 0 + δ) % 8)) p.weight_1 } := by
  induction s generalizing p with
  | nil => rfl
  | cons a rest ih =>
    simp only [List.foldl_cons]
    rw [ih]
    rfl

theorem phase_fold2_eq (ts : List (List Nat)) (p : SpecialPolynomial) (δ : Int)
    (hshape : ∀ t ∈ ts, ∃ a b, t = [a, b]) :
    ts.foldl (fun q t => q.set_term t ((q.get_term t + δ) % 8)) p =
      { p with weight_2 := ((ts.map (fun t => pos2 (t.getD 0 0) (t.getD 1 0))).foldl
          (fun acc m => acc.set m ((acc.getD m 0 + δ) % 8)) p.weight_2) } := by
  induction ts generalizing p with
  | nil => rfl
  | cons t rest ih =>
    obtain ⟨a, b, rfl⟩ := hshape t (List.mem_cons_self t rest)
    simp only [List.foldl_cons, List.map_cons]
    rw [ih _ (fun u hu => hshape u (List.mem_cons_of_mem _ hu))]
    rfl

theorem phase_fold3_eq (ts : List (List Nat)) (p : SpecialPolynomial) (δ : Int)
    (hshape : ∀ t ∈ ts, ∃ a b c, t = [a, b, c]) :
    ts.foldl (fun q t => q.set_term t ((q.get_term t + δ) % 8)) p =
      { p with weight_3 := ((ts.map (fun t => pos3 (t.getD 0 0) (t.getD 1 0) (t.getD 2 0))).foldl
          (fun acc m => acc.set m ((acc.getD m 0 + δ) % 8)) p.weight_3) } := by
  induction ts generalizing p with
  | nil => rfl
  | cons t rest ih =>
    obtain ⟨a, b, c, rfl⟩ := hshape t (List.mem_cons_self t rest)
    simp only [List.foldl_cons, List.map_cons]
    rw [ih _ (fun u hu => hshape u (List.mem_cons_of_mem _ hu))]
    rfl

theorem pos2_inj {j i j' i' : Nat} (h1 : j < i) (h2 : j' < i')
    (he : pos2 j i = pos2 j' i') : j = j' ∧ i = i' := by
  rcases Nat.lt_trichotomy i i' with h | h | h
  · exfalso
    have hb := pos2_lt_choose h1 h
    simp only [pos2] at hb he
    omega
  · subst h
    simp only [pos2] at he
    omega
  · exfalso
    have hb := pos2_lt_choose h2 h
    simp only [pos2] at hb he
    omega

theorem pos3_inj {k j i k' j' i' : Nat} (hk : k < j) (hj : j < i)
    (hk' : k' < j') (hj' : j' < i')
    (he : pos3 k j i = pos3 k' j' i') : k = k' ∧ j = j' ∧ i = i' := by
  rcases Nat.lt_trichotomy i i' with h | h | h
  · exfalso
    have hb := pos3_lt_choose hk hj h
    simp only [pos3] at hb he
    omega
  · subst h
    have he2 : pos2 k j = pos2 k' j' := by
      simp only [pos3] at he
      simp only [pos2]
      omega
    obtain ⟨hh1, hh2⟩ := pos2_inj hk hk' he2
    exact ⟨hh1, hh2, rfl⟩
  · exfalso
    have hb := pos3_lt_choose hk' hj' h
    simp only [pos3] at hb he
    omega

theorem combos2_mem {s : List Nat} (hs : s.Pairwise (· < ·)) {t : List Nat}
    (ht : t ∈ combos2 s) : ∃ a b, t = [a, b] ∧ a < b ∧ a ∈ s ∧ b ∈ s := by
  induction s with
  | nil => simp [combos2] at ht
  | cons x rest ih =>
    rw [combos2, List.mem_append] at ht
    rcases ht with h | h
    · simp only [List.mem_map] at h
      obtain ⟨b, hb, rfl⟩ := h
      exact ⟨x, b, rfl, (List.pairwise_cons.mp hs).1 b hb,
        List.mem_cons_self x rest, List.mem_cons_of_mem x hb⟩
    · obtain ⟨a, b, h1, h2, h3, h4⟩ := ih (List.pairwise_cons.mp hs).2 h
      exact ⟨a, b, h1, h2, List.mem_cons_of_mem x h3, List.mem_cons_of_mem x h4⟩

theorem combos3_mem {s : List Nat} (hs : s.Pairwise (· < ·)) {t : List Nat}
    (ht : t ∈ combos3 s) :
    ∃ a b c, t = [a, b, c] ∧ a < b ∧ b < c ∧ a ∈ s ∧ b ∈ s ∧ c ∈ s := by
  induction s with
  | nil => simp [combos3] at ht
  | cons x rest ih =>
    rw [combos3, List.mem_append] at ht
    rcases ht with h | h
    · simp only [List.mem_map] at h
      obtain ⟨u, hu, rfl⟩ := h
      obtain ⟨b, c, rfl, hbc, hb, hc⟩ := combos2_mem (List.pairwise_cons.mp hs).2 hu
      exact ⟨x, b, c, rfl, (List.pairwise_cons.mp hs).1 b hb, hbc,
        List.mem_cons_self x rest, List.mem_cons_of_mem x hb, List.mem_cons_of_mem x hc⟩
    · obtain ⟨a, b, c, h1, h2, h3, h4, h5, h6⟩ := ih (List.pairwise_cons.mp hs).2 h
      exact ⟨a, b, c, h1, h2, h3, List.mem_cons_of_mem x h4,
        List.mem_cons_of_mem x h5, List.mem_cons_of_mem x h6⟩

theorem combos2_nodup {s : List Nat} (hs : s.Pairwise (· < ·)) : (combos2 s).Nodup := by
  induction s with
  | nil => simp [combos2]
  | cons x rest ih =>
    rw [combos2]
    refine List.Nodup.append ?_ (ih (List.pairwise_cons.mp hs).2) ?_
    · exact List.Nodup.map (fun a b hab => by simpa using hab)
        ((List.pairwise_cons.mp hs).2.imp Nat.ne_of_lt)
    · intro t ht ht2
      simp only [List.mem_map] at ht
      obtain ⟨b, hb, rfl⟩ := ht
      obtain ⟨a, c, heq, hac, ha, hc⟩ := combos2_mem (List.pairwise_cons.mp hs).2 ht2
      have hxa : x < a := (List.pairwise_cons.mp hs).1 a ha
      injection heq with e1 e2
      omega

theorem combos3_nodup {s : List Nat} (hs : s.Pairwise (· < ·)) : (combos3 s).Nodup := by
  induction s with
  | nil => simp [combos3]
  | cons x rest ih =>
    rw [combos3]
    refine List.Nodup.append ?_ (ih (List.pairwise_cons.mp hs).2) ?_
    · exact List.Nodup.map (fun a b hab => by simpa using hab)
        (combos2_nodup (List.pairwise_cons.mp hs).2)
    · intro t ht ht2
      simp only [List.mem_map] at ht
      obtain ⟨u, hu, rfl⟩ := ht
      obtain ⟨a, b, c, heq, hab, hbc, ha, hb, hc⟩ :=
        combos3_mem (List.pairwise_cons.mp hs).2 ht2
      have hxa : x < a := (List.pairwise_cons.mp hs).1 a ha
      injection heq with e1 e2
      omega

/-- The support rows used by `_append_phase` are strictly increasing. -/
theorem support_pairwise (elem : CNOTDihedral) (i : Nat) :
    (phaseSupport elem i).Pairwise (· < ·) :=
  List.Pairwise.sublist (List.filter_sublist _) (List.pairwise_lt_range _)

theorem support_mem_lt {elem : CNOTDihedral} {i j : Nat}
    (hj : j ∈ phaseSupport elem i) : j < elem.num_qubits := by
  unfold phaseSupport at hj
  simpa using List.mem_of_mem_filter hj

/-- C4: `_append_phase k i` fails with the QubitIndexError for i outside
[0, N) (returning an error, changing nothing); for in-range i it first
replaces k by (7k) mod 8 when shift[i] = 1 (`phaseK`), and then, with
support the indices j with linear[i][j] nonzero, adds k to the polynomial
term of every 1-subset of the support, -2k to every 2-subset and 4k to
every 3-subset, all mod 8, leaving the affine data, the constant and all
other terms unchanged. -/
theorem C4_append_phase_behavior (elem : CNOTDihedral) (k : Int) (i : Nat)
    (hw1 : elem.poly.weight_1.length = elem.num_qubits)
    (hw2 : elem.poly.weight_2.length = elem.num_qubits.choose 2)
    (hw3 : elem.poly.weight_3.length = elem.num_qubits.choose 3) :
    (¬ i < elem.num_qubits →
      elem._append_phase k i =
        Except.error (PyErr.qiskitError "phase qubit out of bounds.")) ∧
    (i < elem.num_qubits →
      ∃ r, elem._append_phase k i = Except.ok r ∧
        r.num_qubits = elem.num_qubits ∧
        r.linear = elem.linear ∧ r.shift = elem.shift ∧
        r.poly.weight_0 = elem.poly.weight_0 ∧
        (∀ j ∈ phaseSupport elem i,
          r.poly.get_term [j] = (elem.poly.get_term [j] + phaseK elem k i) % 8) ∧
        (∀ j, j ∉ phaseSupport elem i →
          r.poly.get_term [j] = elem.poly.get_term [j]) ∧
        (∀ t ∈ combos2 (phaseSupport elem i),
          r.poly.get_term t = (elem.poly.get_term t + (-2) * phaseK elem k i) % 8) ∧
        (∀ a b, a < b → [a, b] ∉ combos2 (phaseSupport elem i) →
          r.poly.get_term [a, b] = elem.poly.get_term [a, b]) ∧
        (∀ t ∈ combos3 (phaseSupport elem i),
          r.poly.get_term t = (elem.poly.get_term t + 4 * phaseK elem k i) % 8) ∧
        (∀ a b c, a < b → b < c → [a, b, c] ∉ combos3 (phaseSupport elem i) →
          r.poly.get_term [a, b, c] = elem.poly.get_term [a, b, c])) := by
  have hsup : (phaseSupport elem i).Pairwise (· < ·) := support_pairwise elem i
  have hnodup : (phaseSupport elem i).Nodup := hsup.imp Nat.ne_of_lt
  have hsh2 : ∀ t ∈ combos2 (phaseSupport elem i), ∃ a b, t = [a, b] := by
    intro t ht
    obtain ⟨a, b, h1, _, _, _⟩ := combos2_mem hsup ht
    exact ⟨a, b, h1⟩
  have hsh3 : ∀ t ∈ combos3 (phaseSupport elem i), ∃ a b c, t = [a, b, c] := by
    intro t ht
    obtain ⟨a, b, c, h1, _, _, _, _, _⟩ := combos3_mem hsup ht
    exact ⟨a, b, c, h1⟩
  have hnd2 : ((combos2 (phaseSupport elem i)).map
      (fun t => pos2 (t.getD 0 0) (t.getD 1 0))).Nodup := by
    refine List.Nodup.map_on ?_ (combos2_nodup hsup)
    intro t1 h1 t2 h2 he
    obtain ⟨a1, b1, e1, hab1, _, _⟩ := combos2_mem hsup h1
    obtain ⟨a2, b2, e2, hab2, _, _⟩ := combos2_mem hsup h2
    subst e1; subst e2
    simp only [List.getD] at he
    obtain ⟨ea, eb⟩ := pos2_inj hab1 hab2 he
    rw [ea, eb]
  have hnd3 : ((combos3 (phaseSupport elem i)).map
      (fun t => pos3 (t.getD 0 0) (t.getD 1 0) (t.getD 2 0))).Nodup := by
    refine List.Nodup.map_on ?_ (combos3_nodup hsup)
    intro t1 h1 t2 h2 he
    obtain ⟨a1, b1, c1, e1, hab1, hbc1, _, _, _⟩ := combos3_mem hsup h1
    obtain ⟨a2, b2, c2, e2, hab2, hbc2, _, _, _⟩ := combos3_mem hsup h2
    subst e1; subst e2
    simp only [List.getD] at he
    obtain ⟨ea, eb, ec⟩ := pos3_inj hab1 hbc1 hab2 hbc2 he
    rw [ea, eb, ec]
  have hin2 : ∀ m ∈ (combos2 (phaseSupport elem i)).map
      (fun t => pos2 (t.getD 0 0) (t.getD 1 0)), m < elem.poly.weight_2.length := by
    intro m hm
    simp only [List.mem_map] at hm
    obtain ⟨t, ht, rfl⟩ := hm
    obtain ⟨a, b, rfl, hab, _, hb⟩ := combos2_mem hsup ht
    simp only [List.getD]
    rw [hw2]
    exact pos2_lt_choose hab (support_mem_lt hb)
  have hin3 : ∀ m ∈ (combos3 (phaseSupport elem i)).map
      (fun t => pos3 (t.getD 0 0) (t.getD 1 0) (t.getD 2 0)), m < elem.poly.weight_3.length := by
    intro m hm
    simp only [List.mem_map] at hm
    obtain ⟨t, ht, rfl⟩ := hm
    obtain ⟨a, b, c, rfl, hab, hbc, _, _, hc⟩ := combos3_mem hsup ht
    simp only [List.getD]
    rw [hw3]
    exact pos3_lt_choose hab hbc (support_mem_lt hc)
  have hin1 : ∀ j ∈ phaseSupport elem i, j < elem.poly.weight_1.length := by
    intro j hj
    rw [hw1]
    exact support_mem_lt hj
  constructor
  · intro hout
    unfold CNOTDihedral._append_phase
    rw [if_pos hout]
  · intro hi
    have hpoly : ((combos3 (phaseSupport elem i)).foldl (fun q t =>
        q.set_term t ((q.get_term t + 4 * phaseK elem k i) % 8))
        ((combos2 (phaseSupport elem i)).foldl (fun q t =>
          q.set_term t ((q.get_term t + (-2) * phaseK elem k i) % 8))
          ((phaseSupport elem i).foldl (fun q j =>
            q.set_term [j] ((q.get_term [j] + phaseK elem k i) % 8)) elem.poly))) =
        ⟨elem.poly.weight_0,
         (phaseSupport elem i).foldl
           (fun acc j => acc.set j ((acc.getD j 0 + phaseK elem k i) % 8)) elem.poly.weight_1,
         ((combos2 (phaseSupport elem i)).map (fun t => pos2 (t.getD 0 0) (t.getD 1 0))).foldl
           (fun acc m => acc.set m ((acc.getD m 0 + (-2) * phaseK elem k i) % 8))
           elem.poly.weight_2,
         ((combos3 (phaseSupport elem i)).map
           (fun t => pos3 (t.getD 0 0) (t.getD 1 0) (t.getD 2 0))).foldl
           (fun acc m => acc.set m ((acc.getD m 0 + 4 * phaseK elem k i) % 8))
           elem.poly.weight_3⟩ := by
      rw [phase_fold1_eq,
        phase_fold2_eq (combos2 (phaseSupport elem i)) _ _ hsh2,
        phase_fold3_eq (combos3 (phaseSupport elem i)) _ _ hsh3]
    refine ⟨{ elem with poly :=
        ((combos3 (phaseSupport elem i)).foldl (fun q t =>
          q.set_term t ((q.get_term t + 4 * phaseK elem k i) % 8))
          ((combos2 (phaseSupport elem i)).foldl (fun q t =>
            q.set_term t ((q.get_term t + (-2) * phaseK elem k i) % 8))
            ((phaseSupport elem i).foldl (fun q j =>
              q.set_term [j] ((q.get_term [j] + phaseK elem k i) % 8)) elem.poly))) },
      ?_, rfl, rfl, rfl, ?_, ?_, ?_, ?_, ?_, ?_, ?_⟩
    · unfold CNOTDihedral._append_phase
      rw [if_neg (not_not_intro hi)]
      rfl
    · dsimp only
      rw [hpoly]
    · intro j hj
      dsimp only
      rw [hpoly]
      show ((phaseSupport elem i).foldl _ elem.poly.weight_1).getD j 0 = _
      rw [foldl_set_bump _ _ _ hnodup hin1 j, if_pos hj]
      rfl
    · intro j hj
      dsimp only
      rw [hpoly]
      show ((phaseSupport elem i).foldl _ elem.poly.weight_1).getD j 0 = _
      rw [foldl_set_bump _ _ _ hnodup hin1 j, if_neg hj]
      rfl
    · intro t ht
      obtain ⟨a, b, rfl, hab, _, _⟩ := combos2_mem hsup ht
      dsimp only
      rw [hpoly]
      show (((combos2 (phaseSupport elem i)).map _).foldl _ elem.poly.weight_2).getD
        (pos2 a b) 0 = _
      have hmem : pos2 a b ∈ (combos2 (phaseSupport elem i)).map
          (fun t => pos2 (t.getD 0 0) (t.getD 1 0)) :=
        List.mem_map.mpr ⟨[a, b], ht, rfl⟩
      rw [foldl_set_bump _ _ _ hnd2 hin2 (pos2 a b), if_pos hmem]
      rfl
    · intro a b hab habm
      dsimp only
      rw [hpoly]
      show (((combos2 (phaseSupport elem i)).map _).foldl _ elem.poly.weight_2).getD
        (pos2 a b) 0 = _
      rw [foldl_set_bump _ _ _ hnd2 hin2 (pos2 a b), if_neg ?_]
      · rfl
      · intro hmem
        simp only [List.mem_map] at hmem
        obtain ⟨t, ht, he⟩ := hmem
        obtain ⟨a2, b2, rfl, hab2, _, _⟩ := combos2_mem hsup ht
        simp only [List.getD] at he
        obtain ⟨ea, eb⟩ := pos2_inj hab2 hab he
        rw [ea, eb] at ht
        exact habm ht
    · intro t ht
      obtain ⟨a, b, c, rfl, hab, hbc, _, _, _⟩ := combos3_mem hsup ht
      dsimp only
      rw [hpoly]
      show (((combos3 (phaseSupport elem i)).map _).foldl _ elem.poly.weight_3).getD
        (pos3 a b c) 0 = _
      have hmem : pos3 a b c ∈ (combos3 (phaseSupport elem i)).map
          (fun t => pos3 (t.getD 0 0) (t.getD 1 0) (t.getD 2 0)) :=
        List.mem_map.mpr ⟨[a, b, c], ht, rfl⟩
      rw [foldl_set_bump _ _ _ hnd3 hin3 (pos3 a b c), if_pos hmem]
      rfl
    · intro a b c hab hbc habm
      dsimp only
      rw [hpoly]
      show (((combos3 (phaseSupport elem i)).map _).foldl _ elem.poly.weight_3).getD
        (pos3 a b c) 0 = _
      rw [foldl_set_bump _ _ _ hnd3 hin3 (pos3 a b c), if_neg ?_]
      · rfl
      · intro hmem
        simp only [List.mem_map] at hmem
        obtain ⟨t, ht, he⟩ := hmem
        obtain ⟨a2, b2, c2, rfl, hab2, hbc2, _, _, _⟩ := combos3_mem hsup ht
        simp only [List.getD] at he
        obtain ⟨ea, eb, ec⟩ := pos3_inj hab2 hbc2 hab hbc he
        rw [ea, eb, ec] at ht
        exact habm ht

/-- Witness for C4 at the concrete element exCX with k = 1, i = 1. -/
theorem C4_append_phase_behavior_witness :
    (¬ (1:Nat) < exCX.num_qubits →
      exCX._append_phase 1 1 =
        Except.error (PyErr.qiskitError "phase qubit out of bounds.")) ∧
    ((1:Nat) < exCX.num_qubits →
      ∃ r, exCX._append_phase 1 1 = Except.ok r ∧
        r.num_qubits = exCX.num_qubits ∧
        r.linear = exCX.linear ∧ r.shift = exCX.shift ∧
        r.poly.weight_0 = exCX.poly.weight_0 ∧
        (∀ j ∈ phaseSupport exCX 1,
          r.poly.get_term [j] = (exCX.poly.get_term [j] + phaseK exCX 1 1) % 8) ∧
        (∀ j, j ∉ phaseSupport exCX 1 →
          r.poly.get_term [j] = exCX.poly.get_term [j]) ∧
        (∀ t ∈ combos2 (phaseSupport exCX 1),
          r.poly.get_term t = (exCX.poly.get_term t + (-2) * phaseK exCX 1 1) % 8) ∧
        (∀ a b, a < b → [a, b] ∉ combos2 (phaseSupport exCX 1) →
          r.poly.get_term [a, b] = exCX.poly.get_term [a, b]) ∧
        (∀ t ∈ combos3 (phaseSupport exCX 1),
          r.poly.get_term t = (exCX.poly.get_term t + 4 * phaseK exCX 1 1) % 8) ∧
        (∀ a b c, a < b → b < c → [a, b, c] ∉ combos3 (phaseSupport exCX 1) →
          r.poly.get_term [a, b, c] = exCX.poly.get_term [a, b, c])) :=
  C4_append_phase_behavior exCX 1 1 (by decide) (by decide) (by decide)

/-! Machinery for the sequential set_term assignments of `_tensor`. -/

/-- Apply one recorded set_term operation. -/

theorem foldl_set_assign_not_mem (ps : List (Nat × Int)) (l : List Int) (m : Nat)
    (hm : ∀ pv ∈ ps, pv.1 ≠ m) :
    (ps.foldl (fun acc pv => acc.set pv.1 pv.2) l).getD m 0 = l.getD m 0 := by
  induction ps generalizing l with
  | nil => rfl
  | cons pv rest ih =>
    simp only [List.foldl_cons]
    rw [ih _ (fun u hu => hm u (List.mem_cons_of_mem pv hu))]
    have hne : pv.1 ≠ m := hm pv (List.mem_cons_self pv rest)
    rcases Nat.lt_or_ge m l.length with h | h
    · rw [getD_set_ne h hne]
    · rw [List.getD_eq_default _ _ h,
        List.getD_eq_default _ _ (by rw [List.length_set]; omega)]

theorem foldl_set_assign_mem (ps : List (Nat × Int)) (l : List Int) (m : Nat) (v : Int)
    (hnodup : (ps.map Prod.fst).Nodup)
    (hlt : m < l.length)
    (hpv : (m, v) ∈ ps) :
    (ps.foldl (fun acc pv => acc.set pv.1 pv.2) l).getD m 0 = v := by
  induction ps generalizing l with
  | nil => simp at hpv
  | cons pv rest ih =>
    simp only [List.foldl_cons]
    rcases List.mem_cons.mp hpv with h | h
    · subst h
      rw [foldl_set_assign_not_mem _ _ _ (fun u hu hum => by
        have := (List.nodup_cons.mp hnodup).1
        simp only [List.mem_map] at this
        exact this ⟨u, hu, hum⟩)]
      exact getD_set_self hlt v 0
    · exact ih _ ((List.nodup_cons.mp hnodup).2)
        (by rw [List.length_set]; exact hlt) h

theorem setfold_proj (ops : List (List Nat × Int)) (p : SpecialPolynomial)
    (hsh : ∀ op ∈ ops,
      (∃ a, op.1 = [a]) ∨ (∃ a b, op.1 = [a, b]) ∨ (∃ a b c, op.1 = [a, b, c])) :
    ops.foldl setOp p =
      ⟨p.weight_0,
       (ops.filterMap sel1).foldl (fun acc pv => acc.set pv.1 pv.2) p.weight_1,
       (ops.filterMap sel2).foldl (fun acc pv => acc.set pv.1 pv.2) p.weight_2,
       (ops.filterMap sel3).foldl (fun acc pv => acc.set pv.1 pv.2) p.weight_3⟩ := by
  induction ops generalizing p with
  | nil => rfl
  | cons op rest ih =>
    have hrest : ∀ u ∈ rest,
        (∃ a, u.1 = [a]) ∨ (∃ a b, u.1 = [a, b]) ∨ (∃ a b c, u.1 = [a, b, c]) :=
      fun u hu => hsh u (List.mem_cons_of_mem op hu)
    obtain ⟨t, v⟩ := op
    rcases hsh (t, v) (List.mem_cons_self _ rest) with ⟨a, ht⟩ | ⟨a, b, ht⟩ | ⟨a, b, c, ht⟩ <;>
      simp only at ht <;> subst ht
    · simp only [List.foldl_cons, List.filterMap_cons, sel1, sel2, sel3]
      rw [ih _ hrest]
      rfl
    · simp only [List.foldl_cons, List.filterMap_cons, sel1, sel2, sel3]
      rw [ih _ hrest]
      rfl
    · simp only [List.foldl_cons, List.filterMap_cons, sel1, sel2, sel3]
      rw [ih _ hrest]
      rfl

theorem foldl_flatMap {α β γ : Type} (l : List α) (g : α → List β) (f : γ → β → γ) (b : γ) :
    (l.flatMap g).foldl f b = l.foldl (fun acc x => (g x).foldl f acc) b := by
  induction l generalizing b with
  | nil => rfl
  | cons x xs ih => simp [List.flatMap_cons, List.foldl_append, ih]

theorem block_fold_eq (p : SpecialPolynomial) (off n : Nat) (q : SpecialPolynomial) :
    (opsBlock p off n).foldl setOp q =
      (List.range n).foldl (fun q i =>
        (List.range i).foldl (fun q j =>
          (List.range j).foldl (fun q k =>
            q.set_term [k + off, j + off, i + off] (p.get_term [k, j, i]))
            (q.set_term [j + off, i + off] (p.get_term [j, i])))
          (q.set_term [i + off] (p.get_term [i]))) q := by
  unfold opsBlock
  rw [foldl_flatMap]
  congr 1
  funext acc i
  rw [List.foldl_cons, foldl_flatMap]
  congr 1
  funext acc2 j
  rw [List.foldl_cons, List.foldl_map]
  rfl

theorem tensorCore_poly (e0 e1 : CNOTDihedral) :
    (CNOTDihedral.tensorCore e0 e1).poly =
      (opsBlock e0.poly 0 e0.num_qubits ++
        opsBlock e1.poly e0.num_qubits e1.num_qubits).foldl setOp
        (SpecialPolynomial.zero (e0.num_qubits + e1.num_qubits)) := by
  rw [List.foldl_append]
  rw [block_fold_eq, block_fold_eq]
  unfold CNOTDihedral.tensorCore
  dsimp only
  simp only [Nat.add_zero]
  rfl

theorem flatMap_single {α β : Type} (l : List α) (f : α → β) :
    (l.flatMap fun a => [f a]) = l.map f := by
  induction l with
  | nil => rfl
  | cons x xs ih => simp [List.flatMap_cons, ih]

theorem sel1_single (a : Nat) (v : Int) : sel1 ([a], v) = some (a, v) := rfl
theorem sel1_pair (a b : Nat) (v : Int) : sel1 ([a, b], v) = none := rfl
theorem sel1_triple (a b c : Nat) (v : Int) : sel1 ([a, b, c], v) = none := rfl
theorem sel2_single (a : Nat) (v : Int) : sel2 ([a], v) = none := rfl
theorem sel2_pair (a b : Nat) (v : Int) : sel2 ([a, b], v) = some (pos2 a b, v) := rfl
theorem sel2_triple (a b c : Nat) (v : Int) : sel2 ([a, b, c], v) = none := rfl
theorem sel3_single (a : Nat) (v : Int) : sel3 ([a], v) = none := rfl
theorem sel3_pair (a b : Nat) (v : Int) : sel3 ([a, b], v) = none := rfl
theorem sel3_triple (a b c : Nat) (v : Int) :
    sel3 ([a, b, c], v) = some (pos3 a b c, v) := rfl

theorem pairListC_flatMap (n : Nat) :
    pairListC n = (List.range n).flatMap (fun i => (List.range i).map (fun j => [j, i])) := by
  induction n with
  | zero => rfl
  | succ m ih =>
    rw [pairListC, ih, List.range_succ, List.flatMap_append]
    simp [List.flatMap_cons]

theorem tripleListC_flatMap (n : Nat) :
    tripleListC n = (List.range n).flatMap (fun i =>
      (pairListC i).map (fun t => t ++ [i])) := by
  induction n with
  | zero => rfl
  | succ m ih =>
    rw [tripleListC, ih, List.range_succ, List.flatMap_append]
    simp [List.flatMap_cons]

theorem opsBlock_sel1 (p : SpecialPolynomial) (off n : Nat) :
    (opsBlock p off n).filterMap sel1 =
      (List.range n).map (fun i => (i + off, p.get_term [i])) := by
  unfold opsBlock
  rw [List.filterMap_flatMap]
  simp only [List.filterMap_cons, sel1_single, List.filterMap_flatMap,
    List.filterMap_map]
  have h1 : ∀ i j : Nat, (List.filterMap (sel1 ∘ fun k =>
      ([k + off, j + off, i + off], p.get_term [k, j, i])) (List.range j)) = [] := by
    intro i j
    rw [List.filterMap_eq_nil_iff]
    intro a _
    rfl
  simp only [h1, sel1_pair]
  have h2 : ∀ i : Nat, ((List.range i).flatMap (fun j => ([] : List (Nat × Int)))) = [] := by
    intro i
    simp
  simp only [h2]
  exact flatMap_single _ _

theorem opsBlock_sel2 (p : SpecialPolynomial) (off n : Nat) :
    (opsBlock p off n).filterMap sel2 =
      (pairListC n).map (fun t =>
        (pos2 (t.getD 0 0 + off) (t.getD 1 0 + off), p.get_term t)) := by
  unfold opsBlock
  rw [List.filterMap_flatMap]
  simp only [List.filterMap_cons, sel2_single, sel2_pair, List.filterMap_flatMap,
    List.filterMap_map]
  have h1 : ∀ i j : Nat, (List.filterMap (sel2 ∘ fun k =>
      ([k + off, j + off, i + off], p.get_term [k, j, i])) (List.range j)) = [] := by
    intro i j
    rw [List.filterMap_eq_nil_iff]
    intro a _
    rfl
  simp only [h1, flatMap_single]
  rw [pairListC_flatMap]
  rw [List.map_flatMap]
  congr 1
  funext i
  rw [List.map_map]
  rfl

theorem filterMap_all_some {α β : Type} (l : List α) (f : α → Option β) (g : α → β)
    (h : ∀ a ∈ l, f a = some (g a)) : l.filterMap f = l.map g := by
  induction l with
  | nil => rfl
  | cons x xs ih =>
    rw [List.filterMap_cons, h x (List.mem_cons_self x xs), List.map_cons,
      ih (fun a ha => h a (List.mem_cons_of_mem x ha))]

theorem opsBlock_sel3 (p : SpecialPolynomial) (off n : Nat) :
    (opsBlock p off n).filterMap sel3 =
      (tripleListC n).map (fun t =>
        (pos3 (t.getD 0 0 + off) (t.getD 1 0 + off) (t.getD 2 0 + off), p.get_term t)) := by
  unfold opsBlock
  rw [List.filterMap_flatMap]
  simp only [List.filterMap_cons, sel3_single, sel3_pair, List.filterMap_flatMap]
  have h1 : ∀ i j : Nat, (List.filterMap sel3 ((List.range j).map (fun k =>
      ([k + off, j + off, i + off], p.get_term [k, j, i])))) =
      (List.range j).map (fun k => (pos3 (k + off) (j + off) (i + off), p.get_term [k, j, i])) := by
    intro i j
    rw [List.filterMap_map]
    exact filterMap_all_some _ _ _ (fun a _ => rfl)
  simp only [h1]
  rw [tripleListC_flatMap, List.map_flatMap]
  congr 1
  funext i
  rw [pairListC_flatMap, List.map_flatMap, List.map_flatMap]
  congr 1
  funext j
  rw [List.map_map, List.map_map]
  rfl

theorem opsBlock_shapes (p : SpecialPolynomial) (off n : Nat) :
    ∀ op ∈ opsBlock p off n,
      (∃ a, op.1 = [a]) ∨ (∃ a b, op.1 = [a, b]) ∨ (∃ a b c, op.1 = [a, b, c]) := by
  intro op hop
  unfold opsBlock at hop
  rw [List.mem_flatMap] at hop
  obtain ⟨i, _, hop⟩ := hop
  rcases List.mem_cons.mp hop with h | h
  · subst h
    exact Or.inl ⟨i + off, rfl⟩
  · rw [List.mem_flatMap] at h
    obtain ⟨j, _, h⟩ := h
    rcases List.mem_cons.mp h with h2 | h2
    · subst h2
      exact Or.inr (Or.inl ⟨j + off, i + off, rfl⟩)
    · rw [List.mem_map] at h2
      obtain ⟨k, _, h3⟩ := h2
      subst h3
      exact Or.inr (Or.inr ⟨k + off, j + off, i + off, rfl⟩)

theorem pairListC_mem_of {j i n : Nat} (hj : j < i) (hi : i < n) : [j, i] ∈ pairListC n := by
  have hp : pos2 j i < (pairListC n).length := by
    rw [pairListC_length]; exact pos2_lt_choose hj hi
  have := pairListC_getD hj hi
  rw [List.getD_eq_getElem _ _ hp] at this
  rw [← this]
  exact List.getElem_mem _

theorem tripleListC_mem_of {k j i n : Nat} (hk : k < j) (hj : j < i) (hi : i < n) :
    [k, j, i] ∈ tripleListC n := by
  have hp : pos3 k j i < (tripleListC n).length := by
    rw [tripleListC_length]; exact pos3_lt_choose hk hj hi
  have := tripleListC_getD hk hj hi
  rw [List.getD_eq_getElem _ _ hp] at this
  rw [← this]
  exact List.getElem_mem _

theorem getD_zero_of_all (l : List Int) (h : ∀ v ∈ l, v = 0) (m : Nat) : l.getD m 0 = 0 := by
  rcases Nat.lt_or_ge m l.length with hm | hm
  · rw [List.getD_eq_getElem _ _ hm]
    exact h _ (List.getElem_mem _)
  · exact List.getD_eq_default _ _ hm

theorem zero_weight_1_getD (n m : Nat) :
    (SpecialPolynomial.zero n).weight_1.getD m 0 = 0 := by
  refine getD_zero_of_all _ ?_ m
  intro v hv
  simp only [SpecialPolynomial.zero, SpecialPolynomial.mkPoly, List.mem_map] at hv
  obtain ⟨_, _, h⟩ := hv
  exact h.symm

theorem zero_weight_2_getD (n m : Nat) :
    (SpecialPolynomial.zero n).weight_2.getD m 0 = 0 := by
  refine getD_zero_of_all _ ?_ m
  intro v hv
  simp only [SpecialPolynomial.zero, SpecialPolynomial.mkPoly, List.mem_map] at hv
  obtain ⟨_, _, h⟩ := hv
  exact h.symm

theorem zero_weight_3_getD (n m : Nat) :
    (SpecialPolynomial.zero n).weight_3.getD m 0 = 0 := by
  refine getD_zero_of_all _ ?_ m
  intro v hv
  simp only [SpecialPolynomial.zero, SpecialPolynomial.mkPoly, List.mem_map] at hv
  obtain ⟨_, _, h⟩ := hv
  exact h.symm

theorem getD_replicate_zero (n m : Nat) : (List.replicate n (0 : Int)).getD m 0 = 0 := by
  refine getD_zero_of_all _ ?_ m
  intro v hv
  exact List.eq_of_mem_replicate hv

theorem pairPos_nodup (off n : Nat) :
    ((pairListC n).map (fun t => pos2 (t.getD 0 0 + off) (t.getD 1 0 + off))).Nodup := by
  refine List.Nodup.map_on ?_ (pairListC_nodup n)
  intro t1 h1 t2 h2 he
  obtain ⟨a1, b1, hab1, hb1, rfl⟩ := pairListC_mem h1
  obtain ⟨a2, b2, hab2, hb2, rfl⟩ := pairListC_mem h2
  simp only [List.getD] at he
  obtain ⟨e1, e2⟩ := pos2_inj (show a1 + off < b1 + off by omega)
    (show a2 + off < b2 + off by omega) he
  have ea : a1 = a2 := by omega
  have eb : b1 = b2 := by omega
  rw [ea, eb]

theorem triplePos_nodup (off n : Nat) :
    ((tripleListC n).map (fun t =>
      pos3 (t.getD 0 0 + off) (t.getD 1 0 + off) (t.getD 2 0 + off))).Nodup := by
  refine List.Nodup.map_on ?_ (tripleListC_nodup n)
  intro t1 h1 t2 h2 he
  obtain ⟨a1, b1, c1, hab1, hbc1, hc1, rfl⟩ := tripleListC_mem h1
  obtain ⟨a2, b2, c2, hab2, hbc2, hc2, rfl⟩ := tripleListC_mem h2
  simp only [List.getD] at he
  obtain ⟨e1, e2, e3⟩ := pos3_inj (show a1 + off < b1 + off by omega)
    (show b1 + off < c1 + off by omega) (show a2 + off < b2 + off by omega)
    (show b2 + off < c2 + off by omega) he
  have ea : a1 = a2 := by omega
  have eb : b1 = b2 := by omega
  have ec : c1 = c2 := by omega
  rw [ea, eb, ec]

theorem zero_weight_1_length (n : Nat) : (SpecialPolynomial.zero n).weight_1.length = n := by
  simp [SpecialPolynomial.zero, SpecialPolynomial.mkPoly]

theorem zero_weight_2_length (n : Nat) :
    (SpecialPolynomial.zero n).weight_2.length = n.choose 2 := by
  simp [SpecialPolynomial.zero, SpecialPolynomial.mkPoly, pairListC_length]

theorem zero_weight_3_length (n : Nat) :
    (SpecialPolynomial.zero n).weight_3.length = n.choose 3 := by
  simp [SpecialPolynomial.zero, SpecialPolynomial.mkPoly, tripleListC_length]

theorem pairPos_nodup_zero (n : Nat) :
    ((pairListC n).map (fun t => pos2 (t.getD 0 0) (t.getD 1 0))).Nodup := by
  have h := pairPos_nodup 0 n
  simpa using h

theorem triplePos_nodup_zero (n : Nat) :
    ((tripleListC n).map (fun t =>
      pos3 (t.getD 0 0) (t.getD 1 0) (t.getD 2 0))).Nodup := by
  have h := triplePos_nodup 0 n
  simpa using h

theorem opsBlock_sel1_zero (p : SpecialPolynomial) (n : Nat) :
    (opsBlock p 0 n).filterMap sel1 =
      (List.range n).map (fun i => (i, p.get_term [i])) := by
  have h := opsBlock_sel1 p 0 n
  simpa using h

theorem opsBlock_sel2_zero (p : SpecialPolynomial) (n : Nat) :
    (opsBlock p 0 n).filterMap sel2 =
      (pairListC n).map (fun t => (pos2 (t.getD 0 0) (t.getD 1 0), p.get_term t)) := by
  have h := opsBlock_sel2 p 0 n
  simpa using h

theorem opsBlock_sel3_zero (p : SpecialPolynomial) (n : Nat) :
    (opsBlock p 0 n).filterMap sel3 =
      (tripleListC n).map (fun t =>
        (pos3 (t.getD 0 0) (t.getD 1 0) (t.getD 2 0), p.get_term t)) := by
  have h := opsBlock_sel3 p 0 n
  simpa using h

/-- C6: the tensor product (tensor and expand differ only in which
operand is elem0, the block at the low-index wires) returns an
(n0+n1)-qubit element whose linear matrix is block-diagonal — elem0's
matrix top-left, elem1's bottom-right, zeros elsewhere — whose shift is
the concatenation of the two shifts, and whose polynomial has every term
of elem0 copied unchanged, every term of elem1 copied with indices offset
by n0, and no cross terms. -/
theorem C6_tensor_structure (elem0 elem1 : CNOTDihedral)
    (h0l : elem0.linear.length = elem0.num_qubits)
    (h0lr : ∀ row ∈ elem0.linear, row.length = elem0.num_qubits)
    (h1l : elem1.linear.length = elem1.num_qubits)
    (h1lr : ∀ row ∈ elem1.linear, row.length = elem1.num_qubits) :
    (elem0.tensor elem1 = CNOTDihedral.tensorCore elem0 elem1 ∧
     elem0.expand elem1 = CNOTDihedral.tensorCore elem1 elem0) ∧
    (CNOTDihedral.tensorCore elem0 elem1).num_qubits =
      elem0.num_qubits + elem1.num_qubits ∧
    (CNOTDihedral.tensorCore elem0 elem1).shift = elem0.shift ++ elem1.shift ∧
    (∀ i < elem0.num_qubits, ∀ j,
      (((CNOTDihedral.tensorCore elem0 elem1).linear.getD i []).getD j 0) =
        if j < elem0.num_qubits then (elem0.linear.getD i []).getD j 0 else 0) ∧
    (∀ i < elem1.num_qubits, ∀ j,
      (((CNOTDihedral.tensorCore elem0 elem1).linear.getD (i + elem0.num_qubits) []).getD j 0) =
        if j < elem0.num_qubits then 0
        else (elem1.linear.getD i []).getD (j - elem0.num_qubits) 0) ∧
    (CNOTDihedral.tensorCore elem0 elem1).poly.weight_0 = 0 ∧
    (∀ i < elem0.num_qubits,
      (CNOTDihedral.tensorCore elem0 elem1).poly.get_term [i] =
        elem0.poly.get_term [i]) ∧
    (∀ j i, j < i → i < elem0.num_qubits →
      (CNOTDihedral.tensorCore elem0 elem1).poly.get_term [j, i] =
        elem0.poly.get_term [j, i]) ∧
    (∀ k j i, k < j → j < i → i < elem0.num_qubits →
      (CNOTDihedral.tensorCore elem0 elem1).poly.get_term [k, j, i] =
        elem0.poly.get_term [k, j, i]) ∧
    (∀ i < elem1.num_qubits,
      (CNOTDihedral.tensorCore elem0 elem1).poly.get_term [i + elem0.num_qubits] =
        elem1.poly.get_term [i]) ∧
    (∀ j i, j < i → i < elem1.num_qubits →
      (CNOTDihedral.tensorCore elem0 elem1).poly.get_term
        [j + elem0.num_qubits, i + elem0.num_qubits] = elem1.poly.get_term [j, i]) ∧
    (∀ k j i, k < j → j < i → i < elem1.num_qubits →
      (CNOTDihedral.tensorCore elem0 elem1).poly.get_term
        [k + elem0.num_qubits, j + elem0.num_qubits, i + elem0.num_qubits] =
        elem1.poly.get_term [k, j, i]) ∧
    (∀ j i, j < elem0.num_qubits → elem0.num_qubits ≤ i →
      i < elem0.num_qubits + elem1.num_qubits →
      (CNOTDihedral.tensorCore elem0 elem1).poly.get_term [j, i] = 0) ∧
    (∀ k j i, k < j → j < i → k < elem0.num_qubits → elem0.num_qubits ≤ i →
      i < elem0.num_qubits + elem1.num_qubits →
      (CNOTDihedral.tensorCore elem0 elem1).poly.get_term [k, j, i] = 0) := by
  have hshapes : ∀ op ∈ (opsBlock elem0.poly 0 elem0.num_qubits ++
      opsBlock elem1.poly elem0.num_qubits elem1.num_qubits),
      (∃ a, op.1 = [a]) ∨ (∃ a b, op.1 = [a, b]) ∨ (∃ a b c, op.1 = [a, b, c]) := by
    intro op hop
    rcases List.mem_append.mp hop with h | h
    · exact opsBlock_shapes _ _ _ op h
    · exact opsBlock_shapes _ _ _ op h
  have hp : (CNOTDihedral.tensorCore elem0 elem1).poly =
      ⟨(SpecialPolynomial.zero (elem0.num_qubits + elem1.num_qubits)).weight_0,
       (((opsBlock elem0.poly 0 elem0.num_qubits ++
          opsBlock elem1.poly elem0.num_qubits elem1.num_qubits).filterMap sel1).foldl
         (fun acc pv => acc.set pv.1 pv.2)
         (SpecialPolynomial.zero (elem0.num_qubits + elem1.num_qubits)).weight_1),
       (((opsBlock elem0.poly 0 elem0.num_qubits ++
          opsBlock elem1.poly elem0.num_qubits elem1.num_qubits).filterMap sel2).foldl
         (fun acc pv => acc.set pv.1 pv.2)
         (SpecialPolynomial.zero (elem0.num_qubits + elem1.num_qubits)).weight_2),
       (((opsBlock elem0.poly 0 elem0.num_qubits ++
          opsBlock elem1.poly elem0.num_qubits elem1.num_qubits).filterMap sel3).foldl
         (fun acc pv => acc.set pv.1 pv.2)
         (SpecialPolynomial.zero (elem0.num_qubits + elem1.num_qubits)).weight_3)⟩ := by
    rw [tensorCore_poly, setfold_proj _ _ hshapes]
  have hc1 : (opsBlock elem0.poly 0 elem0.num_qubits ++
      opsBlock elem1.poly elem0.num_qubits elem1.num_qubits).filterMap sel1 =
      (List.range elem0.num_qubits).map (fun i => (i, elem0.poly.get_term [i])) ++
      (List.range elem1.num_qubits).map
        (fun i => (i + elem0.num_qubits, elem1.poly.get_term [i])) := by
    rw [List.filterMap_append, opsBlock_sel1_zero, opsBlock_sel1]
  have hc2 : (opsBlock elem0.poly 0 elem0.num_qubits ++
      opsBlock elem1.poly elem0.num_qubits elem1.num_qubits).filterMap sel2 =
      (pairListC elem0.num_qubits).map
        (fun t => (pos2 (t.getD 0 0) (t.getD 1 0), elem0.poly.get_term t)) ++
      (pairListC elem1.num_qubits).map
        (fun t => (pos2 (t.getD 0 0 + elem0.num_qubits) (t.getD 1 0 + elem0.num_qubits),
          elem1.poly.get_term t)) := by
    rw [List.filterMap_append, opsBlock_sel2_zero, opsBlock_sel2]
  have hc3 : (opsBlock elem0.poly 0 elem0.num_qubits ++
      opsBlock elem1.poly elem0.num_qubits elem1.num_qubits).filterMap sel3 =
      (tripleListC elem0.num_qubits).map
        (fun t => (pos3 (t.getD 0 0) (t.getD 1 0) (t.getD 2 0), elem0.poly.get_term t)) ++
      (tripleListC elem1.num_qubits).map
        (fun t => (pos3 (t.getD 0 0 + elem0.num_qubits) (t.getD 1 0 + elem0.num_qubits)
          (t.getD 2 0 + elem0.num_qubits), elem1.poly.get_term t)) := by
    rw [List.filterMap_append, opsBlock_sel3_zero, opsBlock_sel3]
  have hnd1 : ((((opsBlock elem0.poly 0 elem0.num_qubits ++
      opsBlock elem1.poly elem0.num_qubits elem1.num_qubits).filterMap sel1).map
        Prod.fst)).Nodup := by
    rw [hc1, List.map_append, List.map_map, List.map_map]
    refine List.Nodup.append ?_ ?_ ?_
    · exact List.Nodup.map (fun a b hab => by simpa using hab) (List.nodup_range _)
    · exact List.Nodup.map (fun a b hab => by simpa using hab) (List.nodup_range _)
    · intro x hx hy
      simp only [List.mem_map, List.mem_range, Function.comp] at hx hy
      obtain ⟨a, ha, rfl⟩ := hx
      obtain ⟨b, hb, he⟩ := hy
      have he2 : b + elem0.num_qubits = a := he
      omega
  have hnd2 : ((((opsBlock elem0.poly 0 elem0.num_qubits ++
      opsBlock elem1.poly elem0.num_qubits elem1.num_qubits).filterMap sel2).map
        Prod.fst)).Nodup := by
    rw [hc2, List.map_append, List.map_map, List.map_map]
    refine List.Nodup.append ?_ ?_ ?_
    · exact pairPos_nodup_zero elem0.num_qubits
    · exact pairPos_nodup elem0.num_qubits elem1.num_qubits
    · intro x hx hy
      simp only [List.mem_map, Function.comp] at hx hy
      obtain ⟨t1, ht1, rfl⟩ := hx
      obtain ⟨t2, ht2, he⟩ := hy
      obtain ⟨a1, b1, hab1, hb1, rfl⟩ := pairListC_mem ht1
      obtain ⟨a2, b2, hab2, hb2, rfl⟩ := pairListC_mem ht2
      have he2 : pos2 (a2 + elem0.num_qubits) (b2 + elem0.num_qubits) = pos2 a1 b1 := he
      obtain ⟨e1, e2⟩ := pos2_inj
        (show a2 + elem0.num_qubits < b2 + elem0.num_qubits by omega)
        (show a1 < b1 by omega) he2
      omega
  have hnd3 : ((((opsBlock elem0.poly 0 elem0.num_qubits ++
      opsBlock elem1.poly elem0.num_qubits elem1.num_qubits).filterMap sel3).map
        Prod.fst)).Nodup := by
    rw [hc3, List.map_append, List.map_map, List.map_map]
    refine List.Nodup.append ?_ ?_ ?_
    · exact triplePos_nodup_zero elem0.num_qubits
    · exact triplePos_nodup elem0.num_qubits elem1.num_qubits
    · intro x hx hy
      simp only [List.mem_map, Function.comp] at hx hy
      obtain ⟨t1, ht1, rfl⟩ := hx
      obtain ⟨t2, ht2, he⟩ := hy
      obtain ⟨a1, b1, c1, hab1, hbc1, hc1m, rfl⟩ := tripleListC_mem ht1
      obtain ⟨a2, b2, c2, hab2, hbc2, hc2m, rfl⟩ := tripleListC_mem ht2
      have he2 : pos3 (a2 + elem0.num_qubits) (b2 + elem0.num_qubits)
          (c2 + elem0.num_qubits) = pos3 a1 b1 c1 := he
      obtain ⟨e1, e2, e3⟩ := pos3_inj
        (show a2 + elem0.num_qubits < b2 + elem0.num_qubits by omega)
        (show b2 + elem0.num_qubits < c2 + elem0.num_qubits by omega)
        (show a1 < b1 by omega) (show b1 < c1 by omega) he2
      omega
  have hlin : (CNOTDihedral.tensorCore elem0 elem1).linear =
      elem0.linear.map (fun r => r ++ List.replicate elem1.num_qubits 0) ++
      elem1.linear.map (fun r => List.replicate elem0.num_qubits 0 ++ r) := rfl
  refine ⟨⟨rfl, rfl⟩, rfl, rfl, ?_, ?_, ?_, ?_, ?_, ?_, ?_, ?_, ?_, ?_, ?_⟩
  · intro i hi j
    rw [hlin]
    have hiL : i < (elem0.linear.map
        (fun r => r ++ List.replicate elem1.num_qubits 0)).length := by
      rw [List.length_map]; omega
    rw [List.getD_append _ _ _ _ hiL]
    rw [List.getD_eq_getElem _ _ hiL, List.getElem_map]
    have hrow : elem0.linear[i].length = elem0.num_qubits :=
      h0lr _ (List.getElem_mem _)
    by_cases hj : j < elem0.num_qubits
    · rw [if_pos hj]
      have hjr : j < (elem0.linear[i]).length := by rw [hrow]; omega
      rw [List.getD_append _ _ _ _ hjr]
      rw [List.getD_eq_getElem _ _ (show i < elem0.linear.length by omega)]
    · rw [if_neg hj]
      have hjr : (elem0.linear[i]).length ≤ j := by rw [hrow]; omega
      rw [List.getD_append_right _ _ _ _ hjr]
      exact getD_replicate_zero _ _
  · intro i hi j
    rw [hlin]
    have h1le : (elem0.linear.map
        (fun r => r ++ List.replicate elem1.num_qubits 0)).length ≤
        i + elem0.num_qubits := by
      rw [List.length_map]; omega
    rw [List.getD_append_right _ _ _ _ h1le]
    rw [List.length_map, h0l]
    have hsub : i + elem0.num_qubits - elem0.num_qubits = i := by omega
    rw [hsub]
    have hiL : i < (elem1.linear.map
        (fun r => List.replicate elem0.num_qubits 0 ++ r)).length := by
      rw [List.length_map]; omega
    rw [List.getD_eq_getElem _ _ hiL, List.getElem_map]
    have hrow : elem1.linear[i].length = elem1.num_qubits :=
      h1lr _ (List.getElem_mem _)
    by_cases hj : j < elem0.num_qubits
    · rw [if_pos hj]
      have hjr : j < (List.replicate elem0.num_qubits (0 : Int)).length := by
        rw [List.length_replicate]; omega
      rw [List.getD_append _ _ _ _ hjr]
      exact getD_replicate_zero _ _
    · rw [if_neg hj]
      have hjr : (List.replicate elem0.num_qubits (0 : Int)).length ≤ j := by
        rw [List.length_replicate]; omega
      rw [List.getD_append_right _ _ _ _ hjr, List.length_replicate]
      rw [List.getD_eq_getElem _ _ (show i < elem1.linear.length by omega)]
  · rw [hp]
    rfl
  · intro i hi
    rw [hp]
    simp only [SpecialPolynomial.get_term]
    have hlt : i < (SpecialPolynomial.zero
        (elem0.num_qubits + elem1.num_qubits)).weight_1.length := by
      rw [zero_weight_1_length]; omega
    rw [hc1, foldl_set_assign_mem _ _ i (elem0.poly.get_term [i]) (hc1 ▸ hnd1) hlt
      (List.mem_append.mpr (Or.inl (List.mem_map.mpr ⟨i, List.mem_range.mpr hi, rfl⟩)))]
    rfl
  · intro j i hj hi
    rw [hp]
    simp only [SpecialPolynomial.get_term]
    have hlt : pos2 j i < (SpecialPolynomial.zero
        (elem0.num_qubits + elem1.num_qubits)).weight_2.length := by
      rw [zero_weight_2_length]; exact pos2_lt_choose hj (by omega)
    rw [hc2, foldl_set_assign_mem _ _ (pos2 j i) (elem0.poly.get_term [j, i])
      (hc2 ▸ hnd2) hlt
      (List.mem_append.mpr (Or.inl (List.mem_map.mpr
        ⟨[j, i], pairListC_mem_of hj hi, rfl⟩)))]
    rfl
  · intro k j i hk hj hi
    rw [hp]
    simp only [SpecialPolynomial.get_term]
    have hlt : pos3 k j i < (SpecialPolynomial.zero
        (elem0.num_qubits + elem1.num_qubits)).weight_3.length := by
      rw [zero_weight_3_length]; exact pos3_lt_choose hk hj (by omega)
    rw [hc3, foldl_set_assign_mem _ _ (pos3 k j i) (elem0.poly.get_term [k, j, i])
      (hc3 ▸ hnd3) hlt
      (List.mem_append.mpr (Or.inl (List.mem_map.mpr
        ⟨[k, j, i], tripleListC_mem_of hk hj hi, rfl⟩)))]
    rfl
  · intro i hi
    rw [hp]
    simp only [SpecialPolynomial.get_term]
    have hlt : i + elem0.num_qubits < (SpecialPolynomial.zero
        (elem0.num_qubits + elem1.num_qubits)).weight_1.length := by
      rw [zero_weight_1_length]; omega
    rw [hc1, foldl_set_assign_mem _ _ (i + elem0.num_qubits)
      (elem1.poly.get_term [i]) (hc1 ▸ hnd1) hlt
      (List.mem_append.mpr (Or.inr (List.mem_map.mpr ⟨i, List.mem_range.mpr hi, rfl⟩)))]
    rfl
  · intro j i hj hi
    rw [hp]
    simp only [SpecialPolynomial.get_term]
    have hlt : pos2 (j + elem0.num_qubits) (i + elem0.num_qubits) <
        (SpecialPolynomial.zero
          (elem0.num_qubits + elem1.num_qubits)).weight_2.length := by
      rw [zero_weight_2_length]; exact pos2_lt_choose (by omega) (by omega)
    rw [hc2, foldl_set_assign_mem _ _
      (pos2 (j + elem0.num_qubits) (i + elem0.num_qubits))
      (elem1.poly.get_term [j, i]) (hc2 ▸ hnd2) hlt
      (List.mem_append.mpr (Or.inr (List.mem_map.mpr
        ⟨[j, i], pairListC_mem_of hj hi, rfl⟩)))]
    rfl
  · intro k j i hk hj hi
    rw [hp]
    simp only [SpecialPolynomial.get_term]
    have hlt : pos3 (k + elem0.num_qubits) (j + elem0.num_qubits)
        (i + elem0.num_qubits) < (SpecialPolynomial.zero
          (elem0.num_qubits + elem1.num_qubits)).weight_3.length := by
      rw [zero_weight_3_length]
      exact pos3_lt_choose (by omega) (by omega) (by omega)
    rw [hc3, foldl_set_assign_mem _ _
      (pos3 (k + elem0.num_qubits) (j + elem0.num_qubits) (i + elem0.num_qubits))
      (elem1.poly.get_term [k, j, i]) (hc3 ▸ hnd3) hlt
      (List.mem_append.mpr (Or.inr (List.mem_map.mpr
        ⟨[k, j, i], tripleListC_mem_of hk hj hi, rfl⟩)))]
    rfl
  · intro j i hj hi0 hi1
    rw [hp]
    simp only [SpecialPolynomial.get_term]
    rw [hc2, foldl_set_assign_not_mem _ _ _ ?_]
    · exact zero_weight_2_getD _ _
    · intro pv hpv
      rcases List.mem_append.mp hpv with h | h
      · simp only [List.mem_map] at h
        obtain ⟨t, ht, rfl⟩ := h
        obtain ⟨a, b, hab, hb, rfl⟩ := pairListC_mem ht
        intro he
        have he2 : pos2 a b = pos2 j i := he
        obtain ⟨e1, e2⟩ := pos2_inj (show a < b by omega) (show j < i by omega) he2
        omega
      · simp only [List.mem_map] at h
        obtain ⟨t, ht, rfl⟩ := h
        obtain ⟨a, b, hab, hb, rfl⟩ := pairListC_mem ht
        intro he
        have he2 : pos2 (a + elem0.num_qubits) (b + elem0.num_qubits) = pos2 j i := he
        obtain ⟨e1, e2⟩ := pos2_inj
          (show a + elem0.num_qubits < b + elem0.num_qubits by omega)
          (show j < i by omega) he2
        omega
  · intro k j i hk hj hk0 hi0 hi1
    rw [hp]
    simp only [SpecialPolynomial.get_term]
    rw [hc3, foldl_set_assign_not_mem _ _ _ ?_]
    · exact zero_weight_3_getD _ _
    · intro pv hpv
      rcases List.mem_append.mp hpv with h | h
      · simp only [List.mem_map] at h
        obtain ⟨t, ht, rfl⟩ := h
        obtain ⟨a, b, c, hab, hbc, hc, rfl⟩ := tripleListC_mem ht
        intro he
        have he2 : pos3 a b c = pos3 k j i := he
        obtain ⟨e1, e2, e3⟩ := pos3_inj (show a < b by omega) (show b < c by omega)
          (show k < j by omega) (show j < i by omega) he2
        omega
      · simp only [List.mem_map] at h
        obtain ⟨t, ht, rfl⟩ := h
        obtain ⟨a, b, c, hab, hbc, hc, rfl⟩ := tripleListC_mem ht
        intro he
        have he2 : pos3 (a + elem0.num_qubits) (b + elem0.num_qubits)
            (c + elem0.num_qubits) = pos3 k j i := he
        obtain ⟨e1, e2, e3⟩ := pos3_inj
          (show a + elem0.num_qubits < b + elem0.num_qubits by omega)
          (show b + elem0.num_qubits < c + elem0.num_qubits by omega)
          (show k < j by omega) (show j < i by omega) he2
        omega

/-- Witness for C6 at the concrete pair exCX, exT. -/
theorem C6_tensor_structure_witness :
    (exCX.tensor exT = CNOTDihedral.tensorCore exCX exT ∧
     exCX.expand exT = CNOTDihedral.tensorCore exT exCX) ∧
    (CNOTDihedral.tensorCore exCX exT).num_qubits = exCX.num_qubits + exT.num_qubits :=
  ⟨(C6_tensor_structure exCX exT (by decide) (by decide) (by decide) (by decide)).1,
   (C6_tensor_structure exCX exT (by decide) (by decide) (by decide) (by decide)).2.1⟩

open SpecialPolynomial

theorem intCast_emod_two (x : Int) : ((x % 2 : Int) : ZMod 2) = (x : ZMod 2) := by
  have h : (x % 2 : Int) = x - 2 * (x / 2) := by omega
  rw [h]
  push_cast
  rw [show (2 : ZMod 2) = 0 from rfl]
  ring

theorem canon_nil (n : Nat) : canon n [] := ⟨List.Pairwise.nil, by simp⟩

theorem canon_one {n j : Nat} (hj : j < n) : canon n [j] := by
  constructor
  · simp
  · intro a ha; simp at ha; omega

theorem canon_two {n j i : Nat} (hj : j < i) (hi : i < n) : canon n [j, i] := by
  constructor
  · simp [hj]
  · intro a ha; simp at ha; omega

theorem canon_three {n k j i : Nat} (hk : k < j) (hj : j < i) (hi : i < n) :
    canon n [k, j, i] := by
  constructor
  · simp [hk, hj]; omega
  · intro a ha; simp at ha; omega

theorem canon_sublist {n : Nat} {s t : List Nat} (hs : s.Sublist t) (ht : canon n t) :
    canon n s :=
  ⟨ht.1.sublist hs, fun a ha => ht.2 a (hs.subset ha)⟩

theorem mkPoly_n_vars (n : Nat) (c : Int) (f : List Nat → Int) :
    (mkPoly n c f).n_vars = n := by
  simp [mkPoly, n_vars]

theorem add_n_vars (p q : SpecialPolynomial) : (add p q).n_vars = p.n_vars :=
  mkPoly_n_vars _ _ _

theorem smul_n_vars (c : Int) (p : SpecialPolynomial) : (smul c p).n_vars = p.n_vars :=
  mkPoly_n_vars _ _ _

theorem mul_n_vars (p q : SpecialPolynomial) : (mul p q).n_vars = p.n_vars :=
  mkPoly_n_vars _ _ _

theorem set_pj_n_vars (n : Nat) (s : List Nat) : (set_pj n s).n_vars = n :=
  mkPoly_n_vars _ _ _

theorem zero_n_vars (n : Nat) : (SpecialPolynomial.zero n).n_vars = n :=
  mkPoly_n_vars _ _ _

/-- Fold invariant preservation. -/
theorem foldl_preserve {α β : Type} (P : β → Prop) (f : β → α → β) (l : List α) (b : β)
    (hb : P b) (hf : ∀ b x, P b → P (f b x)) : P (l.foldl f b) := by
  induction l generalizing b with
  | nil => exact hb
  | cons x xs ih => exact ih _ (hf b x hb)

/-- Coefficient of a sum of polynomials at a canonical term. -/
theorem get_add_canon {n : Nat} {p : SpecialPolynomial} (q : SpecialPolynomial)
    {t : List Nat} (hn : p.n_vars = n) (ht : canon n t) :
    (add p q).get_term t = (p.get_term t + q.get_term t) % 8 := by
  subst hn
  match t, ht with
  | [], _ => rfl
  | [j], ⟨_, hb⟩ => exact get_mkPoly_one (hb j (by simp)) _ _
  | [j, i], ⟨hp, hb⟩ =>
    exact get_mkPoly_two (by simpa using hp) (hb i (by simp)) _ _
  | [k, j, i], ⟨hp, hb⟩ =>
    simp only [List.pairwise_cons] at hp
    exact get_mkPoly_three (hp.1 j (by simp)) (hp.2.1 i (by simp)) (hb i (by simp)) _ _
  | a :: b :: c :: d :: r, _ =>
    rw [get_long_eq_zero _ _ (by simp), get_long_eq_zero _ _ (by simp),
      get_long_eq_zero _ _ (by simp)]
    simp

theorem get_smul_canon {n : Nat} (c : Int) {p : SpecialPolynomial}
    {t : List Nat} (hn : p.n_vars = n) (ht : canon n t) :
    (smul c p).get_term t = (c * p.get_term t) % 8 := by
  subst hn
  match t, ht with
  | [], _ => rfl
  | [j], ⟨_, hb⟩ => exact get_mkPoly_one (hb j (by simp)) _ _
  | [j, i], ⟨hp, hb⟩ =>
    exact get_mkPoly_two (by simpa using hp) (hb i (by simp)) _ _
  | [k, j, i], ⟨hp, hb⟩ =>
    simp only [List.pairwise_cons] at hp
    exact get_mkPoly_three (hp.1 j (by simp)) (hp.2.1 i (by simp)) (hb i (by simp)) _ _
  | a :: b :: c :: d :: r, _ =>
    rw [get_long_eq_zero _ _ (by simp), get_long_eq_zero _ _ (by simp)]
    simp

/-- Every coefficient of the zero polynomial is zero, at any term. -/
theorem get_zero_any (n : Nat) (t : List Nat) :
    (SpecialPolynomial.zero n).get_term t = 0 := by
  match t with
  | [] => rfl
  | [j] => exact zero_weight_1_getD n j
  | [j, i] => exact zero_weight_2_getD n (pos2 j i)
  | [k, j, i] => exact zero_weight_3_getD n (pos3 k j i)
  | a :: b :: c :: d :: r => exact get_long_eq_zero _ _ (by simp)

/-- Scaling by zero kills every coefficient, at any term. -/
theorem get_smul_zero (p : SpecialPolynomial) (t : List Nat) :
    (smul 0 p).get_term t = 0 := by
  have hz : ∀ l : List Int, (∀ v ∈ l, v = 0) → ∀ m : Nat, l.getD m 0 = 0 :=
    fun l h m => getD_zero_of_all l h m
  match t with
  | [] => simp [smul, mkPoly, get_term]
  | [j] =>
    refine hz _ ?_ j
    intro v hv
    simp only [smul, mkPoly, List.mem_map] at hv
    obtain ⟨a, _, ha⟩ := hv
    omega
  | [j, i] =>
    refine hz _ ?_ (pos2 j i)
    intro v hv
    simp only [smul, mkPoly, List.mem_map] at hv
    obtain ⟨a, _, ha⟩ := hv
    omega
  | [k, j, i] =>
    refine hz _ ?_ (pos3 k j i)
    intro v hv
    simp only [smul, mkPoly, List.mem_map] at hv
    obtain ⟨a, _, ha⟩ := hv
    omega
  | a :: b :: c :: d :: r => exact get_long_eq_zero _ _ (by simp)

/-- Sum of a mapped list supported on at most one element. -/
theorem sum_map_eq_of_single {α : Type} [DecidableEq α] {l : List α} (f : α → Int) (a : α)
    (hnd : l.Nodup) (hz : ∀ b ∈ l, b ≠ a → f b = 0) :
    (l.map f).sum = if a ∈ l then f a else 0 := by
  induction l with
  | nil => simp
  | cons x xs ih =>
    simp only [List.map_cons, List.sum_cons]
    rw [ih hnd.of_cons (fun b hb => hz b (by simp [hb]))]
    by_cases hax : a = x
    · subst hax
      have : a ∉ xs := (List.nodup_cons.mp hnd).1
      simp [this]
    · rw [hz x (by simp) (fun h => hax h.symm)]
      simp [List.mem_cons, hax]

/-- Coefficient of the elementary parity polynomial at a canonical term. -/
theorem get_set_pj_canon {n : Nat} (s : List Nat) {t : List Nat} (ht : canon n t) :
    (set_pj n s).get_term t =
      if t ≠ [] ∧ t.all (fun a => s.contains a) then ((-2 : Int) ^ (t.length - 1)) % 8
      else 0 := by
  match t, ht with
  | [], _ => simp [set_pj, mkPoly, get_term]
  | [j], ⟨_, hb⟩ => exact get_mkPoly_one (hb j (by simp)) _ _
  | [j, i], ⟨hp, hb⟩ =>
    exact get_mkPoly_two (by simpa using hp) (hb i (by simp)) _ _
  | [k, j, i], ⟨hp, hb⟩ =>
    simp only [List.pairwise_cons] at hp
    exact get_mkPoly_three (hp.1 j (by simp)) (hp.2.1 i (by simp)) (hb i (by simp)) _ _
  | a :: b :: c :: d :: r, _ =>
    rw [get_long_eq_zero _ _ (by simp)]
    by_cases hc : (a :: b :: c :: d :: r) ≠ [] ∧
        (a :: b :: c :: d :: r).all (fun x => s.contains x)
    · rw [if_pos hc]
      have h8 : (8 : Int) ∣ (-2 : Int) ^ ((a :: b :: c :: d :: r).length - 1) := by
        have hl : (a :: b :: c :: d :: r).length - 1 = 3 + (r.length) := by
          simp; omega
        rw [hl, pow_add]
        exact Dvd.dvd.mul_right (by norm_num) _
      omega
    · rw [if_neg hc]

/-- Coefficient of the single-variable parity polynomial p_{x_j}: the
indicator of the term [j] itself, at every canonical term. -/
theorem get_xpoly {n j : Nat} {t : List Nat} (ht : canon n t) :
    (set_pj n [j]).get_term t = if t = [j] then 1 else 0 := by
  rw [get_set_pj_canon [j] ht]
  by_cases hte : t = [j]
  · subst hte
    simp
  · rw [if_neg hte]
    by_cases hc : t ≠ [] ∧ t.all (fun a => [j].contains a)
    · exfalso
      obtain ⟨hne, hall⟩ := hc
      have hall' : ∀ a ∈ t, a = j := by
        intro a ha
        have := List.all_eq_true.mp hall a ha
        simpa using this
      apply hte
      match t, hne, ht with
      | [a], _, _ => rw [hall' a (by simp)]
      | a :: b :: r, _, ⟨hp, _⟩ =>
        exfalso
        have ha := hall' a (by simp)
        have hb := hall' b (by simp)
        simp only [List.pairwise_cons] at hp
        have := hp.1 b (by simp)
        omega
    · rw [if_neg hc]

/-- Helper: absorbing an inner mod 8 on the left of a sum. -/
theorem emod8_add_left (a b : Int) : (a % 8 + b) % 8 = (a + b) % 8 := by omega

/-- Coefficient extraction through a fold of polynomial additions. -/
theorem get_foldl_add {α : Type} (g : SpecialPolynomial → Int) (n : Nat) (L : List α)
    (F : α → SpecialPolynomial) (acc : SpecialPolynomial) (hacc : acc.n_vars = n)
    (hstep : ∀ a : SpecialPolynomial, a.n_vars = n → ∀ x : α,
      g (SpecialPolynomial.add a (F x)) = (g a + g (F x)) % 8)
    (hred : g acc % 8 = g acc) :
    g (L.foldl (fun a x => SpecialPolynomial.add a (F x)) acc) =
      (g acc + (L.map (fun x => g (F x))).sum) % 8 := by
  induction L generalizing acc with
  | nil => simpa using hred.symm
  | cons x xs ih =>
    simp only [List.foldl_cons, List.map_cons, List.sum_cons]
    rw [ih (SpecialPolynomial.add acc (F x)) (by rw [add_n_vars]; exact hacc)
      (by rw [hstep acc hacc x]; omega)]
    rw [hstep acc hacc x, emod8_add_left]
    ring_nf

/-- n_vars through a fold of polynomial additions, for an arbitrary
fold body that either adds a polynomial or keeps the accumulator. -/
theorem foldl_n_vars {α : Type} (n : Nat) (L : List α)
    (f : SpecialPolynomial → α → SpecialPolynomial)
    (hf : ∀ a x, (f a x).n_vars = a.n_vars)
    (acc : SpecialPolynomial) (hacc : acc.n_vars = n) :
    (L.foldl f acc).n_vars = n := by
  refine foldl_preserve (fun q => q.n_vars = n) f L acc hacc ?_
  intro b x hb
  rw [hf b x]; exact hb

theorem pairwise_nodup {t : List Nat} (hp : t.Pairwise (· < ·)) : t.Nodup :=
  hp.imp (fun h => Nat.ne_of_lt h)

theorem covers_pair_forall {j i : Nat} {t : List Nat} :
    covers t [j] [i] = true ↔ ∀ a ∈ t, a = j ∨ a = i := by
  simp [covers]

theorem cover_pair_iff {j i : Nat} (hji : j < i) {t : List Nat}
    (hp : t.Pairwise (· < ·)) :
    (j ∈ t ∧ i ∈ t ∧ covers t [j] [i] = true) ↔ t = [j, i] := by
  constructor
  · rintro ⟨hjt, hit, hc⟩
    rw [covers_pair_forall] at hc
    match t, hp, hjt, hit, hc with
    | [a], _, hjt, hit, _ =>
      simp at hjt hit; omega
    | [a, b], hp, hjt, hit, hc =>
      simp only [List.pairwise_cons] at hp
      have hab := hp.1 b (by simp)
      have ha := hc a (by simp)
      have hb := hc b (by simp)
      simp at hjt hit
      have : a = j ∧ b = i := by omega
      rw [this.1, this.2]
    | a :: b :: c :: r, hp, hjt, hit, hc =>
      exfalso
      simp only [List.pairwise_cons] at hp
      have hab := hp.1 b (by simp)
      have hac := hp.1 c (by simp)
      have hbc := hp.2.1 c (by simp)
      have ha := hc a (by simp)
      have hb := hc b (by simp)
      have hcc := hc c (by simp)
      omega
  · rintro rfl
    refine ⟨by simp, by simp, ?_⟩
    rw [covers_pair_forall]
    intro a ha
    simp at ha
    omega

theorem mulCoeff_xx {n j i : Nat} (hji : j < i) (hi : i < n) {t : List Nat}
    (ht : canon n t) :
    mulCoeff (set_pj n [j]) (set_pj n [i]) t = if t = [j, i] then 1 else 0 := by
  have hj : j < n := lt_trans hji hi
  have hnd : t.Nodup := pairwise_nodup ht.1
  have hsubnd : t.sublists.Nodup := List.nodup_sublists.mpr hnd
  have hgetj : ∀ S ∈ t.sublists, (set_pj n [j]).get_term S = if S = [j] then 1 else 0 :=
    fun S hS => get_xpoly (canon_sublist (List.mem_sublists.mp hS) ht)
  have hgeti : ∀ T ∈ t.sublists, (set_pj n [i]).get_term T = if T = [i] then 1 else 0 :=
    fun T hT => get_xpoly (canon_sublist (List.mem_sublists.mp hT) ht)
  unfold mulCoeff
  have hinner : ∀ S ∈ t.sublists,
      ((t.sublists.map (fun T => if covers t S T then
        (set_pj n [j]).get_term S * (set_pj n [i]).get_term T else 0)).sum) =
      if [i] ∈ t.sublists then
        (if covers t S [i] then (set_pj n [j]).get_term S else 0) else 0 := by
    intro S hS
    rw [sum_map_eq_of_single _ [i] hsubnd ?_]
    · rw [get_xpoly (canon_one hi)]
      by_cases hc : covers t S [i] = true
      · simp [hc]
      · simp [hc]
    · intro T hT hTne
      rw [hgeti T hT, if_neg hTne]
      simp
  rw [List.map_congr_left hinner]
  by_cases hiS : [i] ∈ t.sublists
  · simp only [if_pos hiS]
    rw [sum_map_eq_of_single _ [j] hsubnd ?_]
    · rw [get_xpoly (canon_one hj)]
      have hiff := cover_pair_iff hji ht.1
      by_cases hjS : [j] ∈ t.sublists
      · simp only [if_pos hjS]
        by_cases hc : covers t [j] [i] = true
        · rw [if_pos hc]
          have ht2 : t = [j, i] := hiff.mp
            ⟨List.singleton_sublist.mp (List.mem_sublists.mp hjS),
             List.singleton_sublist.mp (List.mem_sublists.mp hiS), hc⟩
          rw [if_pos ht2]
          decide
        · rw [if_neg hc]
          have ht2 : t ≠ [j, i] := by
            intro h
            exact hc (hiff.mpr h).2.2
          rw [if_neg ht2]
          decide
      · simp only [if_neg hjS]
        have ht2 : t ≠ [j, i] := by
          rintro rfl
          exact hjS (List.mem_sublists.mpr (List.singleton_sublist.mpr (by simp)))
        rw [if_neg ht2]
        decide
    · intro S hS hSne
      rw [hgetj S hS, if_neg hSne]
      simp
  · have ht2 : t ≠ [j, i] := by
      rintro rfl
      exact hiS (List.mem_sublists.mpr (List.singleton_sublist.mpr (by simp)))
    rw [if_neg ht2]
    simp [hiS]

/-- Product coefficient when both factors have a single unit coefficient. -/
theorem mulCoeff_delta {n : Nat} {p q : SpecialPolynomial} {S0 T0 t : List Nat}
    (ht : canon n t) (hS0 : canon n S0) (hT0 : canon n T0)
    (hp : ∀ S, canon n S → p.get_term S = if S = S0 then 1 else 0)
    (hq : ∀ T, canon n T → q.get_term T = if T = T0 then 1 else 0) :
    mulCoeff p q t =
      if S0 ∈ t.sublists ∧ T0 ∈ t.sublists ∧ covers t S0 T0 = true then 1 else 0 := by
  have hnd : t.Nodup := pairwise_nodup ht.1
  have hsubnd : t.sublists.Nodup := List.nodup_sublists.mpr hnd
  unfold mulCoeff
  have hinner : ∀ S ∈ t.sublists,
      ((t.sublists.map (fun T => if covers t S T then
        p.get_term S * q.get_term T else 0)).sum) =
      if T0 ∈ t.sublists then
        (if covers t S T0 then p.get_term S else 0) else 0 := by
    intro S hS
    rw [sum_map_eq_of_single _ T0 hsubnd ?_]
    · rw [hq T0 hT0]
      by_cases hc : covers t S T0 = true
      · simp [hc]
      · simp [hc]
    · intro T hT hTne
      rw [hq T (canon_sublist (List.mem_sublists.mp hT) ht), if_neg hTne]
      simp
  rw [List.map_congr_left hinner]
  by_cases h1 : T0 ∈ t.sublists
  · simp only [if_pos h1]
    rw [sum_map_eq_of_single _ S0 hsubnd ?_]
    · rw [hp S0 hS0, if_pos rfl]
      by_cases h2 : S0 ∈ t.sublists
      · by_cases h3 : covers t S0 T0 = true
        · simp [h2, h3, h1]
        · simp [h2, h3]
      · simp [h2]
    · intro S hS hSne
      rw [hp S (canon_sublist (List.mem_sublists.mp hS) ht), if_neg hSne]
      simp
  · simp [h1]

/-- Coefficients of the product of two single-variable parity
polynomials: the indicator of the joined pair, at every canonical term. -/
theorem get_mul_xx {n j i : Nat} (hji : j < i) (hi : i < n) {t : List Nat}
    (ht : canon n t) :
    (mul (set_pj n [j]) (set_pj n [i])).get_term t = if t = [j, i] then 1 else 0 := by
  have hrw : mul (set_pj n [j]) (set_pj n [i]) =
      mkPoly n (mulCoeff (set_pj n [j]) (set_pj n [i]) [])
        (mulCoeff (set_pj n [j]) (set_pj n [i])) := by
    rw [mul, set_pj_n_vars]
  match t, ht with
  | [], _ =>
    rw [hrw, get_mkPoly_nil, mulCoeff_xx hji hi (canon_nil n)]
  | [a], ⟨_, hb⟩ =>
    rw [hrw, get_mkPoly_one (hb a (by simp)) _ _, mulCoeff_xx hji hi (canon_one (hb a (by simp)))]
  | [a, b], ⟨hpw, hb⟩ =>
    rw [hrw, get_mkPoly_two (by simpa using hpw) (hb b (by simp)) _ _,
      mulCoeff_xx hji hi (canon_two (by simpa using hpw) (hb b (by simp)))]
  | [a, b, c], ⟨hpw, hb⟩ =>
    simp only [List.pairwise_cons] at hpw
    rw [hrw, get_mkPoly_three (hpw.1 b (by simp)) (hpw.2.1 c (by simp)) (hb c (by simp)) _ _,
      mulCoeff_xx hji hi (canon_three (hpw.1 b (by simp)) (hpw.2.1 c (by simp)) (hb c (by simp)))]
  | a :: b :: c :: d :: r, _ =>
    rw [get_long_eq_zero _ _ (by simp)]
    have : a :: b :: c :: d :: r ≠ [j, i] := by
      intro h
      exact absurd (congrArg List.length h) (by simp)
    rw [if_neg this]

theorem covers_triple_forall {k j i : Nat} {t : List Nat} :
    covers t [k, j] [i] = true ↔ ∀ a ∈ t, a = k ∨ a = j ∨ a = i := by
  simp [covers]
  constructor
  · intro h a ha
    rcases h a ha with (h' | h') | h'
    · exact Or.inl h'
    · exact Or.inr (Or.inl h')
    · exact Or.inr (Or.inr h')
  · intro h a ha
    rcases h a ha with h' | h' | h'
    · exact Or.inl (Or.inl h')
    · exact Or.inl (Or.inr h')
    · exact Or.inr h'

theorem cover_triple_iff {k j i : Nat} (hkj : k < j) (hji : j < i) {t : List Nat}
    (hp : t.Pairwise (· < ·)) :
    ([k, j] ∈ t.sublists ∧ [i] ∈ t.sublists ∧ covers t [k, j] [i] = true) ↔
      t = [k, j, i] := by
  constructor
  · rintro ⟨hkjS, hiS, hc⟩
    have hkt : k ∈ t := (List.mem_sublists.mp hkjS).subset (by simp)
    have hjt : j ∈ t := (List.mem_sublists.mp hkjS).subset (by simp)
    have hit : i ∈ t := List.singleton_sublist.mp (List.mem_sublists.mp hiS)
    rw [covers_triple_forall] at hc
    match t, hp, hkt, hjt, hit, hc with
    | [a], _, hkt, hjt, _, _ =>
      simp at hkt hjt; omega
    | [a, b], hp, hkt, hjt, hit, _ =>
      simp only [List.pairwise_cons] at hp
      have hab := hp.1 b (by simp)
      simp at hkt hjt hit
      omega
    | [a, b, c], hp, hkt, hjt, hit, hc =>
      simp only [List.pairwise_cons] at hp
      have hab := hp.1 b (by simp)
      have hac := hp.1 c (by simp)
      have hbc := hp.2.1 c (by simp)
      have h1 := hc a (by simp)
      have h2 := hc b (by simp)
      have h3 := hc c (by simp)
      simp at hkt hjt hit
      have : a = k ∧ b = j ∧ c = i := by omega
      rw [this.1, this.2.1, this.2.2]
    | a :: b :: c :: d :: r, hp, _, _, _, hc =>
      exfalso
      simp only [List.pairwise_cons] at hp
      have hab := hp.1 b (by simp)
      have hac := hp.1 c (by simp)
      have had := hp.1 d (by simp)
      have hbc := hp.2.1 c (by simp)
      have hbd := hp.2.1 d (by simp)
      have hcd := hp.2.2.1 d (by simp)
      have h1 := hc a (by simp)
      have h2 := hc b (by simp)
      have h3 := hc c (by simp)
      have h4 := hc d (by simp)
      omega
  · rintro rfl
    refine ⟨?_, ?_, ?_⟩
    · exact List.mem_sublists.mpr
        (List.Sublist.cons₂ k (List.Sublist.cons₂ j (List.nil_sublist [i])))
    · exact List.mem_sublists.mpr
        (List.Sublist.cons k (List.Sublist.cons j (List.Sublist.refl [i])))
    · rw [covers_triple_forall]
      intro a ha
      simp at ha
      omega

/-- Coefficients of the product of three single-variable parity
polynomials: the indicator of the joined triple. -/
theorem get_mul_xxx {n k j i : Nat} (hkj : k < j) (hji : j < i) (hi : i < n)
    {t : List Nat} (ht : canon n t) :
    (mul (mul (set_pj n [k]) (set_pj n [j])) (set_pj n [i])).get_term t =
      if t = [k, j, i] then 1 else 0 := by
  have hj : j < n := lt_trans hji hi
  have hmc : ∀ s : List Nat, canon n s →
      mulCoeff (mul (set_pj n [k]) (set_pj n [j])) (set_pj n [i]) s =
        if s = [k, j, i] then 1 else 0 := by
    intro s hs
    rw [mulCoeff_delta hs (canon_two hkj hj) (canon_one hi)
      (fun S hS => get_mul_xx hkj hj hS) (fun T hT => get_xpoly hT)]
    rw [if_congr (cover_triple_iff hkj hji hs.1) rfl rfl]
  have hrw : mul (mul (set_pj n [k]) (set_pj n [j])) (set_pj n [i]) =
      mkPoly n (mulCoeff (mul (set_pj n [k]) (set_pj n [j])) (set_pj n [i]) [])
        (mulCoeff (mul (set_pj n [k]) (set_pj n [j])) (set_pj n [i])) := by
    rw [mul, mul_n_vars, set_pj_n_vars]
  match t, ht with
  | [], _ =>
    rw [hrw, get_mkPoly_nil, hmc [] (canon_nil n)]
  | [a], ⟨_, hb⟩ =>
    rw [hrw, get_mkPoly_one (hb a (by simp)) _ _, hmc [a] (canon_one (hb a (by simp)))]
  | [a, b], ⟨hpw, hb⟩ =>
    rw [hrw, get_mkPoly_two (by simpa using hpw) (hb b (by simp)) _ _,
      hmc [a, b] (canon_two (by simpa using hpw) (hb b (by simp)))]
  | [a, b, c], ⟨hpw, hb⟩ =>
    simp only [List.pairwise_cons] at hpw
    rw [hrw, get_mkPoly_three (hpw.1 b (by simp)) (hpw.2.1 c (by simp)) (hb c (by simp)) _ _,
      hmc [a, b, c] (canon_three (hpw.1 b (by simp)) (hpw.2.1 c (by simp)) (hb c (by simp)))]
  | a :: b :: c :: d :: r, _ =>
    rw [get_long_eq_zero _ _ (by simp)]
    have : a :: b :: c :: d :: r ≠ [k, j, i] := by
      intro h
      exact absurd (congrArg List.length h) (by simp)
    rw [if_neg this]

/-- The base polynomial of `evaluate`: only the constant survives. -/
theorem get_mkPoly_zero_fun (n : Nat) (c : Int) (t : List Nat) :
    (mkPoly n c (fun _ => 0)).get_term t = if t = [] then c else 0 := by
  match t with
  | [] => rfl
  | [j] =>
    simp only [get_term, mkPoly]
    rw [getD_zero_of_all _ (by intro v hv; simp only [List.mem_map] at hv; omega)]
    simp
  | [j, i] =>
    simp only [get_term, mkPoly]
    rw [getD_zero_of_all _ (by intro v hv; simp only [List.mem_map] at hv; omega)]
    simp
  | [k, j, i] =>
    simp only [get_term, mkPoly]
    rw [getD_zero_of_all _ (by intro v hv; simp only [List.mem_map] at hv; omega)]
    simp
  | a :: b :: c' :: d :: r =>
    rw [get_long_eq_zero _ _ (by simp)]
    simp

theorem getD_map_range {α : Type} (f : Nat → α) (d : α) {n j : Nat} (hj : j < n) :
    ((List.range n).map f).getD j d = f j := by
  rw [List.getD_eq_getElem _ _ (by simpa using hj), List.getElem_map,
    List.getElem_range]

/-- The evaluate substitution written as three explicit folds. -/
theorem evaluate_eq (p : SpecialPolynomial) (qs : List SpecialPolynomial) :
    p.evaluate qs =
      (tripleListC p.n_vars).foldl (fun acc t =>
        match t with
        | [k, j, i] => add acc (smul (p.get_term t)
            (mul (mul (qs.getD k (zero p.n_vars)) (qs.getD j (zero p.n_vars)))
              (qs.getD i (zero p.n_vars))))
        | _ => acc)
        ((pairListC p.n_vars).foldl (fun acc t =>
          match t with
          | [j, i] => add acc (smul (p.get_term t)
              (mul (qs.getD j (zero p.n_vars)) (qs.getD i (zero p.n_vars))))
          | _ => acc)
          ((List.range p.n_vars).foldl (fun acc j =>
            add acc (smul (p.get_term [j]) (qs.getD j (zero p.n_vars))))
            (mkPoly p.n_vars (p.weight_0 % 8) (fun _ => 0)))) := rfl

/-- Coefficient of `evaluate` at a canonical term, as the mod-8 total of
the contributions of the constant and the three substitution sums. -/
theorem get_evaluate_sums (p : SpecialPolynomial) (qs : List SpecialPolynomial)
    {t : List Nat} (ht : canon p.n_vars t) :
    (p.evaluate qs).get_term t =
      ((if t = [] then p.weight_0 % 8 else 0)
        + ((List.range p.n_vars).map (fun j =>
            (smul (p.get_term [j]) (qs.getD j (zero p.n_vars))).get_term t)).sum
        + ((pairListC p.n_vars).map (fun u =>
            (smul (p.get_term u) (mul (qs.getD (u.getD 0 0) (zero p.n_vars))
              (qs.getD (u.getD 1 0) (zero p.n_vars)))).get_term t)).sum
        + ((tripleListC p.n_vars).map (fun u =>
            (smul (p.get_term u) (mul (mul (qs.getD (u.getD 0 0) (zero p.n_vars))
              (qs.getD (u.getD 1 0) (zero p.n_vars)))
              (qs.getD (u.getD 2 0) (zero p.n_vars)))).get_term t)).sum) % 8 := by
  have e2 : ∀ X : SpecialPolynomial,
      (pairListC p.n_vars).foldl (fun acc u =>
        match u with
        | [j, i] => add acc (smul (p.get_term u)
            (mul (qs.getD j (zero p.n_vars)) (qs.getD i (zero p.n_vars))))
        | _ => acc) X =
      (pairListC p.n_vars).foldl (fun acc u =>
        add acc (smul (p.get_term u) (mul (qs.getD (u.getD 0 0) (zero p.n_vars))
          (qs.getD (u.getD 1 0) (zero p.n_vars))))) X := by
    intro X
    refine List.foldl_ext _ _ X ?_
    intro a u hu
    obtain ⟨j, i, hji, hi, rfl⟩ := pairListC_mem hu
    rfl
  have e3 : ∀ X : SpecialPolynomial,
      (tripleListC p.n_vars).foldl (fun acc u =>
        match u with
        | [k, j, i] => add acc (smul (p.get_term u)
            (mul (mul (qs.getD k (zero p.n_vars)) (qs.getD j (zero p.n_vars)))
              (qs.getD i (zero p.n_vars))))
        | _ => acc) X =
      (tripleListC p.n_vars).foldl (fun acc u =>
        add acc (smul (p.get_term u) (mul (mul (qs.getD (u.getD 0 0) (zero p.n_vars))
          (qs.getD (u.getD 1 0) (zero p.n_vars)))
          (qs.getD (u.getD 2 0) (zero p.n_vars))))) X := by
    intro X
    refine List.foldl_ext _ _ X ?_
    intro a u hu
    obtain ⟨k, j, i, hkj, hji, hi, rfl⟩ := tripleListC_mem hu
    rfl
  rw [evaluate_eq, e3, e2]
  have hnv1 : ((List.range p.n_vars).foldl (fun acc j =>
      add acc (smul (p.get_term [j]) (qs.getD j (zero p.n_vars))))
      (mkPoly p.n_vars (p.weight_0 % 8) (fun _ => 0))).n_vars = p.n_vars :=
    foldl_n_vars _ _ _ (fun a x => add_n_vars _ _) _ (mkPoly_n_vars _ _ _)
  have h1 := get_foldl_add (fun r => r.get_term t) p.n_vars (List.range p.n_vars)
    (fun j => smul (p.get_term [j]) (qs.getD j (zero p.n_vars)))
    (mkPoly p.n_vars (p.weight_0 % 8) (fun _ => 0)) (mkPoly_n_vars _ _ _)
    (fun a ha x => get_add_canon _ ha ht)
    (by simp only [get_mkPoly_zero_fun]; by_cases h : t = [] <;> simp [h] <;> omega)
  dsimp only at h1
  have hnv2 : ((pairListC p.n_vars).foldl (fun acc u =>
      add acc (smul (p.get_term u) (mul (qs.getD (u.getD 0 0) (zero p.n_vars))
        (qs.getD (u.getD 1 0) (zero p.n_vars)))))
      ((List.range p.n_vars).foldl (fun acc j =>
        add acc (smul (p.get_term [j]) (qs.getD j (zero p.n_vars))))
        (mkPoly p.n_vars (p.weight_0 % 8) (fun _ => 0)))).n_vars = p.n_vars :=
    foldl_n_vars _ _ _ (fun a x => add_n_vars _ _) _ hnv1
  have h2 := get_foldl_add (fun r => r.get_term t) p.n_vars (pairListC p.n_vars)
    (fun u => smul (p.get_term u) (mul (qs.getD (u.getD 0 0) (zero p.n_vars))
      (qs.getD (u.getD 1 0) (zero p.n_vars))))
    _ hnv1 (fun a ha x => get_add_canon _ ha ht) (by dsimp only; rw [h1]; omega)
  dsimp only at h2
  have h3 := get_foldl_add (fun r => r.get_term t) p.n_vars (tripleListC p.n_vars)
    (fun u => smul (p.get_term u) (mul (mul (qs.getD (u.getD 0 0) (zero p.n_vars))
      (qs.getD (u.getD 1 0) (zero p.n_vars))) (qs.getD (u.getD 2 0) (zero p.n_vars))))
    _ hnv2 (fun a ha x => get_add_canon _ ha ht) (by dsimp only; rw [h2]; omega)
  dsimp only at h3
  rw [h3, h2, h1, get_mkPoly_zero_fun]
  omega

theorem sum_map_zero {α : Type} (l : List α) (f : α → Int) (h : ∀ x ∈ l, f x = 0) :
    (l.map f).sum = 0 :=
  List.sum_eq_zero (by
    intro x hx
    obtain ⟨a, ha, rfl⟩ := List.mem_map.mp hx
    exact h a ha)

/-- Substituting the elementary single-variable parity polynomials for the
variables reproduces every coefficient mod 8. -/
theorem get_evaluate_id (p : SpecialPolynomial) {t : List Nat}
    (ht : canon p.n_vars t) :
    (p.evaluate ((List.range p.n_vars).map (fun j => set_pj p.n_vars [j]))).get_term t =
      p.get_term t % 8 := by
  have hq : ∀ j, j < p.n_vars →
      ((List.range p.n_vars).map (fun j => set_pj p.n_vars [j])).getD j
        (zero p.n_vars) = set_pj p.n_vars [j] :=
    fun j hj => getD_map_range _ _ hj
  rw [get_evaluate_sums p _ ht]
  have hmulnv : ∀ a b : Nat, (mul (set_pj p.n_vars [a]) (set_pj p.n_vars [b])).n_vars
      = p.n_vars := fun a b => (mul_n_vars _ _).trans (set_pj_n_vars _ _)
  have hmul3nv : ∀ a b c : Nat,
      (mul (mul (set_pj p.n_vars [a]) (set_pj p.n_vars [b]))
        (set_pj p.n_vars [c])).n_vars = p.n_vars :=
    fun a b c => (mul_n_vars _ _).trans ((mul_n_vars _ _).trans (set_pj_n_vars _ _))
  have e1 : (List.range p.n_vars).map (fun j =>
      (smul (p.get_term [j]) (((List.range p.n_vars).map
        (fun j => set_pj p.n_vars [j])).getD j (zero p.n_vars))).get_term t) =
      (List.range p.n_vars).map (fun j =>
        (p.get_term [j] * (if t = [j] then 1 else 0)) % 8) := by
    refine List.map_congr_left ?_
    intro j hj
    rw [hq j (List.mem_range.mp hj), get_smul_canon _ (set_pj_n_vars _ _) ht,
      get_xpoly ht]
  have e2 : (pairListC p.n_vars).map (fun u =>
      (smul (p.get_term u) (mul (((List.range p.n_vars).map
        (fun j => set_pj p.n_vars [j])).getD (u.getD 0 0) (zero p.n_vars))
        (((List.range p.n_vars).map (fun j => set_pj p.n_vars [j])).getD (u.getD 1 0)
          (zero p.n_vars)))).get_term t) =
      (pairListC p.n_vars).map (fun u =>
        (p.get_term u * (if t = u then 1 else 0)) % 8) := by
    refine List.map_congr_left ?_
    intro u hu
    obtain ⟨j, i, hji, hi, rfl⟩ := pairListC_mem hu
    simp only [List.getD_cons_zero, List.getD_cons_succ]
    rw [hq j (lt_trans hji hi), hq i hi,
      get_smul_canon _ (hmulnv j i) ht, get_mul_xx hji hi ht]
  have e3 : (tripleListC p.n_vars).map (fun u =>
      (smul (p.get_term u) (mul (mul (((List.range p.n_vars).map
        (fun j => set_pj p.n_vars [j])).getD (u.getD 0 0) (zero p.n_vars))
        (((List.range p.n_vars).map (fun j => set_pj p.n_vars [j])).getD (u.getD 1 0)
          (zero p.n_vars)))
        (((List.range p.n_vars).map (fun j => set_pj p.n_vars [j])).getD (u.getD 2 0)
          (zero p.n_vars)))).get_term t) =
      (tripleListC p.n_vars).map (fun u =>
        (p.get_term u * (if t = u then 1 else 0)) % 8) := by
    refine List.map_congr_left ?_
    intro u hu
    obtain ⟨k, j, i, hkj, hji, hi, rfl⟩ := tripleListC_mem hu
    simp only [List.getD_cons_zero, List.getD_cons_succ]
    rw [hq k (lt_trans hkj (lt_trans hji hi)), hq j (lt_trans hji hi), hq i hi,
      get_smul_canon _ (hmul3nv k j i) ht, get_mul_xxx hkj hji hi ht]
  rw [e1, e2, e3]
  match t, ht with
  | [], _ =>
    rw [if_pos rfl]
    rw [sum_map_zero _ _ (fun j hj => by rw [if_neg (by simp), mul_zero]; simp),
      sum_map_zero _ _ (fun u hu => by
        obtain ⟨j, i, hji, hi, rfl⟩ := pairListC_mem hu
        rw [if_neg (by simp), mul_zero]; simp),
      sum_map_zero _ _ (fun u hu => by
        obtain ⟨k, j, i, hkj, hji, hi, rfl⟩ := tripleListC_mem hu
        rw [if_neg (by simp), mul_zero]; simp)]
    show (p.weight_0 % 8 + 0 + 0 + 0) % 8 = p.weight_0 % 8
    omega
  | [a], ⟨_, hb⟩ =>
    have han : a < p.n_vars := hb a (by simp)
    rw [if_neg (by simp)]
    rw [show ((List.range p.n_vars).map (fun j =>
        (p.get_term [j] * (if [a] = [j] then 1 else 0)) % 8)).sum =
        p.get_term [a] % 8 from by
      rw [sum_map_eq_of_single _ a (List.nodup_range _) ?_]
      · rw [if_pos (List.mem_range.mpr han), if_pos rfl, mul_one]
      · intro b hb' hbne
        rw [if_neg (by simp [Ne.symm hbne]), mul_zero]
        simp]
    rw [sum_map_zero _ _ (fun u hu => by
        obtain ⟨j, i, hji, hi, rfl⟩ := pairListC_mem hu
        rw [if_neg (by simp), mul_zero]; simp),
      sum_map_zero _ _ (fun u hu => by
        obtain ⟨k, j, i, hkj, hji, hi, rfl⟩ := tripleListC_mem hu
        rw [if_neg (by simp), mul_zero]; simp)]
    show (0 + p.get_term [a] % 8 + 0 + 0) % 8 = p.get_term [a] % 8
    omega
  | [a, b], ⟨hpw, hb⟩ =>
    have hab : a < b := by simpa using hpw
    have hbn : b < p.n_vars := hb b (by simp)
    rw [if_neg (by simp)]
    rw [sum_map_zero _ _ (fun j hj => by rw [if_neg (by simp), mul_zero]; simp)]
    rw [show ((pairListC p.n_vars).map (fun u =>
        (p.get_term u * (if [a, b] = u then 1 else 0)) % 8)).sum =
        p.get_term [a, b] % 8 from by
      rw [sum_map_eq_of_single _ [a, b] (pairListC_nodup _) ?_]
      · rw [if_pos (pairListC_mem_of hab hbn), if_pos rfl, mul_one]
      · intro u hu hune
        rw [if_neg (fun h => hune h.symm), mul_zero]
        simp]
    rw [sum_map_zero _ _ (fun u hu => by
        obtain ⟨k, j, i, hkj, hji, hi, rfl⟩ := tripleListC_mem hu
        rw [if_neg (by simp), mul_zero]; simp)]
    show (0 + 0 + p.get_term [a, b] % 8 + 0) % 8 = p.get_term [a, b] % 8
    omega
  | [a, b, c], ⟨hpw, hb⟩ =>
    simp only [List.pairwise_cons] at hpw
    have hab : a < b := hpw.1 b (by simp)
    have hbc : b < c := hpw.2.1 c (by simp)
    have hcn : c < p.n_vars := hb c (by simp)
    rw [if_neg (by simp)]
    rw [sum_map_zero _ _ (fun j hj => by rw [if_neg (by simp), mul_zero]; simp)]
    rw [sum_map_zero _ _ (fun u hu => by
        obtain ⟨j, i, hji, hi, rfl⟩ := pairListC_mem hu
        rw [if_neg (by simp), mul_zero]; simp)]
    rw [show ((tripleListC p.n_vars).map (fun u =>
        (p.get_term u * (if [a, b, c] = u then 1 else 0)) % 8)).sum =
        p.get_term [a, b, c] % 8 from by
      rw [sum_map_eq_of_single _ [a, b, c] (tripleListC_nodup _) ?_]
      · rw [if_pos (tripleListC_mem_of hab hbc hcn), if_pos rfl, mul_one]
      · intro u hu hune
        rw [if_neg (fun h => hune h.symm), mul_zero]
        simp]
    show (0 + 0 + 0 + p.get_term [a, b, c] % 8) % 8 = p.get_term [a, b, c] % 8
    omega
  | a :: b :: c :: d :: r, _ =>
    rw [if_neg (by simp)]
    rw [sum_map_zero _ _ (fun j hj => by rw [if_neg (by simp), mul_zero]; simp)]
    rw [sum_map_zero _ _ (fun u hu => by
        obtain ⟨j, i, hji, hi, rfl⟩ := pairListC_mem hu
        rw [if_neg (by simp), mul_zero]; simp)]
    rw [sum_map_zero _ _ (fun u hu => by
        obtain ⟨k, j, i, hkj, hji, hi, rfl⟩ := tripleListC_mem hu
        rw [if_neg (by simp), mul_zero]; simp)]
    rw [get_long_eq_zero _ _ (by simp)]
    show (0 + 0 + 0 + 0) % 8 = 0 % 8
    omega

/-- Evaluating the zero polynomial gives zero coefficients whatever the
substituted polynomials are. -/
theorem get_evaluate_zero (m : Nat) (qs : List SpecialPolynomial) {t : List Nat}
    (ht : canon m t) :
    ((zero m).evaluate qs).get_term t = 0 := by
  have ht' : canon (zero m).n_vars t := by rw [zero_n_vars]; exact ht
  rw [get_evaluate_sums (zero m) qs ht']
  rw [sum_map_zero _ _ (fun j hj => by
    rw [show (zero m).get_term [j] = 0 from get_zero_any m [j], get_smul_zero]),
    sum_map_zero _ _ (fun u hu => by
      rw [show (zero m).get_term u = 0 from get_zero_any m u, get_smul_zero]),
    sum_map_zero _ _ (fun u hu => by
      rw [show (zero m).get_term u = 0 from get_zero_any m u, get_smul_zero])]
  by_cases h : t = []
  · rw [if_pos h]
    show ((zero m).weight_0 % 8 + 0 + 0 + 0) % 8 = 0
    rw [show (zero m).weight_0 = 0 from rfl]
    decide
  · rw [if_neg h]
    decide

open CNOTDihedral

theorem eye_length (n : Nat) : (eye n).length = n := by
  simp [eye]

theorem eye_getD_row {n i : Nat} (hi : i < n) :
    (eye n).getD i [] = (List.range n).map (fun j => if i = j then 1 else 0) :=
  getD_map_range _ _ hi

theorem eye_entry {n i j : Nat} (hi : i < n) (hj : j < n) :
    ((eye n).getD i []).getD j 0 = if i = j then 1 else 0 := by
  rw [eye_getD_row hi, getD_map_range _ _ hj]

theorem eye_rows {n : Nat} : ∀ row ∈ eye n, row.length = n := by
  intro row hrow
  simp only [eye, List.mem_map] at hrow
  obtain ⟨i, _, rfl⟩ := hrow
  simp

theorem emod2_of_mem01 {v : Int} (h : v ∈ ([0, 1] : List Int)) : v % 2 = v := by
  simp only [List.mem_cons, List.not_mem_nil, or_false] at h
  rcases h with rfl | rfl <;> decide

theorem filter_range_single {n i : Nat} (hi : i < n) (p : Nat → Bool)
    (hp : ∀ l, l < n → (p l = true ↔ l = i)) : (List.range n).filter p = [i] := by
  induction n with
  | zero => omega
  | succ m ih =>
    rw [List.range_succ, List.filter_append]
    rcases Nat.lt_or_ge i m with him | him
    · rw [ih him (fun l hl => hp l (by omega))]
      have : (List.filter p [m]) = [] := by
        rw [List.filter_eq_nil_iff]
        intro a ha
        simp at ha
        subst ha
        intro hc
        have := (hp a (by omega)).mp hc
        omega
      rw [this, List.append_nil]
    · have hieq : i = m := by omega
      subst hieq
      have h1 : List.filter p (List.range i) = [] := by
        rw [List.filter_eq_nil_iff]
        intro a ha
        simp at ha
        intro hc
        have := (hp a (by omega)).mp hc
        omega
      have h2 : List.filter p [i] = [i] := by
        have := (hp i (by omega)).mpr rfl
        simp [List.filter, this]
      rw [h1, h2, List.nil_append]

theorem z2matmul_eye_right {n : Nat} {L : List (List Int)} (hL : L.length = n)
    (hLr : ∀ r ∈ L, r.length = n)
    (hent : ∀ r ∈ L, ∀ v ∈ r, v ∈ ([0, 1] : List Int)) :
    z2matmul L (eye n) = L := by
  unfold z2matmul
  have hhead : ((eye n).headD []).length = n := headD_row_length (eye_length n) eye_rows
  refine List.ext_getElem (by simp) ?_
  intro m h1 h2
  rw [List.getElem_map]
  have hrow : L[m] ∈ L := List.getElem_mem _
  refine List.ext_getElem (by rw [List.length_map, List.length_range, hhead, hLr _ hrow]) ?_
  intro j hj1 hj2
  have hjn : j < n := by simpa only [List.length_map, List.length_range, hhead] using hj1
  rw [List.getElem_map, List.getElem_range]
  have hsum : (∑ k ∈ Finset.range (eye n).length,
      L[m].getD k 0 * ((eye n).getD k []).getD j 0) = L[m].getD j 0 := by
    rw [eye_length]
    rw [Finset.sum_congr rfl (fun k hk => by
      rw [eye_entry (List.mem_range.mp hk) hjn, mul_ite, mul_one, mul_zero])]
    rw [Finset.sum_ite_eq' (Finset.range n) j (fun k => L[m].getD k 0)]
    rw [if_pos (Finset.mem_range.mpr hjn)]
  rw [hsum, List.getD_eq_getElem _ _ (by rw [hLr _ hrow] at hj2 ⊢; exact hj2)]
  exact emod2_of_mem01 (hent _ hrow _ (List.getElem_mem _))

theorem z2matmul_eye_left {n : Nat} {L : List (List Int)} (hL : L.length = n)
    (hLr : ∀ r ∈ L, r.length = n)
    (hent : ∀ r ∈ L, ∀ v ∈ r, v ∈ ([0, 1] : List Int)) :
    z2matmul (eye n) L = L := by
  unfold z2matmul
  have hhead : (L.headD []).length = n := headD_row_length hL hLr
  refine List.ext_getElem (by simp [eye_length, hL]) ?_
  intro m h1 h2
  have hmn : m < n := by simpa [eye_length] using h1
  have hme : m < (eye n).length := by rw [eye_length]; exact hmn
  rw [List.getElem_map]
  have hrowm : (eye n)[m] = (eye n).getD m [] :=
    (List.getD_eq_getElem _ _ (by simpa [eye_length] using hmn)).symm
  have hrow : L[m] ∈ L := List.getElem_mem _
  refine List.ext_getElem (by rw [List.length_map, List.length_range, hhead, hLr _ hrow]) ?_
  intro j hj1 hj2
  have hjn : j < n := by simpa only [List.length_map, List.length_range, hhead] using hj1
  rw [List.getElem_map, List.getElem_range]
  have hsum : (∑ k ∈ Finset.range L.length,
      (eye n)[m].getD k 0 * (L.getD k []).getD j 0) = (L.getD m []).getD j 0 := by
    rw [hL]
    rw [Finset.sum_congr rfl (fun k hk => by
      rw [hrowm, eye_entry hmn (List.mem_range.mp hk), ite_mul, one_mul, zero_mul])]
    rw [Finset.sum_ite_eq (Finset.range n) m (fun k => (L.getD k []).getD j 0)]
    rw [if_pos (Finset.mem_range.mpr hmn)]
  rw [hsum, List.getD_eq_getElem _ _ (by omega : m < L.length),
    List.getD_eq_getElem _ _ (by rw [hLr _ hrow] at hj2 ⊢; exact hj2)]
  exact emod2_of_mem01 (hent _ hrow _ (List.getElem_mem _))

theorem shift_dot_right_id {n : Nat} {L : List (List Int)} {s : List Int}
    (hL : L.length = n) (hs : s.length = n)
    (hsent : ∀ v ∈ s, v ∈ ([0, 1] : List Int)) :
    List.zipWith (fun a b => (a + b) % 2) (z2matvecmul L (List.replicate n 0)) s = s := by
  have hmv : z2matvecmul L (List.replicate n 0) = L.map (fun _ => 0) := by
    unfold z2matvecmul
    refine List.map_congr_left ?_
    intro row hrow
    rw [Finset.sum_congr rfl (fun k hk => by rw [getD_replicate_zero, mul_zero])]
    simp
  rw [hmv]
  refine List.ext_getElem (by simp [hL, hs]) ?_
  intro m h1 h2
  rw [List.getElem_zipWith]
  have hmL : m < L.length := by simp [hL, hs] at h1; omega
  rw [List.getElem_map]
  have := emod2_of_mem01 (hsent _ (List.getElem_mem h2))
  omega

theorem shift_dot_left_id {n : Nat} {s : List Int} (hs : s.length = n)
    (hsent : ∀ v ∈ s, v ∈ ([0, 1] : List Int)) :
    List.zipWith (fun a b => (a + b) % 2) (z2matvecmul (eye n) s)
      (List.replicate n 0) = s := by
  have hmv : z2matvecmul (eye n) s =
      (List.range n).map (fun i => s.getD i 0 % 2) := by
    unfold z2matvecmul
    rw [show eye n = (List.range n).map (fun i =>
      (List.range n).map (fun j => if i = j then 1 else 0)) from rfl, List.map_map]
    refine List.map_congr_left ?_
    intro i hi
    have hin : i < n := List.mem_range.mp hi
    simp only [Function.comp]
    rw [hs]
    rw [Finset.sum_congr rfl (fun k hk => by
      rw [getD_map_range _ _ (List.mem_range.mp hk), ite_mul, one_mul, zero_mul])]
    rw [Finset.sum_ite_eq (Finset.range n) i (fun k => s.getD k 0)]
    rw [if_pos (Finset.mem_range.mpr hin)]
  rw [hmv]
  refine List.ext_getElem (by simp [hs]) ?_
  intro m h1 h2
  rw [List.getElem_zipWith]
  have hmn : m < n := by simpa using h2.trans_eq hs
  rw [List.getElem_map, List.getElem_range, List.getElem_replicate,
    List.getD_eq_getElem _ _ h2]
  have := emod2_of_mem01 (hsent _ (List.getElem_mem h2))
  omega

/-- Every position of the canonical pair list is some pos2. -/
theorem pairListC_index {m idx : Nat} (h : idx < (pairListC m).length) :
    ∃ j i, j < i ∧ i < m ∧ pos2 j i = idx := by
  induction m with
  | zero => simp [pairListC] at h
  | succ r ih =>
    rw [pairListC, List.length_append, pairListC_length, List.length_map,
      List.length_range] at h
    rcases Nat.lt_or_ge idx (Nat.choose r 2) with hlt | hge
    · obtain ⟨j, i, hji, hi, hpos⟩ := ih (by rw [pairListC_length]; exact hlt)
      exact ⟨j, i, hji, by omega, hpos⟩
    · refine ⟨idx - Nat.choose r 2, r, by omega, by omega, ?_⟩
      simp [pos2]
      omega

/-- Every position of the canonical triple list is some pos3. -/
theorem tripleListC_index {m idx : Nat} (h : idx < (tripleListC m).length) :
    ∃ k j i, k < j ∧ j < i ∧ i < m ∧ pos3 k j i = idx := by
  induction m with
  | zero => simp [tripleListC] at h
  | succ r ih =>
    rw [tripleListC, List.length_append, tripleListC_length, List.length_map,
      pairListC_length] at h
    rcases Nat.lt_or_ge idx (Nat.choose r 3) with hlt | hge
    · obtain ⟨k, j, i, hkj, hji, hi, hpos⟩ := ih (by rw [tripleListC_length]; exact hlt)
      exact ⟨k, j, i, hkj, hji, by omega, hpos⟩
    · obtain ⟨k, j, hkj, hj, hpos⟩ := pairListC_index
        (show idx - Nat.choose r 3 < (pairListC r).length by
          rw [pairListC_length]; omega)
      refine ⟨k, j, r, hkj, hj, by omega, ?_⟩
      simp [pos3]
      simp [pos2] at hpos
      omega

theorem emod8_of_mem8 {v : Int} (h : v ∈ ([0, 1, 2, 3, 4, 5, 6, 7] : List Int)) :
    v % 8 = v := by
  simp only [List.mem_cons, List.not_mem_nil, or_false] at h
  rcases h with rfl | rfl | rfl | rfl | rfl | rfl | rfl | rfl <;> decide

theorem emod8_of_mem0246 {v : Int} (h : v ∈ ([0, 2, 4, 6] : List Int)) :
    v % 8 = v := by
  simp only [List.mem_cons, List.not_mem_nil, or_false] at h
  rcases h with rfl | rfl | rfl | rfl <;> decide

theorem emod8_of_mem04 {v : Int} (h : v ∈ ([0, 4] : List Int)) : v % 8 = v := by
  simp only [List.mem_cons, List.not_mem_nil, or_false] at h
  rcases h with rfl | rfl <;> decide

theorem sp_ext {p q : SpecialPolynomial} (h0 : p.weight_0 = q.weight_0)
    (h1 : p.weight_1 = q.weight_1) (h2 : p.weight_2 = q.weight_2)
    (h3 : p.weight_3 = q.weight_3) : p = q := by
  cases p; cases q; simp_all

/-- Adding the zero polynomial to the identity-substitution evaluation
reproduces the polynomial, list for list. -/
theorem add_zero_eval_id (P : SpecialPolynomial) {n : Nat} (hn : P.n_vars = n)
    (hl2 : P.weight_2.length = n.choose 2) (hl3 : P.weight_3.length = n.choose 3)
    (hw0 : P.weight_0 = 0)
    (hr1 : ∀ v ∈ P.weight_1, v % 8 = v) (hr2 : ∀ v ∈ P.weight_2, v % 8 = v)
    (hr3 : ∀ v ∈ P.weight_3, v % 8 = v) :
    SpecialPolynomial.add (zero n)
      (P.evaluate ((List.range n).map (fun j => set_pj n [j]))) = P := by
  subst hn
  have hw1l : P.weight_1.length = P.n_vars := rfl
  have hE : ∀ t : List Nat, canon P.n_vars t →
      (P.evaluate ((List.range P.n_vars).map
        (fun j => set_pj P.n_vars [j]))).get_term t = P.get_term t % 8 :=
    fun t ht => get_evaluate_id P ht
  have hA : SpecialPolynomial.add (zero P.n_vars)
      (P.evaluate ((List.range P.n_vars).map (fun j => set_pj P.n_vars [j]))) =
      mkPoly P.n_vars
        ((P.evaluate ((List.range P.n_vars).map
          (fun j => set_pj P.n_vars [j]))).weight_0 % 8)
        (fun t => (P.evaluate ((List.range P.n_vars).map
          (fun j => set_pj P.n_vars [j]))).get_term t % 8) := by
    unfold SpecialPolynomial.add
    rw [zero_n_vars]
    rw [show (zero P.n_vars).weight_0 = 0 from rfl, zero_add]
    congr 1
    funext t
    rw [get_zero_any, zero_add]
  rw [hA]
  refine sp_ext ?_ ?_ ?_ ?_
  · show (P.evaluate ((List.range P.n_vars).map
      (fun j => set_pj P.n_vars [j]))).weight_0 % 8 = P.weight_0
    rw [show (P.evaluate ((List.range P.n_vars).map
      (fun j => set_pj P.n_vars [j]))).weight_0 =
      (P.evaluate ((List.range P.n_vars).map
        (fun j => set_pj P.n_vars [j]))).get_term [] from rfl]
    rw [hE [] (canon_nil _), show P.get_term [] = P.weight_0 from rfl, hw0]
    decide
  · show (List.range P.n_vars).map (fun t =>
      (P.evaluate ((List.range P.n_vars).map
        (fun j => set_pj P.n_vars [j]))).get_term [t] % 8) = P.weight_1
    refine List.ext_getElem (by simp [hw1l]) ?_
    intro k h1 h2
    rw [List.getElem_map, List.getElem_range]
    have hkn : k < P.n_vars := by simpa using h1
    rw [hE [k] (canon_one hkn)]
    rw [show P.get_term [k] = P.weight_1.getD k 0 from rfl,
      List.getD_eq_getElem _ _ h2]
    have := hr1 _ (List.getElem_mem h2)
    omega
  · show (pairListC P.n_vars).map (fun t =>
      (P.evaluate ((List.range P.n_vars).map
        (fun j => set_pj P.n_vars [j]))).get_term t % 8) = P.weight_2
    refine List.ext_getElem (by rw [List.length_map, pairListC_length, hl2]) ?_
    intro idx h1 h2
    rw [List.getElem_map]
    have hidx : idx < (pairListC P.n_vars).length := by simpa using h1
    obtain ⟨j, i, hji, him, hpos⟩ := pairListC_index hidx
    rw [show (pairListC P.n_vars)[idx] = [j, i] from by
      rw [← List.getD_eq_getElem _ [] hidx, ← hpos]; exact pairListC_getD hji him]
    rw [hE [j, i] (canon_two hji him)]
    rw [show P.get_term [j, i] = P.weight_2.getD (pos2 j i) 0 from rfl, hpos,
      List.getD_eq_getElem _ _ h2]
    have := hr2 _ (List.getElem_mem h2)
    omega
  · show (tripleListC P.n_vars).map (fun t =>
      (P.evaluate ((List.range P.n_vars).map
        (fun j => set_pj P.n_vars [j]))).get_term t % 8) = P.weight_3
    refine List.ext_getElem (by rw [List.length_map, tripleListC_length, hl3]) ?_
    intro idx h1 h2
    rw [List.getElem_map]
    have hidx : idx < (tripleListC P.n_vars).length := by simpa using h1
    obtain ⟨k, j, i, hkj, hji, him, hpos⟩ := tripleListC_index hidx
    rw [show (tripleListC P.n_vars)[idx] = [k, j, i] from by
      rw [← List.getD_eq_getElem _ [] hidx, ← hpos]; exact tripleListC_getD hkj hji him]
    rw [hE [k, j, i] (canon_three hkj hji him)]
    rw [show P.get_term [k, j, i] = P.weight_3.getD (pos3 k j i) 0 from rfl, hpos,
      List.getD_eq_getElem _ _ h2]
    have := hr3 _ (List.getElem_mem h2)
    omega

/-- Adding an evaluation of the zero polynomial changes nothing, list for
list, whatever polynomials are substituted. -/
theorem add_eval_zero (P : SpecialPolynomial) {n : Nat} (hn : P.n_vars = n)
    (hl2 : P.weight_2.length = n.choose 2) (hl3 : P.weight_3.length = n.choose 3)
    (hw0 : P.weight_0 % 8 = P.weight_0)
    (hr1 : ∀ v ∈ P.weight_1, v % 8 = v) (hr2 : ∀ v ∈ P.weight_2, v % 8 = v)
    (hr3 : ∀ v ∈ P.weight_3, v % 8 = v) (qs : List SpecialPolynomial) :
    SpecialPolynomial.add P ((zero n).evaluate qs) = P := by
  have hw1l : P.weight_1.length = P.n_vars := rfl
  have hZ : ∀ t : List Nat, canon n t → ((zero n).evaluate qs).get_term t = 0 :=
    fun t ht => get_evaluate_zero n qs ht
  refine sp_ext ?_ ?_ ?_ ?_
  · show (P.weight_0 + ((zero n).evaluate qs).weight_0) % 8 = P.weight_0
    rw [show ((zero n).evaluate qs).weight_0 =
      ((zero n).evaluate qs).get_term [] from rfl, hZ [] (canon_nil _), add_zero, hw0]
  · show (List.range P.n_vars).map (fun t =>
      (P.get_term [t] + ((zero n).evaluate qs).get_term [t]) % 8) = P.weight_1
    refine List.ext_getElem (by simp [hw1l]) ?_
    intro k h1 h2
    rw [List.getElem_map, List.getElem_range]
    have hkn : k < n := by rw [← hn]; simpa using h1
    rw [hZ [k] (canon_one hkn), add_zero]
    rw [show P.get_term [k] = P.weight_1.getD k 0 from rfl,
      List.getD_eq_getElem _ _ h2]
    exact hr1 _ (List.getElem_mem h2)
  · show (pairListC P.n_vars).map (fun t =>
      (P.get_term t + ((zero n).evaluate qs).get_term t) % 8) = P.weight_2
    refine List.ext_getElem (by rw [List.length_map, pairListC_length, hn, hl2]) ?_
    intro idx h1 h2
    rw [List.getElem_map]
    have hidx : idx < (pairListC P.n_vars).length := by simpa using h1
    obtain ⟨j, i, hji, him, hpos⟩ := pairListC_index hidx
    rw [show (pairListC P.n_vars)[idx] = [j, i] from by
      rw [← List.getD_eq_getElem _ [] hidx, ← hpos]; exact pairListC_getD hji him]
    rw [hZ [j, i] (canon_two hji (by rw [← hn]; exact him)), add_zero]
    rw [show P.get_term [j, i] = P.weight_2.getD (pos2 j i) 0 from rfl, hpos,
      List.getD_eq_getElem _ _ h2]
    exact hr2 _ (List.getElem_mem h2)
  · show (tripleListC P.n_vars).map (fun t =>
      (P.get_term t + ((zero n).evaluate qs).get_term t) % 8) = P.weight_3
    refine List.ext_getElem (by rw [List.length_map, tripleListC_length, hn, hl3]) ?_
    intro idx h1 h2
    rw [List.getElem_map]
    have hidx : idx < (tripleListC P.n_vars).length := by simpa using h1
    obtain ⟨k, j, i, hkj, hji, him, hpos⟩ := tripleListC_index hidx
    rw [show (tripleListC P.n_vars)[idx] = [k, j, i] from by
      rw [← List.getD_eq_getElem _ [] hidx, ← hpos]; exact tripleListC_getD hkj hji him]
    rw [hZ [k, j, i] (canon_three hkj hji (by rw [← hn]; exact him)), add_zero]
    rw [show P.get_term [k, j, i] = P.weight_3.getD (pos3 k j i) 0 from rfl, hpos,
      List.getD_eq_getElem _ _ h2]
    exact hr3 _ (List.getElem_mem h2)

/-- The dotRaw body written as an explicit record. -/
theorem dotRaw_eq (self other : CNOTDihedral) :
    dotRaw self other =
      { num_qubits := self.num_qubits,
        linear := z2matmul self.linear other.linear,
        shift := List.zipWith (fun a b => (a + b) % 2)
          (z2matvecmul self.linear other.shift) self.shift,
        poly := SpecialPolynomial.add other.poly (self.poly.evaluate
          ((List.range self.num_qubits).map (fun i =>
            let support := (List.range self.num_qubits).filter
              (fun j => (other.linear.getD i []).getD j 0 != 0)
            let poly := SpecialPolynomial.set_pj self.num_qubits support
            if other.shift.getD i 0 = 1 then
              let poly := SpecialPolynomial.smul (-1) poly
              { poly with weight_0 := (poly.weight_0 + 1) % 8 }
            else poly))) } := rfl

/-- The substitution polynomials built by `dotRaw` from the identity
element are the elementary single-variable parity polynomials. -/
theorem dotRaw_ident_newvars (n : Nat) :
    (List.range n).map (fun i =>
      let support := (List.range n).filter
        (fun j => ((ident n).linear.getD i []).getD j 0 != 0)
      let poly := SpecialPolynomial.set_pj n support
      if (ident n).shift.getD i 0 = 1 then
        let poly := SpecialPolynomial.smul (-1) poly
        { poly with weight_0 := (poly.weight_0 + 1) % 8 }
      else poly) =
    (List.range n).map (fun j => set_pj n [j]) := by
  refine List.map_congr_left ?_
  intro i hi
  have hin : i < n := List.mem_range.mp hi
  show (if (List.replicate n (0 : Int)).getD i 0 = 1 then
      { (SpecialPolynomial.smul (-1) (SpecialPolynomial.set_pj n
        ((List.range n).filter (fun j => ((eye n).getD i []).getD j 0 != 0)))) with
        weight_0 := ((SpecialPolynomial.smul (-1) (SpecialPolynomial.set_pj n
          ((List.range n).filter
            (fun j => ((eye n).getD i []).getD j 0 != 0)))).weight_0 + 1) % 8 }
    else SpecialPolynomial.set_pj n
      ((List.range n).filter (fun j => ((eye n).getD i []).getD j 0 != 0))) =
    set_pj n [i]
  rw [getD_replicate_zero, if_neg (by decide : ¬ (0 : Int) = 1)]
  congr 1
  refine filter_range_single hin _ ?_
  intro l hl
  rw [eye_entry hin hl]
  by_cases hil : i = l
  · subst hil
    simp
  · simp [hil, Ne.symm hil]

/-- C8: composing a valid element with the identity element of its qubit
count, in either order via `_dot`, returns an element equal to it under
`__eq__` (componentwise equality of polynomial, linear and shift). -/
theorem C8_identity_laws (A : CNOTDihedral) (hv : A._is_valid) :
    A._dot (ident A.num_qubits) = Except.ok (dotRaw A (ident A.num_qubits)) ∧
    eqv (dotRaw A (ident A.num_qubits)) A ∧
    (ident A.num_qubits)._dot A = Except.ok (dotRaw (ident A.num_qubits) A) ∧
    eqv (dotRaw (ident A.num_qubits) A) A := by
  obtain ⟨hw0, hl1, hl2, hl3, hLl, hLr, hsl, hdet, hq1, hq2, hq3, hqs, hqL⟩ := hv
  have hn : A.poly.n_vars = A.num_qubits := hl1
  have hl2' : A.poly.weight_2.length = (A.num_qubits).choose 2 := by
    rw [hl2, choose_two_eq]
  have hl3' : A.poly.weight_3.length = (A.num_qubits).choose 3 := by
    rw [hl3, choose_three_eq]
  have hr1 : ∀ v ∈ A.poly.weight_1, v % 8 = v := fun v hv => emod8_of_mem8 (hq1 v hv)
  have hr2 : ∀ v ∈ A.poly.weight_2, v % 8 = v :=
    fun v hv => emod8_of_mem0246 (hq2 v hv)
  have hr3 : ∀ v ∈ A.poly.weight_3, v % 8 = v := fun v hv => emod8_of_mem04 (hq3 v hv)
  refine ⟨?_, ⟨?_, ?_, ?_⟩, ?_, ⟨?_, ?_, ?_⟩⟩
  · unfold _dot
    rw [if_neg (by simp [ident])]
  · show (dotRaw A (ident A.num_qubits)).poly = A.poly
    rw [dotRaw_eq]
    show SpecialPolynomial.add (ident A.num_qubits).poly _ = A.poly
    rw [show (ident A.num_qubits).poly = zero A.num_qubits from rfl]
    rw [dotRaw_ident_newvars A.num_qubits]
    exact add_zero_eval_id A.poly hn hl2' hl3' hw0 hr1 hr2 hr3
  · show (dotRaw A (ident A.num_qubits)).linear = A.linear
    rw [dotRaw_eq]
    show z2matmul A.linear (ident A.num_qubits).linear = A.linear
    rw [show (ident A.num_qubits).linear = eye A.num_qubits from rfl]
    exact z2matmul_eye_right hLl hLr hqL
  · show (dotRaw A (ident A.num_qubits)).shift = A.shift
    rw [dotRaw_eq]
    show List.zipWith (fun a b => (a + b) % 2)
      (z2matvecmul A.linear (ident A.num_qubits).shift) A.shift = A.shift
    rw [show (ident A.num_qubits).shift = List.replicate A.num_qubits 0 from rfl]
    exact shift_dot_right_id hLl hsl hqs
  · unfold _dot
    rw [if_neg (by simp [ident])]
  · show (dotRaw (ident A.num_qubits) A).poly = A.poly
    rw [dotRaw_eq]
    show SpecialPolynomial.add A.poly ((ident A.num_qubits).poly.evaluate _) = A.poly
    rw [show (ident A.num_qubits).poly = zero A.num_qubits from rfl]
    exact add_eval_zero A.poly hn hl2' hl3' (by rw [hw0]; decide) hr1 hr2 hr3 _
  · show (dotRaw (ident A.num_qubits) A).linear = A.linear
    rw [dotRaw_eq]
    show z2matmul (ident A.num_qubits).linear A.linear = A.linear
    rw [show (ident A.num_qubits).linear = eye A.num_qubits from rfl]
    exact z2matmul_eye_left hLl hLr hqL
  · show (dotRaw (ident A.num_qubits) A).shift = A.shift
    rw [dotRaw_eq]
    show List.zipWith (fun a b => (a + b) % 2)
      (z2matvecmul (ident A.num_qubits).linear A.shift) (ident A.num_qubits).shift =
      A.shift
    rw [show (ident A.num_qubits).linear = eye A.num_qubits from rfl,
      show (ident A.num_qubits).shift = List.replicate A.num_qubits 0 from rfl]
    exact shift_dot_left_id hsl hqs

theorem dvd_emod8 {d x : Int} (h1 : d ∣ x) (h2 : d ∣ 8) : d ∣ x % 8 := by
  have hx : x % 8 = x - 8 * (x / 8) := by omega
  rw [hx]
  exact dvd_sub h1 (h2.mul_right _)

theorem dvd_getD {d : Int} {l : List Int} (h : ∀ v ∈ l, d ∣ v) (m : Nat) :
    d ∣ l.getD m 0 := by
  rcases Nat.lt_or_ge m l.length with hm | hm
  · rw [List.getD_eq_getElem _ _ hm]
    exact h _ (List.getElem_mem hm)
  · rw [List.getD_eq_default _ _ hm]
    exact dvd_zero d

theorem get_pair_dvd {d : Int} {X : SpecialPolynomial}
    (h : ∀ v ∈ X.weight_2, d ∣ v) (a b : Nat) : d ∣ X.get_term [a, b] :=
  dvd_getD h (pos2 a b)

theorem get_triple_dvd {d : Int} {X : SpecialPolynomial}
    (h : ∀ v ∈ X.weight_3, d ∣ v) (a b c : Nat) : d ∣ X.get_term [a, b, c] :=
  dvd_getD h (pos3 a b c)

theorem smul_w2_dvd {d c : Int} (hd : d ∣ 8) {X : SpecialPolynomial}
    (h : ∀ v ∈ X.weight_2, d ∣ v) : ∀ v ∈ (smul c X).weight_2, d ∣ v := by
  intro v hv
  simp only [smul, mkPoly, List.mem_map] at hv
  obtain ⟨u, hu, rfl⟩ := hv
  obtain ⟨j, i, hji, hi, rfl⟩ := pairListC_mem hu
  exact dvd_emod8 ((get_pair_dvd h j i).mul_left c) hd

theorem smul_w3_dvd {d c : Int} (hd : d ∣ 8) {X : SpecialPolynomial}
    (h : ∀ v ∈ X.weight_3, d ∣ v) : ∀ v ∈ (smul c X).weight_3, d ∣ v := by
  intro v hv
  simp only [smul, mkPoly, List.mem_map] at hv
  obtain ⟨u, hu, rfl⟩ := hv
  obtain ⟨k, j, i, hkj, hji, hi, rfl⟩ := tripleListC_mem hu
  exact dvd_emod8 ((get_triple_dvd h k j i).mul_left c) hd

/-- Coefficient of a scaled polynomial is divisible by any divisor of the
scalar (and of 8), at every term. -/
theorem get_smul_dvd {d c : Int} (hd : d ∣ 8) (hc : d ∣ c) (X : SpecialPolynomial)
    (t : List Nat) : d ∣ (smul c X).get_term t := by
  match t with
  | [] => exact dvd_emod8 (hc.mul_right _) hd
  | [j] =>
    refine dvd_getD ?_ j
    intro v hv
    simp only [smul, mkPoly, List.mem_map] at hv
    obtain ⟨u, hu, rfl⟩ := hv
    exact dvd_emod8 (hc.mul_right _) hd
  | [j, i] =>
    refine dvd_getD ?_ (pos2 j i)
    intro v hv
    simp only [smul, mkPoly, List.mem_map] at hv
    obtain ⟨u, hu, rfl⟩ := hv
    exact dvd_emod8 (hc.mul_right _) hd
  | [k, j, i] =>
    refine dvd_getD ?_ (pos3 k j i)
    intro v hv
    simp only [smul, mkPoly, List.mem_map] at hv
    obtain ⟨u, hu, rfl⟩ := hv
    exact dvd_emod8 (hc.mul_right _) hd
  | a :: b :: c' :: d' :: r =>
    rw [get_long_eq_zero _ _ (by simp)]
    exact dvd_zero d

theorem get_len2_dvd {d : Int} {X : SpecialPolynomial}
    (h2 : ∀ v ∈ X.weight_2, d ∣ v) (h3 : ∀ v ∈ X.weight_3, d ∣ v)
    {S : List Nat} (hS : 2 ≤ S.length) : d ∣ X.get_term S := by
  match S, hS with
  | [a, b], _ => exact get_pair_dvd h2 a b
  | [a, b, c], _ => exact get_triple_dvd h3 a b c
  | a :: b :: c :: d' :: r, _ =>
    rw [get_long_eq_zero _ _ (by simp)]
    exact dvd_zero d

theorem covers_mem_iff {t S T : List Nat} :
    covers t S T = true ↔ ∀ x ∈ t, x ∈ S ∨ x ∈ T := by
  simp [covers]

theorem covers_triple_min_len {a b c : Nat} (hab : a < b) (hbc : b < c)
    {S T : List Nat} (hSl : S.length ≤ 1) (hTl : T.length ≤ 1)
    (hc : covers [a, b, c] S T = true) : False := by
  rw [covers_mem_iff] at hc
  have h1 := hc a (by simp)
  have h2 := hc b (by simp)
  have h3 := hc c (by simp)
  match S, hSl, T, hTl with
  | [], _, [], _ => simp at h1
  | [], _, [u], _ => simp at h1 h2; omega
  | [s], _, [], _ => simp at h1 h2; omega
  | [s], _, [u], _ => simp at h1 h2 h3; omega

/-- Cubic coefficients of a product of two polynomials with even
quadratic and cubic coefficients are even. -/
theorem mul_w3_even {p q : SpecialPolynomial}
    (hp2 : ∀ v ∈ p.weight_2, 2 ∣ v) (hp3 : ∀ v ∈ p.weight_3, 2 ∣ v)
    (hq2 : ∀ v ∈ q.weight_2, 2 ∣ v) (hq3 : ∀ v ∈ q.weight_3, 2 ∣ v) :
    ∀ v ∈ (mul p q).weight_3, 2 ∣ v := by
  intro v hv
  simp only [mul, mkPoly, List.mem_map] at hv
  obtain ⟨u, hu, rfl⟩ := hv
  obtain ⟨k, j, i, hkj, hji, hi, rfl⟩ := tripleListC_mem hu
  unfold mulCoeff
  refine dvd_emod8 (List.dvd_sum ?_) (by norm_num)
  intro x hx
  obtain ⟨S, hS, rfl⟩ := List.mem_map.mp hx
  refine List.dvd_sum ?_
  intro y hy
  obtain ⟨T, hT, rfl⟩ := List.mem_map.mp hy
  by_cases hcov : covers [k, j, i] S T = true
  · rw [if_pos hcov]
    rcases Nat.lt_or_ge S.length 2 with hSl | hSl
    · rcases Nat.lt_or_ge T.length 2 with hTl | hTl
      · exact absurd hcov (fun h => covers_triple_min_len hkj hji
          (by omega) (by omega) h)
      · exact ((get_len2_dvd hq2 hq3 hTl).mul_left _)
    · exact ((get_len2_dvd hp2 hp3 hSl).mul_right _)
  · rw [if_neg hcov]
    exact dvd_zero 2

theorem set_pj_w2_dvd (n : Nat) (s : List Nat) :
    ∀ v ∈ (set_pj n s).weight_2, (2 : Int) ∣ v := by
  intro v hv
  simp only [set_pj, mkPoly, List.mem_map] at hv
  obtain ⟨u, hu, rfl⟩ := hv
  obtain ⟨j, i, hji, hi, rfl⟩ := pairListC_mem hu
  by_cases hc : ¬[j, i] = [] ∧ ([j, i].all fun a => s.contains a) = true
  · rw [if_pos hc]
    show (2 : Int) ∣ (-2) ^ (2 - 1) % 8
    decide
  · rw [if_neg hc]
    exact dvd_zero 2

theorem set_pj_w3_dvd (n : Nat) (s : List Nat) :
    ∀ v ∈ (set_pj n s).weight_3, (4 : Int) ∣ v := by
  intro v hv
  simp only [set_pj, mkPoly, List.mem_map] at hv
  obtain ⟨u, hu, rfl⟩ := hv
  obtain ⟨k, j, i, hkj, hji, hi, rfl⟩ := tripleListC_mem hu
  by_cases hc : ¬[k, j, i] = [] ∧ ([k, j, i].all fun a => s.contains a) = true
  · rw [if_pos hc]
    show (4 : Int) ∣ (-2) ^ (3 - 1) % 8
    decide
  · rw [if_neg hc]
    exact dvd_zero 4

theorem zero_w2_dvd (n : Nat) (d : Int) : ∀ v ∈ (zero n).weight_2, d ∣ v := by
  intro v hv
  simp only [zero, mkPoly, List.mem_map] at hv
  obtain ⟨u, hu, rfl⟩ := hv
  exact dvd_zero d

theorem zero_w3_dvd (n : Nat) (d : Int) : ∀ v ∈ (zero n).weight_3, d ∣ v := by
  intro v hv
  simp only [zero, mkPoly, List.mem_map] at hv
  obtain ⟨u, hu, rfl⟩ := hv
  exact dvd_zero d

/-- Scaled cubic coefficients with an even scalar and even cubic
coefficients are divisible by four. -/
theorem smul_w3_dvd4_of {c : Int} {X : SpecialPolynomial} (hc : 2 ∣ c)
    (h3 : ∀ v ∈ X.weight_3, (2 : Int) ∣ v) :
    ∀ v ∈ (smul c X).weight_3, (4 : Int) ∣ v := by
  intro v hv
  simp only [smul, mkPoly, List.mem_map] at hv
  obtain ⟨u, hu, rfl⟩ := hv
  obtain ⟨k, j, i, hkj, hji, hi, rfl⟩ := tripleListC_mem hu
  refine dvd_emod8 ?_ (by norm_num)
  obtain ⟨x, hx'⟩ := hc
  obtain ⟨y, hy'⟩ := get_triple_dvd h3 k j i
  rw [hx', hy']
  exact ⟨x * y, by ring⟩

/-- Quadratic coefficients of `evaluate` are even when the polynomial's
quadratic and cubic coefficients and the substituted polynomials'
quadratic coefficients are even. -/
theorem eval_pair_dvd (Y : SpecialPolynomial) (qs : List SpecialPolynomial)
    (hY2 : ∀ v ∈ Y.weight_2, 2 ∣ v) (hY3 : ∀ v ∈ Y.weight_3, 2 ∣ v)
    (hq2 : ∀ j, ∀ v ∈ (qs.getD j (zero Y.n_vars)).weight_2, 2 ∣ v)
    {a b : Nat} (hab : a < b) (hb : b < Y.n_vars) :
    2 ∣ (Y.evaluate qs).get_term [a, b] := by
  rw [get_evaluate_sums Y qs (canon_two hab hb)]
  refine dvd_emod8 ?_ (by norm_num)
  rw [if_neg (by simp)]
  refine dvd_add (dvd_add (dvd_add (dvd_zero 2) (List.dvd_sum ?_)) (List.dvd_sum ?_))
    (List.dvd_sum ?_)
  · intro x hx
    obtain ⟨j, hj, rfl⟩ := List.mem_map.mp hx
    exact get_pair_dvd (smul_w2_dvd (by norm_num) (hq2 j)) a b
  · intro x hx
    obtain ⟨u, hu, rfl⟩ := List.mem_map.mp hx
    obtain ⟨j, i, hji, hi, rfl⟩ := pairListC_mem hu
    exact get_smul_dvd (by norm_num) (get_pair_dvd hY2 j i) _ _
  · intro x hx
    obtain ⟨u, hu, rfl⟩ := List.mem_map.mp hx
    obtain ⟨k, j, i, hkj, hji, hi, rfl⟩ := tripleListC_mem hu
    exact get_smul_dvd (by norm_num) (get_triple_dvd hY3 k j i) _ _

/-- Cubic coefficients of `evaluate` are divisible by four when the
polynomial and the substituted polynomials have the §4.7 parities. -/
theorem eval_triple_dvd (Y : SpecialPolynomial) (qs : List SpecialPolynomial)
    (hY2 : ∀ v ∈ Y.weight_2, 2 ∣ v) (hY3 : ∀ v ∈ Y.weight_3, 4 ∣ v)
    (hq2 : ∀ j, ∀ v ∈ (qs.getD j (zero Y.n_vars)).weight_2, 2 ∣ v)
    (hq3 : ∀ j, ∀ v ∈ (qs.getD j (zero Y.n_vars)).weight_3, 4 ∣ v)
    {a b c : Nat} (hab : a < b) (hbc : b < c) (hc : c < Y.n_vars) :
    4 ∣ (Y.evaluate qs).get_term [a, b, c] := by
  rw [get_evaluate_sums Y qs (canon_three hab hbc hc)]
  refine dvd_emod8 ?_ (by norm_num)
  rw [if_neg (by simp)]
  refine dvd_add (dvd_add (dvd_add (dvd_zero 4) (List.dvd_sum ?_)) (List.dvd_sum ?_))
    (List.dvd_sum ?_)
  · intro x hx
    obtain ⟨j, hj, rfl⟩ := List.mem_map.mp hx
    exact get_triple_dvd (smul_w3_dvd (by norm_num) (hq3 j)) a b c
  · intro x hx
    obtain ⟨u, hu, rfl⟩ := List.mem_map.mp hx
    obtain ⟨j, i, hji, hi, rfl⟩ := pairListC_mem hu
    have h2c : (2 : Int) ∣ Y.get_term [j, i] := get_pair_dvd hY2 j i
    have h2m : ∀ v ∈ (mul (qs.getD j (zero Y.n_vars))
        (qs.getD i (zero Y.n_vars))).weight_3, (2 : Int) ∣ v :=
      mul_w3_even (hq2 j) (fun v hv => dvd_trans (by norm_num) (hq3 j v hv))
        (hq2 i) (fun v hv => dvd_trans (by norm_num) (hq3 i v hv))
    exact get_triple_dvd (smul_w3_dvd4_of h2c h2m) a b c
  · intro x hx
    obtain ⟨u, hu, rfl⟩ := List.mem_map.mp hx
    obtain ⟨k, j, i, hkj, hji, hi, rfl⟩ := tripleListC_mem hu
    exact get_smul_dvd (by norm_num) (get_triple_dvd hY3 k j i) _ _

theorem intCast_sum_emod_two (s : Finset Nat) (f : Nat → Int) :
    (((∑ k ∈ s, f k) % 2 : Int) : ZMod 2) = ∑ k ∈ s, ((f k : Int) : ZMod 2) := by
  rw [intCast_emod_two]
  push_cast
  rfl

/-- The GF(2) view of `_z2matmul` is matrix multiplication. -/
theorem toMat_z2matmul {n : Nat} {L R : List (List Int)} (hL : L.length = n)
    (hLr : ∀ r ∈ L, r.length = n) (hR : R.length = n)
    (hRr : ∀ r ∈ R, r.length = n) :
    toMat n (z2matmul L R) = toMat n L * toMat n R := by
  have hhead : (R.headD []).length = n := headD_row_length hR hRr
  refine Matrix.ext (fun i j => ?_)
  have hiL : (i : Nat) < L.length := by rw [hL]; exact i.isLt
  rw [Matrix.mul_apply]
  show ((((z2matmul L R).getD i []).getD j 0 : Int) : ZMod 2) = _
  have h1 : (z2matmul L R).getD (i : Nat) [] =
      (List.range ((R.headD []).length)).map (fun jj =>
        (∑ k ∈ Finset.range R.length,
          (L[(i : Nat)].getD k 0) * (R.getD k []).getD jj 0) % 2) := by
    unfold z2matmul
    rw [List.getD_eq_getElem _ _ (by simpa using hiL), List.getElem_map]
  rw [h1, hhead, getD_map_range _ _ j.isLt, hR]
  rw [intCast_emod_two]
  push_cast
  rw [← Fin.sum_univ_eq_sum_range (fun k => ((L[(i : Nat)].getD k 0 : Int) : ZMod 2) *
    (((R.getD k []).getD j 0 : Int) : ZMod 2)) n]
  refine Finset.sum_congr rfl (fun k _ => ?_)
  show _ = toMat n L i k * toMat n R k j
  unfold toMat
  rw [Matrix.of_apply, Matrix.of_apply, List.getD_eq_getElem _ _ hiL]

theorem int_emod8_mem8 (x : Int) : x % 8 ∈ ([0, 1, 2, 3, 4, 5, 6, 7] : List Int) := by
  simp only [List.mem_cons, List.not_mem_nil, or_false]
  omega

theorem int_emod8_mem0246 {x : Int} (h : 2 ∣ x) :
    x % 8 ∈ ([0, 2, 4, 6] : List Int) := by
  simp only [List.mem_cons, List.not_mem_nil, or_false]
  omega

theorem int_emod8_mem04 {x : Int} (h : 4 ∣ x) : x % 8 ∈ ([0, 4] : List Int) := by
  simp only [List.mem_cons, List.not_mem_nil, or_false]
  omega

theorem int_emod2_mem01 (x : Int) : x % 2 ∈ ([0, 1] : List Int) := by
  simp only [List.mem_cons, List.not_mem_nil, or_false]
  omega

theorem dvd_of_mem0246 {v : Int} (h : v ∈ ([0, 2, 4, 6] : List Int)) : 2 ∣ v := by
  simp only [List.mem_cons, List.not_mem_nil, or_false] at h
  rcases h with rfl | rfl | rfl | rfl <;> decide

theorem dvd_of_mem04 {v : Int} (h : v ∈ ([0, 4] : List Int)) : (4 : Int) ∣ v := by
  simp only [List.mem_cons, List.not_mem_nil, or_false] at h
  rcases h with rfl | rfl <;> decide

theorem z2matmul_length {L R : List (List Int)} :
    (z2matmul L R).length = L.length := by
  simp [z2matmul]

theorem z2matmul_rows {n : Nat} {L R : List (List Int)} (hR : R.length = n)
    (hRr : ∀ r ∈ R, r.length = n) :
    ∀ row ∈ z2matmul L R, row.length = n := by
  intro row hrow
  simp only [z2matmul, List.mem_map] at hrow
  obtain ⟨r, hr, rfl⟩ := hrow
  rw [List.length_map, List.length_range]
  exact headD_row_length hR hRr

theorem z2matmul_entries {L R : List (List Int)} :
    ∀ row ∈ z2matmul L R, ∀ v ∈ row, v ∈ ([0, 1] : List Int) := by
  intro row hrow v hv
  simp only [z2matmul, List.mem_map] at hrow
  obtain ⟨r, hr, rfl⟩ := hrow
  simp only [List.mem_map] at hv
  obtain ⟨jj, hjj, rfl⟩ := hv
  exact int_emod2_mem01 _

theorem z2matvecmul_length (mat : List (List Int)) (vec : List Int) :
    (z2matvecmul mat vec).length = mat.length := by
  simp [z2matvecmul]

/-- Validity of the record produced by the composition body, with the
global phase forced to zero. -/
theorem combined_result_valid {n : Nat} (P Q : SpecialPolynomial)
    (L1 L2 : List (List Int)) (s1 s2 : List Int) (qs : List SpecialPolynomial)
    (hPn : P.n_vars = n) (hQn : Q.n_vars = n)
    (hP2 : ∀ v ∈ P.weight_2, 2 ∣ v) (hP3 : ∀ v ∈ P.weight_3, (4 : Int) ∣ v)
    (hQ2 : ∀ v ∈ Q.weight_2, 2 ∣ v) (hQ3 : ∀ v ∈ Q.weight_3, (4 : Int) ∣ v)
    (hL1 : L1.length = n) (hL1r : ∀ r ∈ L1, r.length = n)
    (hL2 : L2.length = n) (hL2r : ∀ r ∈ L2, r.length = n)
    (hdet : (toMat n L1).det * (toMat n L2).det = 1)
    (hs1 : s1.length = n)
    (hq2 : ∀ j, ∀ v ∈ (qs.getD j (zero n)).weight_2, 2 ∣ v)
    (hq3 : ∀ j, ∀ v ∈ (qs.getD j (zero n)).weight_3, (4 : Int) ∣ v) :
    ({ num_qubits := n,
       linear := z2matmul L1 L2,
       shift := List.zipWith (fun a b => (a + b) % 2) (z2matvecmul L1 s2) s1,
       poly := { SpecialPolynomial.add Q (P.evaluate qs) with weight_0 := 0 } } :
      CNOTDihedral)._is_valid := by
  have hq2' : ∀ j, ∀ v ∈ (qs.getD j (zero P.n_vars)).weight_2, 2 ∣ v := by
    rw [hPn]; exact hq2
  have hq3' : ∀ j, ∀ v ∈ (qs.getD j (zero P.n_vars)).weight_3, (4 : Int) ∣ v := by
    rw [hPn]; exact hq3
  unfold _is_valid
  refine ⟨rfl, ?_, ?_, ?_, ?_, ?_, ?_, ?_, ?_, ?_, ?_, ?_, ?_⟩
  · show (SpecialPolynomial.add Q (P.evaluate qs)).weight_1.length = n
    simp only [SpecialPolynomial.add, mkPoly]
    simp [hQn]
  · show (SpecialPolynomial.add Q (P.evaluate qs)).weight_2.length =
      n * (n - 1) / 2
    simp only [SpecialPolynomial.add, mkPoly]
    rw [List.length_map, pairListC_length, hQn, choose_two_eq]
  · show (SpecialPolynomial.add Q (P.evaluate qs)).weight_3.length =
      n * (n - 1) * (n - 2) / 6
    simp only [SpecialPolynomial.add, mkPoly]
    rw [List.length_map, tripleListC_length, hQn, choose_three_eq]
  · show (z2matmul L1 L2).length = n
    rw [z2matmul_length, hL1]
  · exact z2matmul_rows hL2 hL2r
  · show (List.zipWith (fun a b => (a + b) % 2) (z2matvecmul L1 s2) s1).length = n
    rw [List.length_zipWith, z2matvecmul_length, hL1, hs1]
    omega
  · show (toMat n (z2matmul L1 L2)).det = 1
    rw [toMat_z2matmul hL1 hL1r hL2 hL2r, Matrix.det_mul, hdet]
  · show ∀ v ∈ (SpecialPolynomial.add Q (P.evaluate qs)).weight_1, _
    intro v hv
    simp only [SpecialPolynomial.add, mkPoly, List.mem_map] at hv
    obtain ⟨u, hu, rfl⟩ := hv
    exact int_emod8_mem8 _
  · show ∀ v ∈ (SpecialPolynomial.add Q (P.evaluate qs)).weight_2, _
    intro v hv
    simp only [SpecialPolynomial.add, mkPoly, List.mem_map] at hv
    obtain ⟨u, hu, rfl⟩ := hv
    obtain ⟨j, i, hji, hi, rfl⟩ := pairListC_mem hu
    refine int_emod8_mem0246 (dvd_add (get_pair_dvd hQ2 j i) ?_)
    exact eval_pair_dvd P qs hP2
      (fun v hv => dvd_trans (by norm_num) (hP3 v hv)) hq2' hji
      (by rw [hPn, ← hQn]; exact hi)
  · show ∀ v ∈ (SpecialPolynomial.add Q (P.evaluate qs)).weight_3, _
    intro v hv
    simp only [SpecialPolynomial.add, mkPoly, List.mem_map] at hv
    obtain ⟨u, hu, rfl⟩ := hv
    obtain ⟨k, j, i, hkj, hji, hi, rfl⟩ := tripleListC_mem hu
    refine int_emod8_mem04 (dvd_add (get_triple_dvd hQ3 k j i) ?_)
    exact eval_triple_dvd P qs hP2 hP3 hq2' hq3' hkj hji
      (by rw [hPn, ← hQn]; exact hi)
  · show ∀ v ∈ List.zipWith (fun a b => (a + b) % 2) (z2matvecmul L1 s2) s1, _
    intro v hv
    obtain ⟨idx, hidx, rfl⟩ := List.mem_iff_getElem.mp hv
    rw [List.getElem_zipWith]
    exact int_emod2_mem01 _
  · exact z2matmul_entries

/-- The substitution polynomials built by the composition bodies have even
quadratic coefficients. -/
theorem newvars_w2_dvd (n m : Nat) (M : List (List Int)) (sv : List Int) :
    ∀ j, ∀ v ∈ (((List.range n).map (fun i =>
      let support := (List.range m).filter (fun jj => (M.getD i []).getD jj 0 != 0)
      let poly := SpecialPolynomial.set_pj n support
      if sv.getD i 0 = 1 then
        let poly := SpecialPolynomial.smul (-1) poly
        { poly with weight_0 := (poly.weight_0 + 1) % 8 }
      else poly)).getD j (zero n)).weight_2, (2 : Int) ∣ v := by
  intro j v hv
  rcases Nat.lt_or_ge j n with hj | hj
  · rw [getD_map_range _ _ hj] at hv
    have hv' : v ∈ (if sv.getD j 0 = 1 then
        { (SpecialPolynomial.smul (-1) (SpecialPolynomial.set_pj n
          ((List.range m).filter (fun jj => (M.getD j []).getD jj 0 != 0)))) with
          weight_0 := ((SpecialPolynomial.smul (-1) (SpecialPolynomial.set_pj n
            ((List.range m).filter
              (fun jj => (M.getD j []).getD jj 0 != 0)))).weight_0 + 1) % 8 }
      else SpecialPolynomial.set_pj n
        ((List.range m).filter (fun jj => (M.getD j []).getD jj 0 != 0))).weight_2 :=
      hv
    by_cases hc : sv.getD j 0 = 1
    · rw [if_pos hc] at hv'
      exact smul_w2_dvd (by norm_num) (set_pj_w2_dvd n _) v hv'
    · rw [if_neg hc] at hv'
      exact set_pj_w2_dvd n _ v hv'
  · rw [List.getD_eq_default _ _ (by simpa using hj)] at hv
    exact zero_w2_dvd n 2 v hv

/-- The substitution polynomials built by the composition bodies have
cubic coefficients divisible by four. -/
theorem newvars_w3_dvd (n m : Nat) (M : List (List Int)) (sv : List Int) :
    ∀ j, ∀ v ∈ (((List.range n).map (fun i =>
      let support := (List.range m).filter (fun jj => (M.getD i []).getD jj 0 != 0)
      let poly := SpecialPolynomial.set_pj n support
      if sv.getD i 0 = 1 then
        let poly := SpecialPolynomial.smul (-1) poly
        { poly with weight_0 := (poly.weight_0 + 1) % 8 }
      else poly)).getD j (zero n)).weight_3, (4 : Int) ∣ v := by
  intro j v hv
  rcases Nat.lt_or_ge j n with hj | hj
  · rw [getD_map_range _ _ hj] at hv
    have hv' : v ∈ (if sv.getD j 0 = 1 then
        { (SpecialPolynomial.smul (-1) (SpecialPolynomial.set_pj n
          ((List.range m).filter (fun jj => (M.getD j []).getD jj 0 != 0)))) with
          weight_0 := ((SpecialPolynomial.smul (-1) (SpecialPolynomial.set_pj n
            ((List.range m).filter
              (fun jj => (M.getD j []).getD jj 0 != 0)))).weight_0 + 1) % 8 }
      else SpecialPolynomial.set_pj n
        ((List.range m).filter (fun jj => (M.getD j []).getD jj 0 != 0))).weight_3 :=
      hv
    by_cases hc : sv.getD j 0 = 1
    · rw [if_pos hc] at hv'
      exact smul_w3_dvd (by norm_num) (set_pj_w3_dvd n _) v hv'
    · rw [if_neg hc] at hv'
      exact set_pj_w3_dvd n _ v hv'
  · rw [List.getD_eq_default _ _ (by simpa using hj)] at hv
    exact zero_w3_dvd n 4 v hv

/-- The composeRaw body written as an explicit record. -/
theorem composeRaw_eq (self other : CNOTDihedral) :
    composeRaw self other =
      { num_qubits := self.num_qubits,
        linear := z2matmul other.linear self.linear,
        shift := List.zipWith (fun a b => (a + b) % 2)
          (z2matvecmul other.linear self.shift) other.shift,
        poly := SpecialPolynomial.add self.poly (other.poly.evaluate
          ((List.range self.num_qubits).map (fun i =>
            let support := (List.range other.num_qubits).filter
              (fun j => (self.linear.getD i []).getD j 0 != 0)
            let poly := SpecialPolynomial.set_pj self.num_qubits support
            if self.shift.getD i 0 = 1 then
              let poly := SpecialPolynomial.smul (-1) poly
              { poly with weight_0 := (poly.weight_0 + 1) % 8 }
            else poly))) } := rfl

/-- C3: composing two valid elements of equal qubit count, for either
front flag, yields a valid element whose global-phase constant is 0. -/
theorem C3_compose_closure (A B : CNOTDihedral) (front : Bool)
    (hA : A._is_valid) (hB : B._is_valid) (hn : A.num_qubits = B.num_qubits) :
    ∃ R, compose A B none front = Except.ok R ∧ R._is_valid ∧
      R.poly.weight_0 = 0 := by
  obtain ⟨hAw0, hAl1, hAl2, hAl3, hALl, hALr, hAsl, hAdet, hAq1, hAq2, hAq3,
    hAqs, hAqL⟩ := hA
  obtain ⟨hBw0, hBl1, hBl2, hBl3, hBLl, hBLr, hBsl, hBdet, hBq1, hBq2, hBq3,
    hBqs, hBqL⟩ := hB
  have hAn : A.poly.n_vars = A.num_qubits := hAl1
  have hBn : B.poly.n_vars = A.num_qubits := by rw [hn]; exact hBl1
  have hBLl' : B.linear.length = A.num_qubits := by rw [hn]; exact hBLl
  have hBLr' : ∀ r ∈ B.linear, r.length = A.num_qubits := by rw [hn]; exact hBLr
  have hBsl' : B.shift.length = A.num_qubits := by rw [hn]; exact hBsl
  have hBdet' : (toMat A.num_qubits B.linear).det = 1 := by rw [hn]; exact hBdet
  have hA2 : ∀ v ∈ A.poly.weight_2, (2 : Int) ∣ v :=
    fun v hv => dvd_of_mem0246 (hAq2 v hv)
  have hA3 : ∀ v ∈ A.poly.weight_3, (4 : Int) ∣ v :=
    fun v hv => dvd_of_mem04 (hAq3 v hv)
  have hB2 : ∀ v ∈ B.poly.weight_2, (2 : Int) ∣ v :=
    fun v hv => dvd_of_mem0246 (hBq2 v hv)
  have hB3 : ∀ v ∈ B.poly.weight_3, (4 : Int) ∣ v :=
    fun v hv => dvd_of_mem04 (hBq3 v hv)
  unfold compose
  rw [if_neg (by simp), if_neg (by omega)]
  cases front with
  | true =>
    rw [if_pos rfl]
    refine ⟨_, rfl, ?_, rfl⟩
    rw [dotRaw_eq]
    exact combined_result_valid A.poly B.poly A.linear B.linear A.shift B.shift _
      hAn (by rw [hn]; exact hBl1) hA2 hA3 hB2 hB3 hALl hALr hBLl' hBLr'
      (by rw [hAdet, hBdet', one_mul]) hAsl
      (newvars_w2_dvd A.num_qubits A.num_qubits B.linear B.shift)
      (newvars_w3_dvd A.num_qubits A.num_qubits B.linear B.shift)
  | false =>
    rw [if_neg (by simp)]
    refine ⟨_, rfl, ?_, rfl⟩
    rw [composeRaw_eq]
    exact combined_result_valid B.poly A.poly B.linear A.linear B.shift A.shift _
      hBn hAn hB2 hB3 hA2 hA3 hBLl' hBLr' hALl hALr
      (by rw [hAdet, hBdet', mul_one]) hBsl'
      (newvars_w2_dvd A.num_qubits B.num_qubits A.linear A.shift)
      (newvars_w3_dvd A.num_qubits B.num_qubits A.linear A.shift)

theorem C8_identity_laws_witness :
    exT._is_valid ∧
    (exT._dot (ident exT.num_qubits) = Except.ok (dotRaw exT (ident exT.num_qubits)) ∧
     eqv (dotRaw exT (ident exT.num_qubits)) exT ∧
     (ident exT.num_qubits)._dot exT = Except.ok (dotRaw (ident exT.num_qubits) exT) ∧
     eqv (dotRaw (ident exT.num_qubits) exT) exT) :=
  ⟨by decide, C8_identity_laws exT (by decide)⟩

theorem C3_compose_closure_witness :
    exCX._is_valid ∧
    ∃ R, compose exCX exCX none true = Except.ok R ∧ R._is_valid ∧
      R.poly.weight_0 = 0 :=
  ⟨by decide, C3_compose_closure exCX exCX true (by decide) (by decide) rfl⟩

